import Mathlib

/-!
# The `os` bridge of the host process (`os.go`)

A shallow embedding of `os.go`: the module resolver `ResolveModule`, the two
command handlers `HandleCodeFetch` and `HandleCodeCache`, and the dispatcher
that `InitOS` registers on the channel `"os"`.

`os.go` leans on three packages of the Go standard library, `strings`,
`net/url` and `path`.  The functions it reaches there are transcribed below
from the library sources of the releases the program was written for (the
go1.10 line; the releases next to it differ in corners of `net/url`, such as
the check of a port or of the user information, that no theorem below turns
on).  What the program takes from the rest of its own repository (the remote
fetcher, the asset bundle, the cache file naming, the wire encoding) is a
field of `Env`.
-/

set_option autoImplicit false

namespace Deno

/-- A Go string or byte slice: its bytes in order, each byte written as the
character with that code. -/
abbrev GoString := List Char

/-- A Go error value, identified with the text its `Error` method returns. -/
abbrev GoError := GoString

/-- Go slice expression `s[:i]`. -/
def sliceTo (s : GoString) (i : Int) : GoString := s.take i.toNat

/-- Go slice expression `s[i:]`. -/
def sliceFrom (s : GoString) (i : Int) : GoString := s.drop i.toNat

/-! ## Package `strings` -/

namespace strings

def HasPrefix (s pre : GoString) : Bool := pre.isPrefixOf s

def HasSuffix (s suf : GoString) : Bool := suf.reverse.isPrefixOf s.reverse

def TrimPrefix (s pre : GoString) : GoString :=
  if HasPrefix s pre then s.drop pre.length else s

/-- Scan for the first position at or after `i` where `sub` starts. -/
def indexFrom (sub : GoString) : GoString → Nat → Int
  | [], i => if sub = [] then (i : Int) else -1
  | c :: s, i => if sub.isPrefixOf (c :: s) then (i : Int) else indexFrom sub s (i + 1)

/-- `strings.Index`: the first position of `sub` in `s`, or `-1`. -/
def Index (s sub : GoString) : Int := indexFrom sub s 0

/-- Scan for the last position where `sub` starts, `best` being the last one seen. -/
def lastIndexFrom (sub : GoString) : GoString → Nat → Int → Int
  | [], i, best => if sub = [] then (i : Int) else best
  | c :: s, i, best =>
    lastIndexFrom sub s (i + 1) (if sub.isPrefixOf (c :: s) then (i : Int) else best)

/-- `strings.LastIndex`: the last position of `sub` in `s`, or `-1`. -/
def LastIndex (s sub : GoString) : Int := lastIndexFrom sub s 0 (-1)

/-- `strings.Contains`. -/
def Contains (s sub : GoString) : Bool := decide (0 ≤ Index s sub)

/-- `strings.Count` for a separator of one byte, the only use the callers make of it. -/
def Count (s : GoString) (sep : Char) : Nat := s.count sep

/-- `strings.Split` for a separator of one byte, the only use the callers make of it. -/
def Split (s : GoString) (sep : Char) : List GoString := s.splitOn sep

/-- `strings.Join`. -/
def Join (elems : List GoString) (sep : GoString) : GoString := sep.intercalate elems

/-- `strings.ToLower` on the bytes of a scheme, which are ASCII. -/
def ToLower (s : GoString) : GoString :=
  s.map fun c => if 'A' ≤ c ∧ c ≤ 'Z' then Char.ofNat (c.toNat + 32) else c

end strings

/-! ## Package `net/url` -/

namespace url

/-- The fields of `url.Userinfo`. -/
structure Userinfo where
  username : GoString := []
  password : GoString := []
  passwordSet : Bool := false
deriving DecidableEq, Repr

/-- The fields of `url.URL`; `User` is `none` for Go's nil pointer. -/
structure URL where
  Scheme : GoString := []
  Opaque : GoString := []
  User : Option Userinfo := none
  Host : GoString := []
  Path : GoString := []
  RawPath : GoString := []
  ForceQuery : Bool := false
  RawQuery : GoString := []
  Fragment : GoString := []
deriving DecidableEq, Repr

inductive encoding where
  | encodePath
  | encodePathSegment
  | encodeHost
  | encodeZone
  | encodeUserPassword
  | encodeQueryComponent
  | encodeFragment
deriving DecidableEq, Repr

open encoding

/-- The digit `"0123456789abcdef"[n]`. -/
def lowerhex (n : Nat) : Char := "0123456789abcdef".toList.getD n '0'

/-- What `strconv.Quote` writes for one byte between the quotes: an escape for
the quote, the backslash and every byte that is not printable, and the byte itself
otherwise.  A byte of `0x80` and above is written as `\xNN`, as `strconv.Quote`
writes a byte that is not part of a valid UTF-8 sequence; the runes beyond ASCII,
which it copies or writes as `\u` escapes, are not told apart here. -/
def quoteByte (c : Char) : GoString :=
  if c = '"' ∨ c = '\\' then ['\\', c]
  else if ' ' ≤ c ∧ c ≤ '~' then [c]
  else if c = Char.ofNat 7 then ['\\', 'a']
  else if c = Char.ofNat 8 then ['\\', 'b']
  else if c = Char.ofNat 12 then ['\\', 'f']
  else if c = Char.ofNat 10 then ['\\', 'n']
  else if c = Char.ofNat 13 then ['\\', 'r']
  else if c = Char.ofNat 9 then ['\\', 't']
  else if c = Char.ofNat 11 then ['\\', 'v']
  else if c = Char.ofNat 127 then ['\\', 'u', '0', '0', '7', 'f']
  else ['\\', 'x', lowerhex (c.toNat / 16), lowerhex (c.toNat % 16)]

/-- The function `strconv.Quote`. -/
def quote (s : GoString) : GoString := '"' :: (s.flatMap quoteByte ++ ['"'])

/-- `EscapeError.Error`. -/
def EscapeError (s : GoString) : GoError := "invalid URL escape ".toList ++ quote s

/-- `InvalidHostError.Error`. -/
def InvalidHostError (s : GoString) : GoError :=
  "invalid character ".toList ++ quote s ++ " in host name".toList

/-- `(*url.Error).Error` for the operation `op` on `u`. -/
def Error (op u : GoString) (err : GoError) : GoError :=
  op ++ " ".toList ++ u ++ ": ".toList ++ err

def ishex (c : Char) : Bool :=
  if '0' ≤ c ∧ c ≤ '9' then true
  else if 'a' ≤ c ∧ c ≤ 'f' then true
  else if 'A' ≤ c ∧ c ≤ 'F' then true
  else false

def unhex (c : Char) : Nat :=
  if '0' ≤ c ∧ c ≤ '9' then c.toNat - '0'.toNat
  else if 'a' ≤ c ∧ c ≤ 'f' then c.toNat - 'a'.toNat + 10
  else if 'A' ≤ c ∧ c ≤ 'F' then c.toNat - 'A'.toNat + 10
  else 0

/-- Return true if the byte `c` must be escaped when it stands in the part of a
URL that `mode` names. -/
def shouldEscape (c : Char) (mode : encoding) : Bool :=
  if ('A' ≤ c ∧ c ≤ 'Z') ∨ ('a' ≤ c ∧ c ≤ 'z') ∨ ('0' ≤ c ∧ c ≤ '9') then false
  else if (mode = encodeHost ∨ mode = encodeZone) ∧
      ['!', '$', '&', '\'', '(', ')', '*', '+', ',', ';', '=', ':', '[', ']', '<', '>', '"'].contains c
    then false
  else if ['-', '_', '.', '~'].contains c then false
  else if ['$', '&', '+', ',', '/', ':', ';', '=', '?', '@'].contains c then
    match mode with
    | encodePath => c = '?'
    | encodePathSegment => c = '/' ∨ c = ';' ∨ c = ',' ∨ c = '?'
    | encodeUserPassword => c = '@' ∨ c = '/' ∨ c = '?' ∨ c = ':'
    | encodeQueryComponent => true
    | encodeFragment => false
    | _ => true
  else true

/-- First loop of `unescape`: count the `%` and check that each is well formed.
The result is `n` and `hasPlus`. -/
def unescapeCheck (mode : encoding) : GoString → Nat → Bool → Except GoError (Nat × Bool)
  | [], n, hasPlus => .ok (n, hasPlus)
  | c :: rest, n, hasPlus =>
    if c = '%' then
      match rest with
      | a :: b :: rest2 =>
        if !ishex a || !ishex b then .error (EscapeError [c, a, b])
        else if mode = encodeHost ∧ unhex a < 8 ∧ [c, a, b] ≠ "%25".toList then
          .error (EscapeError [c, a, b])
        else if mode = encodeZone ∧ [c, a, b] ≠ "%25".toList ∧
            Char.ofNat (unhex a * 16 + unhex b) ≠ ' ' ∧
            shouldEscape (Char.ofNat (unhex a * 16 + unhex b)) encodeHost then
          .error (EscapeError [c, a, b])
        else unescapeCheck mode rest2 (n + 1) hasPlus
      | _ => .error (EscapeError (c :: rest))
    else if c = '+' then
      unescapeCheck mode rest n (decide (mode = encodeQueryComponent))
    else if (mode = encodeHost ∨ mode = encodeZone) ∧ c.toNat < 128 ∧ shouldEscape c encodeHost then
      .error (InvalidHostError [c])
    else unescapeCheck mode rest n hasPlus

/-- Second loop of `unescape`: build the decoded bytes. -/
def unescapeDecode (mode : encoding) : GoString → GoString
  | [] => []
  | c :: rest =>
    if c = '%' then
      match rest with
      | a :: b :: rest2 => Char.ofNat (unhex a * 16 + unhex b) :: unescapeDecode mode rest2
      | _ => []
    else if c = '+' then
      (if mode = encodeQueryComponent then ' ' else '+') :: unescapeDecode mode rest
    else c :: unescapeDecode mode rest

def unescape (s : GoString) (mode : encoding) : Except GoError GoString :=
  match unescapeCheck mode s 0 false with
  | .error e => .error e
  | .ok (n, hasPlus) =>
    if n = 0 ∧ hasPlus = false then .ok s else .ok (unescapeDecode mode s)

/-- The digit `"0123456789ABCDEF"[n]`. -/
def upperhex (n : Nat) : Char := "0123456789ABCDEF".toList.getD n '0'

def escape (s : GoString) (mode : encoding) : GoString :=
  let spaceCount := s.countP fun c => shouldEscape c mode && (c = ' ' ∧ mode = encodeQueryComponent)
  let hexCount := s.countP fun c => shouldEscape c mode && !(c = ' ' ∧ mode = encodeQueryComponent)
  if spaceCount = 0 ∧ hexCount = 0 then s
  else
    s.flatMap fun c =>
      if c = ' ' ∧ mode = encodeQueryComponent then ['+']
      else if shouldEscape c mode then ['%', upperhex (c.toNat / 16), upperhex (c.toNat % 16)]
      else [c]

/-- The loop of `getscheme`, at index `i` with `rest = rawurl[i:]`; the result is
`(scheme, path)`. -/
def getschemeLoop (rawurl : GoString) : GoString → Nat → Except GoError (GoString × GoString)
  | [], _ => .ok ([], rawurl)
  | c :: rest, i =>
    if ('a' ≤ c ∧ c ≤ 'z') ∨ ('A' ≤ c ∧ c ≤ 'Z') then getschemeLoop rawurl rest (i + 1)
    else if ('0' ≤ c ∧ c ≤ '9') ∨ c = '+' ∨ c = '-' ∨ c = '.' then
      if i = 0 then .ok ([], rawurl) else getschemeLoop rawurl rest (i + 1)
    else if c = ':' then
      if i = 0 then .error "missing protocol scheme".toList
      else .ok (rawurl.take i, rawurl.drop (i + 1))
    else .ok ([], rawurl)

def getscheme (rawurl : GoString) : Except GoError (GoString × GoString) :=
  getschemeLoop rawurl rawurl 0

/-- With `s` of the form `t c u`, return `(t, c u)`, or `(t, u)` when `cutc`;
otherwise `(s, "")`. -/
def split (s c : GoString) (cutc : Bool) : GoString × GoString :=
  let i := strings.Index s c
  if i < 0 then (s, [])
  else if cutc then (sliceTo s i, sliceFrom s (i + c.length))
  else (sliceTo s i, sliceFrom s i)

def validOptionalPort (port : GoString) : Bool :=
  match port with
  | [] => true
  | c :: ds => if c ≠ ':' then false else ds.all fun b => !(b < '0' ∨ b > '9')

def validUserinfo (s : GoString) : Bool :=
  s.all fun r =>
    if 'A' ≤ r ∧ r ≤ 'Z' then true
    else if 'a' ≤ r ∧ r ≤ 'z' then true
    else if '0' ≤ r ∧ r ≤ '9' then true
    else ['-', '.', '_', ':', '~', '!', '$', '&', '\'', '(', ')', '*', '+', ',', ';', '=', '%', '@'].contains r

def parseHost (host : GoString) : Except GoError GoString :=
  let plain : Except GoError GoString := unescape host encodeHost
  if strings.HasPrefix host "[".toList then
    let i := strings.LastIndex host "]".toList
    if i < 0 then .error "missing ']' in host".toList
    else
      let colonPort := sliceFrom host (i + 1)
      if !validOptionalPort colonPort then
        .error ("invalid port ".toList ++ quote colonPort ++ " after host".toList)
      else
        let zone := strings.Index (sliceTo host i) "%25".toList
        if 0 ≤ zone then
          match unescape (sliceTo host zone) encodeHost with
          | .error e => .error e
          | .ok host1 =>
            match unescape (sliceTo (sliceFrom host zone) (i - zone)) encodeZone with
            | .error e => .error e
            | .ok host2 =>
              match unescape (sliceFrom host i) encodeHost with
              | .error e => .error e
              | .ok host3 => .ok (host1 ++ host2 ++ host3)
        else plain
  else plain

def parseAuthority (authority : GoString) : Except GoError (Option Userinfo × GoString) :=
  let i := strings.LastIndex authority "@".toList
  match (if i < 0 then parseHost authority else parseHost (sliceFrom authority (i + 1))) with
  | .error e => .error e
  | .ok host =>
    if i < 0 then .ok (none, host)
    else
      let userinfo := sliceTo authority i
      if !validUserinfo userinfo then .error "net/url: invalid userinfo".toList
      else if !strings.Contains userinfo ":".toList then
        match unescape userinfo encodeUserPassword with
        | .error e => .error e
        | .ok userinfo => .ok (some { username := userinfo }, host)
      else
        let up := split userinfo ":".toList true
        match unescape up.1 encodeUserPassword with
        | .error e => .error e
        | .ok username =>
          match unescape up.2 encodeUserPassword with
          | .error e => .error e
          | .ok password =>
            .ok (some { username := username, password := password, passwordSet := true }, host)

/-- The method `setPath`: set `Path` and `RawPath` from the encoded path `p`. -/
def URL.setPath (u : URL) (p : GoString) : Except GoError URL :=
  match unescape p encodePath with
  | .error e => .error e
  | .ok path =>
    if p = escape path encodePath then .ok { u with Path := path, RawPath := [] }
    else .ok { u with Path := path, RawPath := p }

def validEncodedPath (s : GoString) : Bool :=
  s.all fun c =>
    if ['!', '$', '&', '\'', '(', ')', '*', '+', ',', ';', '=', ':', '@'].contains c then true
    else if ['[', ']'].contains c then true
    else if c = '%' then true
    else !shouldEscape c encodePath

def URL.EscapedPath (u : URL) : GoString :=
  let decodes : Bool :=
    match unescape u.RawPath encodePath with
    | .ok p => decide (p = u.Path)
    | .error _ => false
  if u.RawPath ≠ [] ∧ validEncodedPath u.RawPath ∧ decodes then u.RawPath
  else if u.Path = "*".toList then "*".toList
  else escape u.Path encodePath

/-- The function `parse` behind `url.Parse` and `url.ParseRequestURI`. -/
def parse (rawurl : GoString) (viaRequest : Bool) : Except GoError URL :=
  if rawurl = [] ∧ viaRequest then .error "empty url".toList
  else if rawurl = "*".toList then .ok { Path := "*".toList }
  else
    match getscheme rawurl with
    | .error e => .error e
    | .ok (scheme, rest0) =>
      let scheme := strings.ToLower scheme
      let forceQuery : Bool :=
        strings.HasSuffix rest0 "?".toList && decide (strings.Count rest0 '?' = 1)
      let rq : GoString × GoString :=
        if forceQuery then (sliceTo rest0 (rest0.length - 1), []) else split rest0 "?".toList true
      let rest := rq.1
      let u : URL := { Scheme := scheme, ForceQuery := forceQuery, RawQuery := rq.2 }
      if !strings.HasPrefix rest "/".toList ∧ scheme ≠ [] then .ok { u with Opaque := rest }
      else if !strings.HasPrefix rest "/".toList ∧ viaRequest then
        .error "invalid URI for request".toList
      else if !strings.HasPrefix rest "/".toList ∧ 0 ≤ strings.Index rest ":".toList ∧
          (strings.Index rest "/".toList < 0 ∨
            strings.Index rest ":".toList < strings.Index rest "/".toList) then
        .error "first path segment in URL cannot contain colon".toList
      else if (scheme ≠ [] ∨ (!viaRequest ∧ !strings.HasPrefix rest "///".toList)) ∧
          strings.HasPrefix rest "//".toList then
        let ar := split (sliceFrom rest 2) "/".toList false
        match parseAuthority ar.1 with
        | .error e => .error e
        | .ok (user, host) => URL.setPath { u with User := user, Host := host } ar.2
      else URL.setPath u rest

/-- The function `url.Parse`. -/
def Parse (rawurl : GoString) : Except GoError URL :=
  let uf := split rawurl "#".toList true
  match parse uf.1 false with
  | .error e => .error (Error "parse".toList uf.1 e)
  | .ok u =>
    if uf.2 = [] then .ok u
    else
      match unescape uf.2 encodeFragment with
      | .error e => .error (Error "parse".toList rawurl e)
      | .ok frag => .ok { u with Fragment := frag }

def URL.IsAbs (u : URL) : Bool := decide (u.Scheme ≠ [])

def Userinfo.String (u : Userinfo) : GoString :=
  let s := escape u.username encodeUserPassword
  if u.passwordSet then s ++ ":".toList ++ escape u.password encodeUserPassword else s

/-- The method `String`: reassemble the URL. -/
def URL.String (u : URL) : GoString :=
  let buf0 : GoString := if u.Scheme ≠ [] then u.Scheme ++ [':'] else []
  let buf1 : GoString :=
    if u.Opaque ≠ [] then buf0 ++ u.Opaque
    else
      let b1 : GoString :=
        if u.Scheme ≠ [] ∨ u.Host ≠ [] ∨ u.User ≠ none then
          let b2 : GoString :=
            if u.Host ≠ [] ∨ u.Path ≠ [] ∨ u.User ≠ none then buf0 ++ "//".toList else buf0
          let b3 : GoString :=
            match u.User with
            | some ui => b2 ++ ui.String ++ ['@']
            | none => b2
          if u.Host ≠ [] then b3 ++ escape u.Host encodeHost else b3
        else buf0
      let path := u.EscapedPath
      let b4 : GoString :=
        if path ≠ [] ∧ path.head? ≠ some '/' ∧ u.Host ≠ [] then b1 ++ ['/'] else b1
      let b5 : GoString :=
        if b4.length = 0 ∧ 0 ≤ strings.Index path ":".toList ∧
            strings.Index (sliceTo path (strings.Index path ":".toList)) "/".toList = -1 then
          b4 ++ "./".toList
        else b4
      b5 ++ path
  let buf2 : GoString :=
    if u.ForceQuery ∨ u.RawQuery ≠ [] then buf1 ++ ['?'] ++ u.RawQuery else buf1
  if u.Fragment ≠ [] then buf2 ++ ['#'] ++ escape u.Fragment encodeFragment else buf2

/-- The loop of `resolvePath` over the elements of the full path. -/
def resolveStep (dst : List GoString) (elem : GoString) : List GoString :=
  if elem = ".".toList then dst
  else if elem = "..".toList then (if dst.length > 0 then dst.dropLast else dst)
  else dst ++ [elem]

/-- Resolve `ref` against `base`: RFC 3986, sections 5.2.3 and 5.2.4. -/
def resolvePath (base ref : GoString) : GoString :=
  let full : GoString :=
    if ref = [] then base
    else if ref.head? ≠ some '/' then sliceTo base (strings.LastIndex base "/".toList + 1) ++ ref
    else ref
  if full = [] then []
  else
    let src := strings.Split full '/'
    let dst := src.foldl resolveStep []
    let last := src.getLastD []
    let dst := if last = ".".toList ∨ last = "..".toList then dst ++ [[]] else dst
    '/' :: strings.TrimPrefix (strings.Join dst "/".toList) "/".toList

/-- Write the encoded path `p` into `u`; the caller has made sure that it decodes. -/
def URL.withPath (u : URL) (p : GoString) : URL :=
  match u.setPath p with
  | .ok v => v
  | .error _ => u

/-- The method `ResolveReference`: resolve `ref` from the base `u`. -/
def URL.ResolveReference (u ref : URL) : URL :=
  let url : URL := if ref.Scheme = [] then { ref with Scheme := u.Scheme } else ref
  if ref.Scheme ≠ [] ∨ ref.Host ≠ [] ∨ ref.User ≠ none then
    url.withPath (resolvePath ref.EscapedPath [])
  else if ref.Opaque ≠ [] then { url with User := none, Host := [], Path := [] }
  else
    let url : URL :=
      if ref.Path = [] ∧ ref.RawQuery = [] then
        { url with RawQuery := u.RawQuery,
                   Fragment := if ref.Fragment = [] then u.Fragment else url.Fragment }
      else url
    URL.withPath { url with Host := u.Host, User := u.User }
      (resolvePath u.EscapedPath ref.EscapedPath)

end url

/-! ## Package `path` -/

namespace path

/-- The inner loop of a `..` element in `Clean`, on the buffer in reverse: `popped`
is the byte `out.index(out.w)` that the last `out.w--` gave up. -/
def backtrackLoop (dotdot : Nat) : GoString → Char → GoString
  | [], _ => []
  | c :: r, popped =>
    if (c :: r).length > dotdot ∧ popped ≠ '/' then backtrackLoop dotdot r c else c :: r

/-- Remove the last element from the buffer: `out.w--`, then back to the `/` before
it, but not below `dotdot`. -/
def backtrack (dotdot : Nat) (out : GoString) : GoString :=
  match out.reverse with
  | [] => []
  | c :: r => (backtrackLoop dotdot r c).reverse

/-- One turn of the scanning loop of `Clean`, which takes the path one element at
a time.  The state is the buffer `out` (the bytes written so far, `out.w` of them)
and `dotdot`. -/
def cleanStep (rooted : Bool) (st : GoString × Nat) (elem : GoString) : GoString × Nat :=
  if elem = [] then st
  else if elem = ".".toList then st
  else if elem = "..".toList then
    if st.1.length > st.2 then (backtrack st.2 st.1, st.2)
    else if !rooted then
      let out := (if st.1.length > 0 then st.1 ++ ['/'] else st.1) ++ "..".toList
      (out, out.length)
    else st
  else
    let out := if (rooted ∧ st.1.length ≠ 1) ∨ (!rooted ∧ st.1.length ≠ 0) then st.1 ++ ['/'] else st.1
    (out ++ elem, st.2)

/-- The function `path.Clean`.  The elements between the slashes are visited in
order, as the index `r` of the source visits them; `lazybuf` is a plain buffer. -/
def Clean (p : GoString) : GoString :=
  if p = [] then ".".toList
  else
    let rooted : Bool := p.head? = some '/'
    let st := (strings.Split (if rooted then p.tail else p) '/').foldl (cleanStep rooted)
      (if rooted then (['/'], 1) else ([], 0))
    if st.1.length = 0 then ".".toList else st.1

/-- The function `path.Join`. -/
def Join : List GoString → GoString
  | [] => []
  | e :: rest => if e ≠ [] then Clean (strings.Join (e :: rest) "/".toList) else Join rest

end path

/-! ## The wire envelope and the collaborators of `os.go` -/

/-- Modelled from the spec: the command tag of an envelope (the generated
declaration of `Msg` is not among the sources).  The four commands of the data
model, and every other tag. -/
inductive Command where
  | CODE_FETCH
  | CODE_FETCH_RES
  | CODE_CACHE
  | EXIT
  | other (tag : Nat)
deriving DecidableEq, Repr

/-- Modelled from the spec: the envelope `Msg`, one flat record with the fields
of every command; a field that is not set has its zero value. -/
structure Msg where
  Command : Command := Command.other 0
  Error : GoString := []
  CodeFetchModuleSpecifier : GoString := []
  CodeFetchContainingFile : GoString := []
  CodeFetchResModuleName : GoString := []
  CodeFetchResFilename : GoString := []
  CodeFetchResSourceCode : GoString := []
  CodeFetchResOutputCode : GoString := []
  CodeCacheFilename : GoString := []
  CodeCacheSourceCode : GoString := []
  CodeCacheOutputCode : GoString := []
  ExitCode : Int := 0
deriving DecidableEq, Repr

/-- What `os.go` takes from the rest of the program and from the protobuf
library.  A Go function that returns `(value, error)` is a function into
`Except`: with an error the value is the zero value. -/
structure Env where
  /-- The source root directory `SrcDir`. -/
  SrcDir : GoString
  /-- The test `isRemote` on a module name. -/
  isRemote : GoString → Bool
  /-- The remote fetcher, called with the module name and the filename. -/
  FetchRemoteSource : GoString → GoString → Except GoError GoString
  /-- The reader of the embedded asset bundle. -/
  Asset : GoString → Except GoError GoString
  /-- The name of the cache file for a filename and its source. -/
  CacheFileName : GoString → GoString → GoString
  /-- The encoder `proto.Marshal`. -/
  Marshal : Msg → Except GoError GoString
  /-- The decoder `proto.Unmarshal`. -/
  Unmarshal : GoString → Except GoError Msg

/-- What the file system holds at a path, as far as reading it goes. -/
inductive Entry where
  | absent
  | file (data : GoString)
  | unreadable (err : GoError)
deriving DecidableEq, Repr

/-- The file system: what each path holds, and the error that a write to the
path meets, if it meets one. -/
structure FS where
  entry : GoString → Entry
  denied : GoString → Option GoError

/-- The function `ioutil.ReadFile`. -/
def ReadFile (fs : FS) (filename : GoString) : Except GoError GoString :=
  match fs.entry filename with
  | .file data => .ok data
  | .absent => .error ("open ".toList ++ filename ++ ": no such file or directory".toList)
  | .unreadable err => .error err

/-- The function `ioutil.WriteFile`: on success the file holds `data` and nothing else. -/
def WriteFile (fs : FS) (filename data : GoString) : FS × Option GoError :=
  match fs.denied filename with
  | some err => (fs, some err)
  | none => ({ fs with entry := Function.update fs.entry filename (Entry.file data) }, none)

/-- Modelled from the spec: `LoadOutputCodeCache`, the read side of the output
cache, which is not among the sources.  It computes the cache key of
`(filename, sourceCodeBuf)` and asks the store for the entry; a miss is not an
error and yields no output code. -/
def LoadOutputCodeCache (env : Env) (fs : FS) (filename sourceCodeBuf : GoString) :
    Except GoError GoString :=
  match fs.entry (env.CacheFileName filename sourceCodeBuf) with
  | .file data => .ok data
  | .absent => .ok []
  | .unreadable err => .error err

/-- How a call of a handler ends: it returns bytes, it panics, or the process
exits. -/
inductive Outcome where
  | returned (out : GoString)
  | panicked (msg : GoString)
  | exited (code : Int)
deriving DecidableEq, Repr

/-- Modelled from the spec: the helper `check`, which is not among the sources,
on an error that is not nil.  Such an error is fatal: the call panics with it.
(On a nil error `check` does nothing.) -/
def check (err : GoError) : Outcome := .panicked err

/-- Modelled from the spec: the helper `assert`, which is not among the sources.
A violated assertion is a fatal violation of the programming contract: the result
is the panic with the message, and `none` when the condition holds. -/
def assert (cond : Bool) (msg : GoString) : Option Outcome :=
  if cond then none else some (.panicked msg)

/-! ## `os.go` -/

def assetPrefix : GoString := "/$asset$/".toList

/-- The three results of `ResolveModule`; `err` is `none` for Go's nil. -/
structure Resolution where
  moduleName : GoString := []
  filename : GoString := []
  err : Option GoError := none
deriving DecidableEq, Repr

def ResolveModule (SrcDir moduleSpecifier containingFile : GoString) : Resolution :=
  match url.Parse moduleSpecifier with
  | .error err => { err := some err }
  | .ok moduleUrl =>
    match url.Parse containingFile with
    | .error err => { err := some err }
    | .ok baseUrl =>
      let resolved := baseUrl.ResolveReference moduleUrl
      let moduleName := resolved.String
      if moduleUrl.IsAbs then
        { moduleName := moduleName, filename := path.Join [SrcDir, resolved.Host, resolved.Path] }
      else
        { moduleName := moduleName, filename := resolved.Path }

/-- A call out of `HandleCodeFetch`, with its arguments: one of the three ways
to get at a source, or the lookup in the output cache. -/
inductive Call where
  | FetchRemoteSource (moduleName filename : GoString)
  | Asset (name : GoString)
  | ReadFile (filename : GoString)
  | LoadOutputCodeCache (filename sourceCodeBuf : GoString)
deriving DecidableEq, Repr

/-- True for the three calls that get at a source. -/
def Call.isSource : Call → Bool
  | .LoadOutputCodeCache _ _ => false
  | _ => true

/-- A run of `HandleCodeFetch`: how it ends, and the calls it made, in order. -/
structure Run where
  outcome : Outcome
  calls : List Call
deriving DecidableEq, Repr

/-- The deferred function of `HandleCodeFetch`: the error, if there is one, goes
into the response, and the response is serialized; `check` panics if that fails. -/
def deferredCodeFetch (env : Env) (res : Msg) (err : Option GoError) : Outcome :=
  let res : Msg :=
    match err with
    | some e => { res with Error := e }
    | none => res
  match env.Marshal res with
  | .ok out => .returned out
  | .error e => check e

/-- The end of `HandleCodeFetch`, from the test of the loader's error on; `calls`
are the calls made so far. -/
def codeFetchLoaded (env : Env) (fs : FS) (moduleName filename : GoString)
    (calls : List Call) (loaded : Except GoError GoString) : Run :=
  match loaded with
  | .error err => { outcome := deferredCodeFetch env {} (some err), calls := calls }
  | .ok sourceCodeBuf =>
    let calls := calls ++ [Call.LoadOutputCodeCache filename sourceCodeBuf]
    match LoadOutputCodeCache env fs filename sourceCodeBuf with
    | .error err => { outcome := deferredCodeFetch env {} (some err), calls := calls }
    | .ok outputCode =>
      { outcome := deferredCodeFetch env
          { Command := Command.CODE_FETCH_RES,
            CodeFetchResModuleName := moduleName,
            CodeFetchResFilename := filename,
            CodeFetchResSourceCode := sourceCodeBuf,
            CodeFetchResOutputCode := outputCode } none,
        calls := calls }

def HandleCodeFetch (env : Env) (fs : FS) (moduleSpecifier containingFile : GoString) : Run :=
  match assert (decide (moduleSpecifier ≠ [])) "moduleSpecifier shouldn't be empty".toList with
  | some abort => { outcome := abort, calls := [] }
  | none =>
    let r := ResolveModule env.SrcDir moduleSpecifier containingFile
    match r.err with
    | some err => { outcome := deferredCodeFetch env {} (some err), calls := [] }
    | none =>
      if env.isRemote r.moduleName then
        codeFetchLoaded env fs r.moduleName r.filename
          [Call.FetchRemoteSource r.moduleName r.filename]
          (env.FetchRemoteSource r.moduleName r.filename)
      else if strings.HasPrefix r.moduleName assetPrefix then
        let f := strings.TrimPrefix r.moduleName assetPrefix
        match env.Asset ("dist/".toList ++ f) with
        | .ok sourceCodeBuf =>
          codeFetchLoaded env fs r.moduleName r.filename [Call.Asset ("dist/".toList ++ f)]
            (.ok sourceCodeBuf)
        | .error _ =>
          codeFetchLoaded env fs r.moduleName r.filename [Call.Asset ("dist/".toList ++ f)]
            (.ok [])
      else
        match assert (decide (r.moduleName = r.filename))
            "if a module isn't remote, it should have the same filename".toList with
        | some abort =>
          { outcome :=
              match deferredCodeFetch env {} none with
              | .panicked e => .panicked e
              | _ => abort,
            calls := [] }
        | none =>
          codeFetchLoaded env fs r.moduleName r.filename [Call.ReadFile r.moduleName]
            (ReadFile fs r.moduleName)

def HandleCodeCache (env : Env) (fs : FS) (filename sourceCode outputCode : GoString) :
    Outcome × FS :=
  let fn := env.CacheFileName filename sourceCode
  let w := WriteFile fs fn outputCode
  let res : Msg :=
    match w.2 with
    | some err => { Error := err }
    | none => {}
  match env.Marshal res with
  | .ok out => (.returned out, w.1)
  | .error e => (check e, w.1)

/-- The function that `InitOS` subscribes to the channel `"os"`: decode the
envelope and route on its command. -/
def InitOS (env : Env) (fs : FS) (buf : GoString) : Outcome × FS :=
  match env.Unmarshal buf with
  | .error e => (check e, fs)
  | .ok msg =>
    match msg.Command with
    | .CODE_FETCH =>
      ((HandleCodeFetch env fs msg.CodeFetchModuleSpecifier msg.CodeFetchContainingFile).outcome, fs)
    | .CODE_CACHE =>
      HandleCodeCache env fs msg.CodeCacheFilename msg.CodeCacheSourceCode msg.CodeCacheOutputCode
    | .EXIT => (.exited msg.ExitCode, fs)
    | _ => (.panicked ("[os] Unexpected message ".toList ++ buf), fs)

/-! ## Reference resolution as RFC 3986 states it -/

namespace RFC3986

/-- The five components of a URI reference (RFC 3986, section 3); a component
that is not defined is `none`. -/
structure Components where
  scheme : Option GoString := none
  authority : Option GoString := none
  path : GoString := []
  query : Option GoString := none
  fragment : Option GoString := none
deriving DecidableEq, Repr

/-- Split a reference into its components, as the regular expression of
appendix B does. -/
def components (s : GoString) : Components :=
  let run := s.takeWhile fun c => !":/?#".toList.contains c
  let hasScheme : Bool := run ≠ [] ∧ (s.drop run.length).head? = some ':'
  let s1 := if hasScheme then s.drop (run.length + 1) else s
  let hasAuthority : Bool := strings.HasPrefix s1 "//".toList
  let auth := (s1.drop 2).takeWhile fun c => !"/?#".toList.contains c
  let s2 := if hasAuthority then s1.drop (2 + auth.length) else s1
  let p := s2.takeWhile fun c => !"?#".toList.contains c
  let s3 := s2.drop p.length
  let hasQuery : Bool := s3.head? = some '?'
  let q := s3.tail.takeWhile fun c => c ≠ '#'
  let s4 := if hasQuery then s3.drop (1 + q.length) else s3
  { scheme := if hasScheme then some run else none,
    authority := if hasAuthority then some auth else none,
    path := p,
    query := if hasQuery then some q else none,
    fragment := if s4.head? = some '#' then some s4.tail else none }

/-- The output buffer without its last segment and the slash before it. -/
def removeLastSegment (out : GoString) : GoString :=
  sliceTo out (strings.LastIndex out "/".toList)

/-- The loop of section 5.2.4 on the input buffer `inp` and the output buffer
`out`; every turn shortens the input, so its length plus one is fuel enough. -/
def removeDotSegmentsLoop : Nat → GoString → GoString → GoString
  | 0, _, out => out
  | fuel + 1, inp, out =>
    if inp = [] then out
    else if strings.HasPrefix inp "../".toList then removeDotSegmentsLoop fuel (inp.drop 3) out
    else if strings.HasPrefix inp "./".toList then removeDotSegmentsLoop fuel (inp.drop 2) out
    else if strings.HasPrefix inp "/./".toList then removeDotSegmentsLoop fuel (inp.drop 2) out
    else if inp = "/.".toList then removeDotSegmentsLoop fuel "/".toList out
    else if strings.HasPrefix inp "/../".toList then
      removeDotSegmentsLoop fuel (inp.drop 3) (removeLastSegment out)
    else if inp = "/..".toList then removeDotSegmentsLoop fuel "/".toList (removeLastSegment out)
    else if inp = ".".toList ∨ inp = "..".toList then removeDotSegmentsLoop fuel [] out
    else
      let seg : GoString :=
        if inp.head? = some '/' then '/' :: inp.tail.takeWhile fun c => c ≠ '/'
        else inp.takeWhile fun c => c ≠ '/'
      removeDotSegmentsLoop fuel (inp.drop seg.length) (out ++ seg)

/-- Section 5.2.4, remove dot segments. -/
def removeDotSegments (p : GoString) : GoString := removeDotSegmentsLoop (p.length + 1) p []

/-- Section 5.2.3, merge paths. -/
def merge (base : Components) (refPath : GoString) : GoString :=
  if base.authority ≠ none ∧ base.path = [] then '/' :: refPath
  else sliceTo base.path (strings.LastIndex base.path "/".toList + 1) ++ refPath

/-- Section 5.2.2, transform references. -/
def transform (base r : Components) : Components :=
  if r.scheme ≠ none then
    { r with path := removeDotSegments r.path }
  else if r.authority ≠ none then
    { r with scheme := base.scheme, path := removeDotSegments r.path }
  else if r.path = [] then
    { scheme := base.scheme, authority := base.authority, path := base.path,
      query := if r.query ≠ none then r.query else base.query, fragment := r.fragment }
  else if r.path.head? = some '/' then
    { scheme := base.scheme, authority := base.authority, path := removeDotSegments r.path,
      query := r.query, fragment := r.fragment }
  else
    { scheme := base.scheme, authority := base.authority,
      path := removeDotSegments (merge base r.path),
      query := r.query, fragment := r.fragment }

/-- Section 5.3, component recomposition. -/
def recompose (t : Components) : GoString :=
  (match t.scheme with | some s => s ++ [':'] | none => []) ++
  (match t.authority with | some a => "//".toList ++ a | none => []) ++
  t.path ++
  (match t.query with | some q => '?' :: q | none => []) ++
  (match t.fragment with | some f => '#' :: f | none => [])

/-- The target URI of the reference `ref` against the base URI `base` (section 5.2). -/
def resolve (ref base : GoString) : GoString :=
  recompose (transform (components base) (components ref))

end RFC3986

/-- The specifier is absolute: it parses, and has a scheme of its own
(`moduleUrl.IsAbs()` in `ResolveModule`). -/
def isAbsolute (moduleSpecifier : GoString) : Bool :=
  match url.Parse moduleSpecifier with
  | .ok moduleUrl => moduleUrl.IsAbs
  | .error _ => false

/-! ## An environment to evaluate the handlers in -/

namespace Example

/-- A source root directory. -/
def srcDir : GoString := "/home/u/.deno/src".toList

def tagOf : Command → GoString
  | .CODE_FETCH => "CODE_FETCH".toList
  | .CODE_FETCH_RES => "CODE_FETCH_RES".toList
  | .CODE_CACHE => "CODE_CACHE".toList
  | .EXIT => "EXIT".toList
  | .other _ => "-".toList

def commandOf (t : GoString) : Command :=
  if t = "CODE_FETCH".toList then .CODE_FETCH
  else if t = "CODE_FETCH_RES".toList then .CODE_FETCH_RES
  else if t = "CODE_CACHE".toList then .CODE_CACHE
  else if t = "EXIT".toList then .EXIT
  else .other 0

/-- A stand-in for the wire format: the command tag and ten fields, one per line. -/
def wire (m : Msg) : GoString :=
  "\n".toList.intercalate
    [tagOf m.Command, m.Error, m.CodeFetchModuleSpecifier, m.CodeFetchContainingFile,
      m.CodeFetchResModuleName, m.CodeFetchResFilename, m.CodeFetchResSourceCode,
      m.CodeFetchResOutputCode, m.CodeCacheFilename, m.CodeCacheSourceCode, m.CodeCacheOutputCode]

def unwire (buf : GoString) : Except GoError Msg :=
  match buf.splitOn '\n' with
  | [t, e, f1, f2, r1, r2, r3, r4, c1, c2, c3] =>
    .ok { Command := commandOf t, Error := e, CodeFetchModuleSpecifier := f1,
          CodeFetchContainingFile := f2, CodeFetchResModuleName := r1,
          CodeFetchResFilename := r2, CodeFetchResSourceCode := r3,
          CodeFetchResOutputCode := r4, CodeCacheFilename := c1, CodeCacheSourceCode := c2,
          CodeCacheOutputCode := c3 }
  | _ => .error "proto: cannot parse".toList

/-- An environment without network, with one asset in the bundle. -/
def env : Env where
  SrcDir := srcDir
  isRemote := isAbsolute
  FetchRemoteSource := fun moduleName _ => .error ("Get ".toList ++ moduleName ++ ": no network".toList)
  Asset := fun name =>
    if name = "dist/lib.d.ts".toList then .ok "declare var window: any;".toList
    else .error ("Asset ".toList ++ name ++ " not found".toList)
  CacheFileName := fun filename sourceCodeBuf =>
    "/home/u/.deno/gen/".toList ++
      (filename ++ sourceCodeBuf).map (fun c => if c = '/' then '_' else c) ++ ".js".toList
  Marshal := fun m => .ok (wire m)
  Unmarshal := unwire

/-- The same environment with an encoder that refuses an Error text holding the
byte `0xff`, which no UTF-8 text holds, as an encoder that validates the strings
of an envelope does. -/
def strictEnv : Env :=
  { env with
    Marshal := fun m =>
      if Char.ofNat 255 ∈ m.Error then .error "proto: field contains invalid UTF-8".toList
      else .ok (wire m) }

/-- A file system with one source file, where every write succeeds. -/
def disk : FS where
  entry := fun p => if p = "/app/util.ts".toList then .file "export const n = 1;".toList else .absent
  denied := fun _ => none

/-- The same, with a cache file that cannot be read. -/
def lockedDisk : FS where
  entry := fun p =>
    if p = "/home/u/.deno/gen/_$asset$_doesnotexist.ts.js".toList then
      .unreadable "open /home/u/.deno/gen/_$asset$_doesnotexist.ts.js: permission denied".toList
    else disk.entry p
  denied := fun _ => some "permission denied".toList

end Example

/-- The local variable `resolved` of `ResolveModule`: the specifier resolved
against the containing file, when both parse. -/
def resolvedURL (moduleSpecifier containingFile : GoString) : Option url.URL :=
  match url.Parse moduleSpecifier, url.Parse containingFile with
  | .ok moduleUrl, .ok baseUrl => some (baseUrl.ResolveReference moduleUrl)
  | _, _ => none

/-- One of the elements of `p` between its slashes is `..`. -/
def hasDotDot (p : GoString) : Bool := (strings.Split p '/').contains "..".toList

/-- A byte that the path of a URL carries as it is, the colon left out: a letter,
a digit, or one of `- _ . ~ $ & + , / ; = @`. -/
def plainByte (c : Char) : Bool := !url.shouldEscape c url.encoding.encodePath && c != ':'

/-- A plain local path: plain bytes only, and no `//` at its head. -/
def plainPath (p : GoString) : Bool := p.all plainByte && !strings.HasPrefix p "//".toList

/-! ## The elements of a path, and the class of plain URLs -/

/-- Two slashes in a row somewhere in `p`: an empty element between them. -/
def doubleSlash : GoString → Bool
  | [] => false
  | c :: t => (c == '/' && t.head? == some '/') || doubleSlash t

/-- The path that has the elements `st`, each one after a slash. -/
def pathOf (st : List GoString) : GoString := st.flatMap fun e => '/' :: e

/-- The elements that are left of the elements `es` of a path when the dot
segments are removed, `st` being the elements kept so far: `.` is dropped, `..`
drops the element before it, and a dot segment at the end leaves an empty element. -/
def dotFold : List GoString → List GoString → List GoString
  | [], st => st
  | e :: es, st =>
    if es = [] then
      (if e = ".".toList then st ++ [[]]
       else if e = "..".toList then st.dropLast ++ [[]]
       else st ++ [e])
    else dotFold es (url.resolveStep st e)

/-- The letters of a scheme in lower case. -/
def lowerLetters : GoString := "abcdefghijklmnopqrstuvwxyz".toList

/-- A scheme of lower-case letters, at least one. -/
def lowerScheme (sch : GoString) : Bool := sch ≠ [] && sch.all fun c => lowerLetters.contains c

/-- The bytes of a plain host name: letters, digits, `-` and `.`. -/
def hostBytes : GoString :=
  "abcdefghijklmnopqrstuvwxyzABCDEFGHIJKLMNOPQRSTUVWXYZ0123456789-.".toList

/-- The digits of a port. -/
def portDigits : GoString := "0123456789".toList

/-- A plain host, which may be empty: a name of letters, digits, `-` and `.`,
followed or not by a colon and the digits of a port.  No user information, no
escape, no address in brackets. -/
def plainHost (h : GoString) : Bool :=
  (h.takeWhile fun c => c != ':').all (fun c => hostBytes.contains c) &&
    (h.dropWhile fun c => c != ':').tail.all fun c => portDigits.contains c

/-- A plain path without an empty element: plain bytes only, no two slashes in a row. -/
def plainElements (p : GoString) : Bool := p.all plainByte && !doubleSlash p

/-- A byte that a fragment carries as it is: a letter, a digit, or one of
`- _ . ~ $ & + , / : ; = ? @`. -/
def fragmentByte (c : Char) : Bool := !url.shouldEscape c url.encoding.encodeFragment

/-- The query of a reference as it is written after the path; `none` is no query. -/
def queryPart : Option GoString → GoString
  | none => []
  | some q => '?' :: q

/-- The fragment of a reference as it is written at its end; `none` is no fragment. -/
def fragmentPart : Option GoString → GoString
  | none => []
  | some f => '#' :: f

/-- A query is plain when it has no `#` in it. -/
def plainQuery : Option GoString → Bool
  | none => true
  | some q => !q.contains '#'

/-- A fragment is plain when it is not empty and has plain bytes only. -/
def plainFragment : Option GoString → Bool
  | none => true
  | some f => f ≠ [] && f.all fragmentByte

/-- The bytes of a plain host with its port. -/
def authorityBytes : GoString := hostBytes ++ [':']

/-! # Theorems -/

/-! ## Lemmas on the handlers -/

theorem isAbsolute_iff (s : GoString) :
    isAbsolute s = true ↔ ∃ u, url.Parse s = .ok u ∧ u.Scheme ≠ [] := by
  unfold isAbsolute
  cases h : url.Parse s with
  | error e => simp
  | ok u => simp [url.URL.IsAbs]

/-- Resolving a reference that has a scheme does not look at the base. -/
theorem ResolveReference_of_scheme (b1 b2 u : url.URL) (hu : u.Scheme ≠ []) :
    b1.ResolveReference u = b2.ResolveReference u := by
  simp [url.URL.ResolveReference, hu]

theorem ResolveModule_of_scheme (S s c1 c2 : GoString) (hs : isAbsolute s = true)
    (h1 : ∃ b, url.Parse c1 = .ok b) (h2 : ∃ b, url.Parse c2 = .ok b) :
    ResolveModule S s c1 = ResolveModule S s c2 := by
  obtain ⟨u, hu, hsch⟩ := (isAbsolute_iff s).1 hs
  obtain ⟨b1, hb1⟩ := h1
  obtain ⟨b2, hb2⟩ := h2
  simp only [ResolveModule, hu, hb1, hb2, ResolveReference_of_scheme b1 b2 u hsch]

theorem deferredCodeFetch_some (env : Env) (e out : GoString)
    (h : env.Marshal { Error := e } = .ok out) :
    deferredCodeFetch env {} (some e) = .returned out := by
  simp [deferredCodeFetch, h]

theorem deferredCodeFetch_none (env : Env) (res : Msg) (out : GoString)
    (h : env.Marshal res = .ok out) :
    deferredCodeFetch env res none = .returned out := by
  simp [deferredCodeFetch, h]

theorem deferredCodeFetch_returns (env : Env) (hM : ∀ m, ∃ out, env.Marshal m = .ok out)
    (res : Msg) (err : Option GoError) :
    ∃ out m, deferredCodeFetch env res err = .returned out ∧ env.Marshal m = .ok out := by
  cases err with
  | none =>
    obtain ⟨out, h⟩ := hM res
    exact ⟨out, res, deferredCodeFetch_none env res out h, h⟩
  | some e =>
    obtain ⟨out, h⟩ := hM { res with Error := e }
    exact ⟨out, _, by simp [deferredCodeFetch, h], h⟩

/-- The calls of the end of the handler: those made before, and the cache lookup
if a source was loaded. -/
theorem codeFetchLoaded_calls (env : Env) (fs : FS) (m f : GoString) (calls : List Call)
    (loaded : Except GoError GoString) :
    (codeFetchLoaded env fs m f calls loaded).calls =
      calls ++ (match loaded with
        | .ok src => [Call.LoadOutputCodeCache f src]
        | .error _ => []) := by
  unfold codeFetchLoaded
  cases loaded with
  | error e => simp
  | ok src =>
    cases h : LoadOutputCodeCache env fs f src <;> simp [h]

theorem codeFetchLoaded_error (env : Env) (fs : FS) (m f : GoString) (calls : List Call)
    (e : GoError) :
    (codeFetchLoaded env fs m f calls (.error e)).outcome = deferredCodeFetch env {} (some e) := by
  simp [codeFetchLoaded]

theorem codeFetchLoaded_cache_error (env : Env) (fs : FS) (m f src : GoString)
    (calls : List Call) (e : GoError) (h : LoadOutputCodeCache env fs f src = .error e) :
    (codeFetchLoaded env fs m f calls (.ok src)).outcome = deferredCodeFetch env {} (some e) := by
  simp [codeFetchLoaded, h]

theorem codeFetchLoaded_ok (env : Env) (fs : FS) (m f src code : GoString)
    (calls : List Call) (h : LoadOutputCodeCache env fs f src = .ok code) :
    (codeFetchLoaded env fs m f calls (.ok src)).outcome =
      deferredCodeFetch env
        { Command := Command.CODE_FETCH_RES, CodeFetchResModuleName := m,
          CodeFetchResFilename := f, CodeFetchResSourceCode := src,
          CodeFetchResOutputCode := code } none := by
  simp [codeFetchLoaded, h]

theorem codeFetchLoaded_returns (env : Env) (fs : FS) (hM : ∀ m, ∃ out, env.Marshal m = .ok out)
    (m f : GoString) (calls : List Call) (loaded : Except GoError GoString) :
    ∃ out res, (codeFetchLoaded env fs m f calls loaded).outcome = .returned out ∧
      env.Marshal res = .ok out := by
  cases loaded with
  | error e =>
    rw [codeFetchLoaded_error]
    exact deferredCodeFetch_returns env hM _ _
  | ok src =>
    cases h : LoadOutputCodeCache env fs f src with
    | error e =>
      rw [codeFetchLoaded_cache_error env fs m f src calls e h]
      exact deferredCodeFetch_returns env hM _ _
    | ok code =>
      rw [codeFetchLoaded_ok env fs m f src code calls h]
      exact deferredCodeFetch_returns env hM _ _

/-! The branches of `HandleCodeFetch`, one lemma each. -/

theorem HandleCodeFetch_empty (env : Env) (fs : FS) (c : GoString) :
    HandleCodeFetch env fs [] c =
      { outcome := .panicked "moduleSpecifier shouldn't be empty".toList, calls := [] } := by
  simp [HandleCodeFetch, assert]

theorem HandleCodeFetch_unresolved (env : Env) (fs : FS) (s c : GoString) (e : GoError)
    (hs : s ≠ []) (he : (ResolveModule env.SrcDir s c).err = some e) :
    HandleCodeFetch env fs s c =
      { outcome := deferredCodeFetch env {} (some e), calls := [] } := by
  simp [HandleCodeFetch, assert, hs, he]

theorem HandleCodeFetch_remote (env : Env) (fs : FS) (s c : GoString)
    (hs : s ≠ []) (hr : (ResolveModule env.SrcDir s c).err = none)
    (hrem : env.isRemote (ResolveModule env.SrcDir s c).moduleName = true) :
    HandleCodeFetch env fs s c =
      codeFetchLoaded env fs (ResolveModule env.SrcDir s c).moduleName
        (ResolveModule env.SrcDir s c).filename
        [Call.FetchRemoteSource (ResolveModule env.SrcDir s c).moduleName
          (ResolveModule env.SrcDir s c).filename]
        (env.FetchRemoteSource (ResolveModule env.SrcDir s c).moduleName
          (ResolveModule env.SrcDir s c).filename) := by
  simp [HandleCodeFetch, assert, hs, hr, hrem]

theorem HandleCodeFetch_asset (env : Env) (fs : FS) (s c : GoString)
    (hs : s ≠ []) (hr : (ResolveModule env.SrcDir s c).err = none)
    (hrem : env.isRemote (ResolveModule env.SrcDir s c).moduleName = false)
    (hpre : strings.HasPrefix (ResolveModule env.SrcDir s c).moduleName assetPrefix = true) :
    HandleCodeFetch env fs s c =
      codeFetchLoaded env fs (ResolveModule env.SrcDir s c).moduleName
        (ResolveModule env.SrcDir s c).filename
        [Call.Asset ("dist/".toList ++
          strings.TrimPrefix (ResolveModule env.SrcDir s c).moduleName assetPrefix)]
        (match env.Asset ("dist/".toList ++
            strings.TrimPrefix (ResolveModule env.SrcDir s c).moduleName assetPrefix) with
          | .ok src => .ok src
          | .error _ => .ok []) := by
  simp only [HandleCodeFetch, assert, hs, hr, hrem, hpre, if_false, if_true, ne_eq,
    not_false_eq_true, decide_True, Bool.false_eq_true]
  cases h : env.Asset ("dist/".toList ++
      strings.TrimPrefix (ResolveModule env.SrcDir s c).moduleName assetPrefix) <;> simp

theorem HandleCodeFetch_local (env : Env) (fs : FS) (s c : GoString)
    (hs : s ≠ []) (hr : (ResolveModule env.SrcDir s c).err = none)
    (hrem : env.isRemote (ResolveModule env.SrcDir s c).moduleName = false)
    (hpre : strings.HasPrefix (ResolveModule env.SrcDir s c).moduleName assetPrefix = false)
    (heq : (ResolveModule env.SrcDir s c).moduleName = (ResolveModule env.SrcDir s c).filename) :
    HandleCodeFetch env fs s c =
      codeFetchLoaded env fs (ResolveModule env.SrcDir s c).moduleName
        (ResolveModule env.SrcDir s c).filename
        [Call.ReadFile (ResolveModule env.SrcDir s c).moduleName]
        (ReadFile fs (ResolveModule env.SrcDir s c).moduleName) := by
  simp only [HandleCodeFetch, assert, hs, hr, hrem, hpre, if_false, ne_eq, not_false_eq_true,
    decide_True, Bool.false_eq_true, if_true]
  simp [heq]

theorem HandleCodeFetch_assert (env : Env) (fs : FS) (s c : GoString)
    (hs : s ≠ []) (hr : (ResolveModule env.SrcDir s c).err = none)
    (hrem : env.isRemote (ResolveModule env.SrcDir s c).moduleName = false)
    (hpre : strings.HasPrefix (ResolveModule env.SrcDir s c).moduleName assetPrefix = false)
    (hne : (ResolveModule env.SrcDir s c).moduleName ≠ (ResolveModule env.SrcDir s c).filename) :
    (HandleCodeFetch env fs s c).calls = [] ∧
      ∃ msg, (HandleCodeFetch env fs s c).outcome = .panicked msg := by
  simp only [HandleCodeFetch, assert, hs, hr, hrem, hpre, hne, if_false, ne_eq,
    not_false_eq_true, decide_True, decide_False, if_true, Bool.false_eq_true, true_and]
  cases deferredCodeFetch env {} none <;> simp


theorem Parse_error_ne_nil (s : GoString) (e : GoError) (h : url.Parse s = .error e) : e ≠ [] := by
  unfold url.Parse at h
  simp only at h
  split at h
  · cases h; simp [url.Error]
  · split at h
    · cases h
    · split at h
      · cases h; simp [url.Error]
      · cases h

theorem ResolveModule_err_ne_nil (S s c : GoString) (e : GoError)
    (h : (ResolveModule S s c).err = some e) : e ≠ [] := by
  unfold ResolveModule at h
  cases hs : url.Parse s with
  | error e1 =>
    simp [hs] at h
    exact h ▸ Parse_error_ne_nil s e1 hs
  | ok u =>
    cases hc : url.Parse c with
    | error e1 =>
      simp [hs, hc] at h
      exact h ▸ Parse_error_ne_nil c e1 hc
    | ok b =>
      simp only [hs, hc] at h
      split at h <;> simp at h

theorem codeFetchLoaded_filter (env : Env) (fs : FS) (m f : GoString) (call0 : Call)
    (h0 : call0.isSource = true) (loaded : Except GoError GoString) :
    (codeFetchLoaded env fs m f [call0] loaded).calls.filter Call.isSource = [call0] := by
  have hl : ∀ a b, (Call.LoadOutputCodeCache a b).isSource = false := fun _ _ => rfl
  rw [codeFetchLoaded_calls]
  cases loaded <;> simp [List.filter_cons, h0, hl]

theorem HandleCodeCache_write_error (env : Env) (fs : FS) (f src code : GoString) (e : GoError)
    (h : (WriteFile fs (env.CacheFileName f src) code).2 = some e) :
    (HandleCodeCache env fs f src code).1 = deferredCodeFetch env {} (some e) := by
  simp only [HandleCodeCache, h, deferredCodeFetch]
  cases env.Marshal { Error := e } <;> rfl

theorem HandleCodeCache_returns (env : Env) (fs : FS) (hM : ∀ m, ∃ out, env.Marshal m = .ok out)
    (f src code : GoString) :
    ∃ out res, (HandleCodeCache env fs f src code).1 = .returned out ∧
      env.Marshal res = .ok out := by
  unfold HandleCodeCache
  simp only
  obtain ⟨out, h⟩ := hM (match (WriteFile fs (env.CacheFileName f src) code).2 with
    | some err => { Error := err }
    | none => {})
  exact ⟨out, _, by rw [h], h⟩

theorem WriteFile_entry (fs : FS) (p d : GoString) (h : (WriteFile fs p d).2 = none) :
    (WriteFile fs p d).1.entry = Function.update fs.entry p (Entry.file d) := by
  unfold WriteFile at h ⊢
  cases hd : fs.denied p with
  | none => simp
  | some e1 => simp [hd] at h

theorem HandleCodeCache_fs (env : Env) (fs : FS) (f src code : GoString) :
    (HandleCodeCache env fs f src code).2 = (WriteFile fs (env.CacheFileName f src) code).1 := by
  unfold HandleCodeCache
  simp only
  split <;> rfl

theorem HandleCodeFetch_returns (env : Env) (fs : FS) (hM : ∀ m, ∃ out, env.Marshal m = .ok out)
    (s c : GoString) (hs : s ≠ [])
    (hinv : (ResolveModule env.SrcDir s c).err = none →
      env.isRemote (ResolveModule env.SrcDir s c).moduleName = false →
      strings.HasPrefix (ResolveModule env.SrcDir s c).moduleName assetPrefix = false →
      (ResolveModule env.SrcDir s c).moduleName = (ResolveModule env.SrcDir s c).filename) :
    ∃ out res, (HandleCodeFetch env fs s c).outcome = .returned out ∧
      env.Marshal res = .ok out := by
  cases hr : (ResolveModule env.SrcDir s c).err with
  | some e =>
    rw [HandleCodeFetch_unresolved env fs s c e hs hr]
    simpa using deferredCodeFetch_returns env hM {} (some e)
  | none =>
    cases hrem : env.isRemote (ResolveModule env.SrcDir s c).moduleName with
    | true =>
      rw [HandleCodeFetch_remote env fs s c hs hr hrem]
      exact codeFetchLoaded_returns env fs hM _ _ _ _
    | false =>
      cases hpre : strings.HasPrefix (ResolveModule env.SrcDir s c).moduleName assetPrefix with
      | true =>
        rw [HandleCodeFetch_asset env fs s c hs hr hrem hpre]
        exact codeFetchLoaded_returns env fs hM _ _ _ _
      | false =>
        rw [HandleCodeFetch_local env fs s c hs hr hrem hpre (hinv hr hrem hpre)]
        exact codeFetchLoaded_returns env fs hM _ _ _ _

theorem Example.marshal_total : ∀ m, ∃ out, Example.env.Marshal m = .ok out :=
  fun m => ⟨Example.wire m, rfl⟩


/-! ## C3 -/

/-- C3 as stated fails: for the absolute specifier `http://x/a.ts`, the containing
file `/tmp/100%/main.ts` does not parse as a URL reference (its `%` starts no
escape) and gives the empty moduleName with an error, while the containing file
`/tmp/main.ts` gives the moduleName `http://x/a.ts`. -/
theorem C3_unparsed_base_changes_moduleName :
    isAbsolute "http://x/a.ts".toList = true ∧
    ResolveModule Example.srcDir "http://x/a.ts".toList "/tmp/100%/main.ts".toList
      = { moduleName := [], filename := [],
          err := some "parse /tmp/100%/main.ts: invalid URL escape \"%/m\"".toList } ∧
    (ResolveModule Example.srcDir "http://x/a.ts".toList "/tmp/main.ts".toList).moduleName
      = "http://x/a.ts".toList ∧
    (ResolveModule Example.srcDir "http://x/a.ts".toList "/tmp/100%/main.ts".toList).moduleName ≠
      (ResolveModule Example.srcDir "http://x/a.ts".toList "/tmp/main.ts".toList).moduleName := by
  decide

/-- C3 (amended). For every absolute specifier s and any two containing files c1
and c2 that both parse as URL references, `ResolveModule(s, c1)` and
`ResolveModule(s, c2)` return the same moduleName, and the same filename and
error as well: the containing file does not influence the resolution of an
absolute reference. -/
theorem C3_absolute_moduleName_ignores_base (S s c1 c2 : GoString)
    (hs : isAbsolute s = true)
    (h1 : ∃ b, url.Parse c1 = .ok b) (h2 : ∃ b, url.Parse c2 = .ok b) :
    (ResolveModule S s c1).moduleName = (ResolveModule S s c2).moduleName ∧
    ResolveModule S s c1 = ResolveModule S s c2 := by
  have h := ResolveModule_of_scheme S s c1 c2 hs h1 h2
  exact ⟨by rw [h], h⟩

theorem C3_absolute_moduleName_ignores_base_witness :
    isAbsolute "http://x/a.ts".toList = true ∧
    (ResolveModule Example.srcDir "http://x/a.ts".toList "/a.ts".toList).moduleName =
      (ResolveModule Example.srcDir "http://x/a.ts".toList "file:///proj/b.ts".toList).moduleName :=
  ⟨by decide,
   (C3_absolute_moduleName_ignores_base Example.srcDir "http://x/a.ts".toList "/a.ts".toList
      "file:///proj/b.ts".toList (by decide) ⟨_, rfl⟩ ⟨_, rfl⟩).1⟩

/-! ## C5 -/

/-- C5 as stated fails, in three ways.  The module `/$asset$/doesnotexist.ts` is
not in the bundle: the load of its source fails, and the response is a CodeFetch
result whose Error field is empty.  With an empty module specifier and the
containing file `%zz` the resolution fails, and the handler panics on its first
assertion instead of returning an envelope.  And with an encoder that refuses the
Error text (the byte `0xff` of the specifier is in it) the resolution fails, and
the handler panics with the error of the encoder. -/
theorem C5_failure_without_error_envelope :
    Example.env.Asset "dist/doesnotexist.ts".toList
      = .error "Asset dist/doesnotexist.ts not found".toList ∧
    (HandleCodeFetch Example.env Example.disk "/$asset$/doesnotexist.ts".toList
      "/app/main.ts".toList).outcome
      = .returned (Example.wire
          { Command := Command.CODE_FETCH_RES,
            Error := [],
            CodeFetchResModuleName := "/$asset$/doesnotexist.ts".toList,
            CodeFetchResFilename := "/$asset$/doesnotexist.ts".toList }) ∧
    (ResolveModule Example.env.SrcDir [] "%zz".toList).err
      = some "parse %zz: invalid URL escape \"%zz\"".toList ∧
    (HandleCodeFetch Example.env Example.disk [] "%zz".toList).outcome
      = .panicked "moduleSpecifier shouldn't be empty".toList ∧
    (ResolveModule Example.strictEnv.SrcDir [Char.ofNat 255, '%'] "/app/main.ts".toList).err
      = some ("parse ".toList ++ [Char.ofNat 255, '%'] ++ ": invalid URL escape \"%\"".toList) ∧
    (HandleCodeFetch Example.strictEnv Example.disk [Char.ofNat 255, '%']
      "/app/main.ts".toList).outcome
      = .panicked "proto: field contains invalid UTF-8".toList := by
  refine ⟨by rfl, by rfl, by decide, by rfl, by decide, by rfl⟩

/-- C5 (amended). A CodeFetch with a module specifier that is not empty in which
the resolution fails, in which the remote fetch fails, in which the disk read
fails (the read that the handler makes when the module is neither remote nor an
asset and moduleName equals filename), or in which the lookup in the output cache
fails after any of the three ways to the source, and a CodeCache in which the
write fails, serializes the envelope whose Error field is the text of that error
and whose every other field has its zero value, and returns it whenever
`proto.Marshal` succeeds on it; the text of a resolution error and of the error
for a file that is not there is never empty.  A failure of the asset lookup is
not reported: the handler goes on with the empty source, and when the lookup in
the output cache succeeds the response is a CodeFetch result with an empty Error
field. -/
theorem C5_failure_goes_into_envelope (env : Env) (fs : FS) :
    (∀ s c e out, s ≠ [] → (ResolveModule env.SrcDir s c).err = some e →
      env.Marshal { Error := e } = .ok out →
      e ≠ [] ∧ (HandleCodeFetch env fs s c).outcome = .returned out) ∧
    (∀ s c e out, s ≠ [] → (ResolveModule env.SrcDir s c).err = none →
      env.isRemote (ResolveModule env.SrcDir s c).moduleName = true →
      env.FetchRemoteSource (ResolveModule env.SrcDir s c).moduleName
        (ResolveModule env.SrcDir s c).filename = .error e →
      env.Marshal { Error := e } = .ok out →
      (HandleCodeFetch env fs s c).outcome = .returned out) ∧
    (∀ s c e out, s ≠ [] → (ResolveModule env.SrcDir s c).err = none →
      env.isRemote (ResolveModule env.SrcDir s c).moduleName = false →
      strings.HasPrefix (ResolveModule env.SrcDir s c).moduleName assetPrefix = false →
      (ResolveModule env.SrcDir s c).moduleName = (ResolveModule env.SrcDir s c).filename →
      ReadFile fs (ResolveModule env.SrcDir s c).moduleName = .error e →
      env.Marshal { Error := e } = .ok out →
      (fs.entry (ResolveModule env.SrcDir s c).moduleName = Entry.absent → e ≠ []) ∧
      (HandleCodeFetch env fs s c).outcome = .returned out) ∧
    (∀ s c src e out, s ≠ [] → (ResolveModule env.SrcDir s c).err = none →
      ((env.isRemote (ResolveModule env.SrcDir s c).moduleName = true ∧
          env.FetchRemoteSource (ResolveModule env.SrcDir s c).moduleName
            (ResolveModule env.SrcDir s c).filename = .ok src) ∨
       (env.isRemote (ResolveModule env.SrcDir s c).moduleName = false ∧
          strings.HasPrefix (ResolveModule env.SrcDir s c).moduleName assetPrefix = true ∧
          (env.Asset ("dist/".toList ++
              strings.TrimPrefix (ResolveModule env.SrcDir s c).moduleName assetPrefix)
              = .ok src ∨
            (src = [] ∧ ∃ e1, env.Asset ("dist/".toList ++
              strings.TrimPrefix (ResolveModule env.SrcDir s c).moduleName assetPrefix)
              = .error e1))) ∨
       (env.isRemote (ResolveModule env.SrcDir s c).moduleName = false ∧
          strings.HasPrefix (ResolveModule env.SrcDir s c).moduleName assetPrefix = false ∧
          (ResolveModule env.SrcDir s c).moduleName = (ResolveModule env.SrcDir s c).filename ∧
          ReadFile fs (ResolveModule env.SrcDir s c).moduleName = .ok src)) →
      LoadOutputCodeCache env fs (ResolveModule env.SrcDir s c).filename src = .error e →
      env.Marshal { Error := e } = .ok out →
      (HandleCodeFetch env fs s c).outcome = .returned out) ∧
    (∀ s c e1 code out, s ≠ [] → (ResolveModule env.SrcDir s c).err = none →
      env.isRemote (ResolveModule env.SrcDir s c).moduleName = false →
      strings.HasPrefix (ResolveModule env.SrcDir s c).moduleName assetPrefix = true →
      env.Asset ("dist/".toList ++
        strings.TrimPrefix (ResolveModule env.SrcDir s c).moduleName assetPrefix) = .error e1 →
      LoadOutputCodeCache env fs (ResolveModule env.SrcDir s c).filename [] = .ok code →
      env.Marshal
        { Command := Command.CODE_FETCH_RES,
          Error := [],
          CodeFetchResModuleName := (ResolveModule env.SrcDir s c).moduleName,
          CodeFetchResFilename := (ResolveModule env.SrcDir s c).filename,
          CodeFetchResSourceCode := [],
          CodeFetchResOutputCode := code } = .ok out →
      (HandleCodeFetch env fs s c).outcome = .returned out) ∧
    (∀ f src code e out, (WriteFile fs (env.CacheFileName f src) code).2 = some e →
      env.Marshal { Error := e } = .ok out →
      (HandleCodeCache env fs f src code).1 = .returned out) := by
  refine ⟨?_, ?_, ?_, ?_, ?_, ?_⟩
  · intro s c e out hs he hM
    refine ⟨ResolveModule_err_ne_nil _ s c e he, ?_⟩
    rw [HandleCodeFetch_unresolved env fs s c e hs he]
    exact deferredCodeFetch_some env e out hM
  · intro s c e out hs hr hrem hfetch hM
    rw [HandleCodeFetch_remote env fs s c hs hr hrem, hfetch, codeFetchLoaded_error]
    exact deferredCodeFetch_some env e out hM
  · intro s c e out hs hr hrem hpre heq hread hM
    constructor
    · intro habs
      simp only [ReadFile, habs, Except.error.injEq] at hread
      rw [← hread]
      simp
    · rw [HandleCodeFetch_local env fs s c hs hr hrem hpre heq, hread, codeFetchLoaded_error]
      exact deferredCodeFetch_some env e out hM
  · intro s c src e out hs hr hcase hcache hM
    rcases hcase with ⟨hrem, hfetch⟩ | ⟨hrem, hpre, hasset⟩ | ⟨hrem, hpre, heq, hread⟩
    · rw [HandleCodeFetch_remote env fs s c hs hr hrem, hfetch,
        codeFetchLoaded_cache_error env fs _ _ src _ e hcache]
      exact deferredCodeFetch_some env e out hM
    · rw [HandleCodeFetch_asset env fs s c hs hr hrem hpre]
      rcases hasset with hasset | ⟨hsrc, e1, hasset⟩
      · rw [hasset]
        rw [codeFetchLoaded_cache_error env fs _ _ src _ e hcache]
        exact deferredCodeFetch_some env e out hM
      · subst hsrc
        rw [hasset]
        rw [codeFetchLoaded_cache_error env fs _ _ [] _ e hcache]
        exact deferredCodeFetch_some env e out hM
    · rw [HandleCodeFetch_local env fs s c hs hr hrem hpre heq, hread,
        codeFetchLoaded_cache_error env fs _ _ src _ e hcache]
      exact deferredCodeFetch_some env e out hM
  · intro s c e1 code out hs hr hrem hpre hasset hcache hM
    rw [HandleCodeFetch_asset env fs s c hs hr hrem hpre, hasset]
    rw [codeFetchLoaded_ok env fs _ _ [] code _ hcache]
    exact deferredCodeFetch_none env _ out hM
  · intro f src code e out hw hM
    rw [HandleCodeCache_write_error env fs f src code e hw]
    exact deferredCodeFetch_some env e out hM

theorem C5_failure_goes_into_envelope_witness :
    (HandleCodeFetch Example.env Example.disk "./b.ts".toList "%zz".toList).outcome
      = .returned (Example.wire { Error := "parse %zz: invalid URL escape \"%zz\"".toList }) ∧
    (HandleCodeFetch Example.env Example.disk "http://x/a.ts".toList
      "/app/main.ts".toList).outcome
      = .returned (Example.wire { Error := "Get http://x/a.ts: no network".toList }) ∧
    (HandleCodeFetch Example.env Example.disk "./missing.ts".toList
      "/app/main.ts".toList).outcome
      = .returned (Example.wire
          { Error := "open /app/missing.ts: no such file or directory".toList }) ∧
    (HandleCodeFetch Example.env Example.lockedDisk "/$asset$/doesnotexist.ts".toList
      "/app/main.ts".toList).outcome
      = .returned (Example.wire
          { Error := "open /home/u/.deno/gen/_$asset$_doesnotexist.ts.js: permission denied".toList }) ∧
    (HandleCodeFetch Example.env Example.disk "/$asset$/doesnotexist.ts".toList
      "/app/main.ts".toList).outcome
      = .returned (Example.wire
          { Command := Command.CODE_FETCH_RES,
            CodeFetchResModuleName := "/$asset$/doesnotexist.ts".toList,
            CodeFetchResFilename := "/$asset$/doesnotexist.ts".toList }) ∧
    (HandleCodeCache Example.env Example.lockedDisk "/app/util.ts".toList "x".toList
      "y".toList).1 = .returned (Example.wire { Error := "permission denied".toList }) :=
  have h := C5_failure_goes_into_envelope Example.env Example.disk
  have hl := C5_failure_goes_into_envelope Example.env Example.lockedDisk
  ⟨(h.1 "./b.ts".toList "%zz".toList "parse %zz: invalid URL escape \"%zz\"".toList _
      (by decide) (by decide) (by rfl)).2,
    h.2.1 "http://x/a.ts".toList "/app/main.ts".toList "Get http://x/a.ts: no network".toList _
      (by decide) (by decide) (by decide) (by rfl) (by rfl),
    (h.2.2.1 "./missing.ts".toList "/app/main.ts".toList
      "open /app/missing.ts: no such file or directory".toList _
      (by decide) (by decide) (by decide) (by decide) (by decide) (by rfl) (by rfl)).2,
    hl.2.2.2.1 "/$asset$/doesnotexist.ts".toList "/app/main.ts".toList []
      "open /home/u/.deno/gen/_$asset$_doesnotexist.ts.js: permission denied".toList _
      (by decide) (by decide)
      (Or.inr (Or.inl ⟨by decide, by decide,
        Or.inr ⟨rfl, "Asset dist/doesnotexist.ts not found".toList, by rfl⟩⟩))
      (by rfl) (by rfl),
    h.2.2.2.2.1 "/$asset$/doesnotexist.ts".toList "/app/main.ts".toList
      "Asset dist/doesnotexist.ts not found".toList [] _
      (by decide) (by decide) (by decide) (by decide) (by rfl) (by rfl) (by rfl),
    hl.2.2.2.2.2 "/app/util.ts".toList "x".toList "y".toList "permission denied".toList _
      (by rfl) (by rfl)⟩

/-! ## C6 -/

/-- C6 as stated fails: the decoded envelope is a CodeFetch whose module specifier
is empty, and the dispatcher panics on the assertion at the head of
`HandleCodeFetch` instead of returning a response. -/
theorem C6_empty_specifier_aborts :
    Example.env.Unmarshal "CODE_FETCH\n\n\n/app/main.ts\n\n\n\n\n\n\n".toList
      = .ok { Command := Command.CODE_FETCH, CodeFetchContainingFile := "/app/main.ts".toList } ∧
    (InitOS Example.env Example.disk "CODE_FETCH\n\n\n/app/main.ts\n\n\n\n\n\n\n".toList).1
      = .panicked "moduleSpecifier shouldn't be empty".toList := by
  constructor
  · rfl
  · rfl

/-- C6 (amended). With an encoder that is total, for every well-formed inbound
envelope whose command is CodeCache, and for every one whose command is CodeFetch
with a module specifier that is not empty and for which the handler's assertion
holds (a module that is neither remote nor an asset resolves to moduleName equal
to filename), the dispatcher returns exactly one serialized response envelope and
does not abort, also when a step of the handler fails. -/
theorem C6_dispatcher_returns_one_envelope (env : Env) (fs : FS) (buf : GoString) (msg : Msg)
    (hM : ∀ m, ∃ out, env.Marshal m = .ok out)
    (hU : env.Unmarshal buf = .ok msg)
    (hcmd : msg.Command = Command.CODE_FETCH ∨ msg.Command = Command.CODE_CACHE)
    (hspec : msg.Command = Command.CODE_FETCH → msg.CodeFetchModuleSpecifier ≠ [])
    (hinv : msg.Command = Command.CODE_FETCH →
      (ResolveModule env.SrcDir msg.CodeFetchModuleSpecifier msg.CodeFetchContainingFile).err
        = none →
      env.isRemote (ResolveModule env.SrcDir msg.CodeFetchModuleSpecifier
        msg.CodeFetchContainingFile).moduleName = false →
      strings.HasPrefix (ResolveModule env.SrcDir msg.CodeFetchModuleSpecifier
        msg.CodeFetchContainingFile).moduleName assetPrefix = false →
      (ResolveModule env.SrcDir msg.CodeFetchModuleSpecifier
        msg.CodeFetchContainingFile).moduleName =
      (ResolveModule env.SrcDir msg.CodeFetchModuleSpecifier
        msg.CodeFetchContainingFile).filename) :
    ∃ out res, (InitOS env fs buf).1 = .returned out ∧ env.Marshal res = .ok out := by
  unfold InitOS
  rw [hU]
  rcases hcmd with h | h
  · simp only [h]
    exact HandleCodeFetch_returns env fs hM _ _ (hspec h) (hinv h)
  · simp only [h]
    exact HandleCodeCache_returns env fs hM _ _ _

theorem C6_dispatcher_returns_one_envelope_witness :
    ∃ out res,
      (InitOS Example.env Example.disk
        "CODE_FETCH\n\n./util.ts\n/app/main.ts\n\n\n\n\n\n\n".toList).1 = .returned out ∧
      Example.env.Marshal res = .ok out :=
  C6_dispatcher_returns_one_envelope Example.env Example.disk
    "CODE_FETCH\n\n./util.ts\n/app/main.ts\n\n\n\n\n\n\n".toList
    { Command := Command.CODE_FETCH, CodeFetchModuleSpecifier := "./util.ts".toList,
      CodeFetchContainingFile := "/app/main.ts".toList }
    Example.marshal_total (by rfl) (Or.inl rfl) (fun _ => by decide) (fun _ _ _ _ => by decide)


/-! ## C7 -/

/-- C7 as stated fails: the module `/$asset$/doesnotexist.ts` is not in the
bundle, the lookup in the output cache that follows fails on a cache file that
cannot be read, and the response carries that error in its Error field. -/
theorem C7_asset_miss_then_cache_error :
    (ResolveModule Example.env.SrcDir "/$asset$/doesnotexist.ts".toList
      "/app/main.ts".toList).moduleName = "/$asset$/doesnotexist.ts".toList ∧
    Example.env.Asset "dist/doesnotexist.ts".toList
      = .error "Asset dist/doesnotexist.ts not found".toList ∧
    (HandleCodeFetch Example.env Example.lockedDisk "/$asset$/doesnotexist.ts".toList
      "/app/main.ts".toList).outcome
      = .returned (Example.wire
          { Error := "open /home/u/.deno/gen/_$asset$_doesnotexist.ts.js: permission denied".toList }) := by
  refine ⟨by decide, by rfl, by rfl⟩

/-- C7 (amended). For every CodeFetch whose resolved moduleName is not remote and
begins with the asset prefix `/$asset$/`, and whose remainder is not present in
the asset bundle, the asset lookup failure is not reported: the source is empty,
and when the lookup in the output cache that follows succeeds, the response is the
CodeFetch result with an empty Error field and empty source code. -/
theorem C7_asset_miss_is_not_reported (env : Env) (fs : FS) (s c : GoString) (e : GoError)
    (code out : GoString)
    (hs : s ≠ [])
    (hr : (ResolveModule env.SrcDir s c).err = none)
    (hrem : env.isRemote (ResolveModule env.SrcDir s c).moduleName = false)
    (hpre : strings.HasPrefix (ResolveModule env.SrcDir s c).moduleName assetPrefix = true)
    (hmiss : env.Asset ("dist/".toList ++
      strings.TrimPrefix (ResolveModule env.SrcDir s c).moduleName assetPrefix) = .error e)
    (hcache : LoadOutputCodeCache env fs (ResolveModule env.SrcDir s c).filename [] = .ok code)
    (hM : env.Marshal
      { Command := Command.CODE_FETCH_RES,
        Error := [],
        CodeFetchResModuleName := (ResolveModule env.SrcDir s c).moduleName,
        CodeFetchResFilename := (ResolveModule env.SrcDir s c).filename,
        CodeFetchResSourceCode := [],
        CodeFetchResOutputCode := code } = .ok out) :
    (HandleCodeFetch env fs s c).outcome = .returned out ∧
    (HandleCodeFetch env fs s c).calls =
      [Call.Asset ("dist/".toList ++
          strings.TrimPrefix (ResolveModule env.SrcDir s c).moduleName assetPrefix),
        Call.LoadOutputCodeCache (ResolveModule env.SrcDir s c).filename []] := by
  rw [HandleCodeFetch_asset env fs s c hs hr hrem hpre, hmiss]
  constructor
  · rw [codeFetchLoaded_ok env fs _ _ [] code _ hcache]
    exact deferredCodeFetch_none env _ out hM
  · rw [codeFetchLoaded_calls]
    rfl

theorem C7_asset_miss_is_not_reported_witness :
    (HandleCodeFetch Example.env Example.disk "/$asset$/doesnotexist.ts".toList
      "/app/main.ts".toList).outcome
      = .returned (Example.wire
          { Command := Command.CODE_FETCH_RES,
            CodeFetchResModuleName := "/$asset$/doesnotexist.ts".toList,
            CodeFetchResFilename := "/$asset$/doesnotexist.ts".toList }) :=
  (C7_asset_miss_is_not_reported Example.env Example.disk "/$asset$/doesnotexist.ts".toList
    "/app/main.ts".toList "Asset dist/doesnotexist.ts not found".toList [] _
    (by decide) (by decide) (by decide) (by decide) (by rfl) (by rfl) (by rfl)).1

/-! ## C8 -/

/-- C8, the code at the failing input.  The specifier `util.ts?x` against the
containing file `/app/main.ts` resolves to the moduleName `/app/util.ts?x` and the
filename `/app/util.ts` (`resolved.String()` and `resolved.Path`, lines 51 to 55
of `os.go`).  The module is neither remote nor an asset, so its source is to come
from a disk read of the moduleName; but the assertion of the handler itself, "if
a module isn't remote, it should have the same filename" (lines 92 and 93), fails
on what the resolver returned, and the handler panics without a call to any of the
three strategies. -/
theorem C8_assertion_stops_the_disk_read :
    ResolveModule Example.env.SrcDir "util.ts?x".toList "/app/main.ts".toList
      = { moduleName := "/app/util.ts?x".toList, filename := "/app/util.ts".toList } ∧
    Example.env.isRemote "/app/util.ts?x".toList = false ∧
    strings.HasPrefix "/app/util.ts?x".toList assetPrefix = false ∧
    HandleCodeFetch Example.env Example.disk "util.ts?x".toList "/app/main.ts".toList
      = { outcome := .panicked "if a module isn't remote, it should have the same filename".toList,
          calls := [] } := by
  refine ⟨by decide, by decide, by decide, by rfl⟩

/-- Where the resolver keeps what the handler asserts, the source comes from
exactly one strategy chosen in priority order: if moduleName is remote, from the
remote fetcher called with (moduleName, filename); otherwise if moduleName begins
with `/$asset$/`, from the asset bundle at `dist/` followed by moduleName with that
prefix stripped (a miss giving the empty source); otherwise, moduleName being equal
to filename, from a local disk read of moduleName.  The call of that strategy is
the only source call the handler makes, and the rest of the handler runs on what it
returned. -/
theorem HandleCodeFetch_one_source_strategy (env : Env) (fs : FS) (s c : GoString)
    (hs : s ≠ []) (hr : (ResolveModule env.SrcDir s c).err = none) :
    (env.isRemote (ResolveModule env.SrcDir s c).moduleName = true →
      (HandleCodeFetch env fs s c).calls.filter Call.isSource =
        [Call.FetchRemoteSource (ResolveModule env.SrcDir s c).moduleName
          (ResolveModule env.SrcDir s c).filename] ∧
      HandleCodeFetch env fs s c =
        codeFetchLoaded env fs (ResolveModule env.SrcDir s c).moduleName
          (ResolveModule env.SrcDir s c).filename
          [Call.FetchRemoteSource (ResolveModule env.SrcDir s c).moduleName
            (ResolveModule env.SrcDir s c).filename]
          (env.FetchRemoteSource (ResolveModule env.SrcDir s c).moduleName
            (ResolveModule env.SrcDir s c).filename)) ∧
    (env.isRemote (ResolveModule env.SrcDir s c).moduleName = false →
      strings.HasPrefix (ResolveModule env.SrcDir s c).moduleName assetPrefix = true →
      (HandleCodeFetch env fs s c).calls.filter Call.isSource =
        [Call.Asset ("dist/".toList ++
          strings.TrimPrefix (ResolveModule env.SrcDir s c).moduleName assetPrefix)] ∧
      HandleCodeFetch env fs s c =
        codeFetchLoaded env fs (ResolveModule env.SrcDir s c).moduleName
          (ResolveModule env.SrcDir s c).filename
          [Call.Asset ("dist/".toList ++
            strings.TrimPrefix (ResolveModule env.SrcDir s c).moduleName assetPrefix)]
          (match env.Asset ("dist/".toList ++
              strings.TrimPrefix (ResolveModule env.SrcDir s c).moduleName assetPrefix) with
            | .ok src => .ok src
            | .error _ => .ok [])) ∧
    (env.isRemote (ResolveModule env.SrcDir s c).moduleName = false →
      strings.HasPrefix (ResolveModule env.SrcDir s c).moduleName assetPrefix = false →
      (ResolveModule env.SrcDir s c).moduleName = (ResolveModule env.SrcDir s c).filename →
      (HandleCodeFetch env fs s c).calls.filter Call.isSource =
        [Call.ReadFile (ResolveModule env.SrcDir s c).moduleName] ∧
      HandleCodeFetch env fs s c =
        codeFetchLoaded env fs (ResolveModule env.SrcDir s c).moduleName
          (ResolveModule env.SrcDir s c).filename
          [Call.ReadFile (ResolveModule env.SrcDir s c).moduleName]
          (ReadFile fs (ResolveModule env.SrcDir s c).moduleName)) := by
  refine ⟨?_, ?_, ?_⟩
  · intro hrem
    have h := HandleCodeFetch_remote env fs s c hs hr hrem
    exact ⟨by rw [h]; exact codeFetchLoaded_filter env fs _ _ _ (by rfl) _, h⟩
  · intro hrem hpre
    have h := HandleCodeFetch_asset env fs s c hs hr hrem hpre
    exact ⟨by rw [h]; exact codeFetchLoaded_filter env fs _ _ _ (by rfl) _, h⟩
  · intro hrem hpre heq
    have h := HandleCodeFetch_local env fs s c hs hr hrem hpre heq
    exact ⟨by rw [h]; exact codeFetchLoaded_filter env fs _ _ _ (by rfl) _, h⟩

theorem HandleCodeFetch_one_source_strategy_example :
    "./util.ts".toList ≠ [] ∧
    (ResolveModule Example.env.SrcDir "./util.ts".toList "/app/main.ts".toList).err = none ∧
    (HandleCodeFetch Example.env Example.disk "./util.ts".toList
      "/app/main.ts".toList).calls.filter Call.isSource = [Call.ReadFile "/app/util.ts".toList] :=
  ⟨by decide, by decide,
    ((HandleCodeFetch_one_source_strategy Example.env Example.disk "./util.ts".toList "/app/main.ts".toList
      (by decide) (by decide)).2.2 (by decide) (by decide) (by decide)).1⟩

/-! ## C9 -/

/-- C9. For every filename f, source src and output code out, a `HandleCodeCache(f,
src, out)` whose write succeeds leaves exactly the bytes of out in the cache slot
`CacheFileName(f, src)`, whatever the slot held before, and leaves every other
path as it was; the output lookup for (f, src) that follows, as `HandleCodeFetch`
makes it, returns out exactly, and the response of such a fetch carries out as
its output code. -/
theorem C9_stored_output_is_looked_up (env : Env) (fs : FS) (f src out : GoString)
    (hw : (WriteFile fs (env.CacheFileName f src) out).2 = none) :
    (HandleCodeCache env fs f src out).2.entry (env.CacheFileName f src) = Entry.file out ∧
    (∀ p, p ≠ env.CacheFileName f src →
      (HandleCodeCache env fs f src out).2.entry p = fs.entry p) ∧
    LoadOutputCodeCache env (HandleCodeCache env fs f src out).2 f src = .ok out ∧
    (∀ m calls, (codeFetchLoaded env (HandleCodeCache env fs f src out).2 m f calls
        (.ok src)).outcome =
      deferredCodeFetch env
        { Command := Command.CODE_FETCH_RES, CodeFetchResModuleName := m,
          CodeFetchResFilename := f, CodeFetchResSourceCode := src,
          CodeFetchResOutputCode := out } none) := by
  have hfs := HandleCodeCache_fs env fs f src out
  have hen := WriteFile_entry fs (env.CacheFileName f src) out hw
  have h1 : (HandleCodeCache env fs f src out).2.entry (env.CacheFileName f src)
      = Entry.file out := by
    rw [hfs, hen]; simp
  have h3 : LoadOutputCodeCache env (HandleCodeCache env fs f src out).2 f src = .ok out := by
    unfold LoadOutputCodeCache
    rw [h1]
  refine ⟨h1, ?_, h3, ?_⟩
  · intro p hp
    rw [hfs, hen]
    simp [Function.update, hp]
  · intro m calls
    exact codeFetchLoaded_ok env _ m f src out calls h3

theorem C9_stored_output_is_looked_up_witness :
    (WriteFile Example.disk (Example.env.CacheFileName "/app/util.ts".toList
      "export const n = 1;".toList) "var n = 1;".toList).2 = none ∧
    LoadOutputCodeCache Example.env
      (HandleCodeCache Example.env Example.disk "/app/util.ts".toList
        "export const n = 1;".toList "var n = 1;".toList).2
      "/app/util.ts".toList "export const n = 1;".toList = .ok "var n = 1;".toList :=
  ⟨by rfl,
    (C9_stored_output_is_looked_up Example.env Example.disk "/app/util.ts".toList
      "export const n = 1;".toList "var n = 1;".toList (by rfl)).2.2.1⟩

/-! ## Lemmas on `path.Clean` -/

theorem splitOnP_append_sep {α : Type} (p : α → Bool) (a : List α) (sep : α) (b : List α)
    (hsep : p sep = true) :
    (a ++ sep :: b).splitOnP p = a.splitOnP p ++ b.splitOnP p := by
  induction a with
  | nil => simp [hsep]
  | cons x a ih =>
    simp only [List.cons_append, List.splitOnP_cons, ih]
    cases hx : p x
    · simp only [Bool.false_eq_true, if_false]
      cases h : List.splitOnP p a with
      | nil => exact absurd h (List.splitOnP_ne_nil p a)
      | cons y ys => rfl
    · simp

theorem Split_append_sep (a b : GoString) :
    strings.Split (a ++ '/' :: b) '/' = strings.Split a '/' ++ strings.Split b '/' := by
  unfold strings.Split List.splitOn
  exact splitOnP_append_sep _ a '/' b (by simp)

/-- Without a `..` element the scan of a rooted path only appends to the buffer,
and what it appends starts with a slash unless the buffer is the root alone. -/
theorem foldl_cleanStep_rooted (es : List GoString) (h : ∀ e ∈ es, e ≠ "..".toList)
    (out : GoString) (d : Nat) :
    ∃ T, (es.foldl (path.cleanStep true) (out, d)).1 = out ++ T ∧
      (T = [] ∨ T.head? = some '/' ∨ out.length = 1) := by
  induction es generalizing out with
  | nil => exact ⟨[], by simp, Or.inl rfl⟩
  | cons e es ih =>
    have he : e ≠ "..".toList := h e (List.mem_cons_self _ _)
    have hes : ∀ x ∈ es, x ≠ "..".toList := fun x hx => h x (List.mem_cons_of_mem _ hx)
    simp only [List.foldl_cons]
    by_cases h1 : e = []
    · simpa [path.cleanStep, h1] using ih hes out
    by_cases h2 : e = ".".toList
    · simpa [path.cleanStep, h2] using ih hes out
    have h2' : e ≠ ['.'] := h2
    have he' : e ≠ ['.', '.'] := he
    by_cases h3 : out.length = 1
    · have hstep : path.cleanStep true (out, d) e = (out ++ e, d) := by
        simp [path.cleanStep, h1, h2', he', h3]
      rw [hstep]
      obtain ⟨T, hT, _⟩ := ih hes (out ++ e)
      exact ⟨e ++ T, by rw [hT, List.append_assoc], Or.inr (Or.inr h3)⟩
    · have hstep : path.cleanStep true (out, d) e = (out ++ ['/'] ++ e, d) := by
        simp [path.cleanStep, h1, h2', he', h3]
      rw [hstep]
      obtain ⟨T, hT, _⟩ := ih hes (out ++ ['/'] ++ e)
      exact ⟨'/' :: (e ++ T), by rw [hT]; simp, Or.inr (Or.inl rfl)⟩

/-- The scan of a clean rooted path ends with the path itself in the buffer. -/
theorem Clean_fixed_buffer (S : GoString) (hS : S.head? = some '/') (hclean : path.Clean S = S) :
    ((strings.Split S.tail '/').foldl (path.cleanStep true) (['/'], 1)).1 = S := by
  have hne : S ≠ [] := by intro h; simp [h] at hS
  unfold path.Clean at hclean
  simp only [hne, if_false, hS, decide_True, if_true] at hclean
  split at hclean
  · rw [← hclean] at hS; simp at hS
  · exact hclean

theorem Clean_under_root (S rest : GoString) (hS : S.head? = some '/') (hclean : path.Clean S = S)
    (h : ∀ e ∈ strings.Split rest '/', e ≠ "..".toList) :
    ∃ T, path.Clean (S ++ '/' :: rest) = S ++ T ∧ (T = [] ∨ T.head? = some '/' ∨ S = ['/']) := by
  obtain ⟨c, t, rfl⟩ : ∃ c t, S = c :: t := by
    cases S with
    | nil => simp at hS
    | cons c t => exact ⟨c, t, rfl⟩
  simp only [List.head?_cons, Option.some.injEq] at hS
  subst hS
  have hbuf := Clean_fixed_buffer ('/' :: t) rfl hclean
  simp only [List.tail_cons] at hbuf
  unfold path.Clean
  simp only [List.cons_append, List.head?_cons, decide_True, if_true, List.tail_cons,
    reduceCtorEq, if_false, Split_append_sep, List.foldl_append]
  generalize (strings.Split t '/').foldl (path.cleanStep true) (['/'], 1) = st at hbuf ⊢
  obtain ⟨o, d⟩ := st
  simp only at hbuf
  subst hbuf
  obtain ⟨T, hT, hT'⟩ := foldl_cleanStep_rooted (strings.Split rest '/') h ('/' :: t) d
  refine ⟨T, ?_, ?_⟩
  · rw [hT]; simp
  · rcases hT' with h1 | h1 | h1
    · exact Or.inl h1
    · exact Or.inr (Or.inl h1)
    · refine Or.inr (Or.inr ?_)
      cases t with
      | nil => rfl
      | cons a t => simp at h1

/-! ## Lemmas on `ResolveModule` -/

theorem resolvedURL_eq_some (s c : GoString) (r : url.URL) (h : resolvedURL s c = some r) :
    ∃ u b, url.Parse s = .ok u ∧ url.Parse c = .ok b ∧ r = b.ResolveReference u := by
  unfold resolvedURL at h
  cases hs : url.Parse s with
  | error e => simp [hs] at h
  | ok u =>
    cases hc : url.Parse c with
    | error e => simp [hs, hc] at h
    | ok b =>
      simp only [hs, hc, Option.some.injEq] at h
      exact ⟨u, b, rfl, rfl, h.symm⟩

theorem ResolveModule_absolute (S s c : GoString) (r : url.URL)
    (hs : isAbsolute s = true) (hr : resolvedURL s c = some r) :
    ResolveModule S s c =
      { moduleName := r.String, filename := path.Join [S, r.Host, r.Path] } := by
  obtain ⟨u, b, hu, hb, rfl⟩ := resolvedURL_eq_some s c r hr
  have habs : u.IsAbs = true := by simpa [isAbsolute, hu] using hs
  simp [ResolveModule, hu, hb, habs]

theorem ResolveModule_relative (S s c : GoString) (r : url.URL)
    (hs : isAbsolute s = false) (hr : resolvedURL s c = some r) :
    ResolveModule S s c = { moduleName := r.String, filename := r.Path } := by
  obtain ⟨u, b, hu, hb, rfl⟩ := resolvedURL_eq_some s c r hr
  have habs : u.IsAbs = false := by simpa [isAbsolute, hu] using hs
  simp [ResolveModule, hu, hb, habs]

theorem Join_SrcDir (S H P : GoString) (hS : S ≠ []) :
    path.Join [S, H, P] = path.Clean (S ++ '/' :: (H ++ '/' :: P)) := by
  simp [path.Join, hS, strings.Join, List.intercalate]

theorem not_hasDotDot (p : GoString) (h : hasDotDot p = false) :
    ∀ e ∈ strings.Split p '/', e ≠ "..".toList := by
  intro e he heq
  subst heq
  have : hasDotDot p = true := by
    unfold hasDotDot
    exact List.contains_iff_exists_mem_beq.2 ⟨_, he, by simp⟩
  rw [h] at this
  exact Bool.false_ne_true this

/-- Without a `..` element in host and path the joined filename stays under the
clean rooted directory `S`. -/
theorem Join_under_SrcDir (S H P : GoString) (hS : S.head? = some '/')
    (hclean : path.Clean S = S) (hH : hasDotDot H = false) (hP : hasDotDot P = false) :
    ∃ T, path.Join [S, H, P] = S ++ T ∧ (T = [] ∨ T.head? = some '/' ∨ S = ['/']) := by
  have hne : S ≠ [] := by intro h; simp [h] at hS
  rw [Join_SrcDir S H P hne]
  apply Clean_under_root S _ hS hclean
  rw [Split_append_sep]
  intro e he
  rcases List.mem_append.1 he with h | h
  · exact not_hasDotDot H hH e h
  · exact not_hasDotDot P hP e h

theorem Split_single (H : GoString) (h : '/' ∉ H) : strings.Split H '/' = [H] := by
  unfold strings.Split List.splitOn
  apply List.splitOnP_eq_single
  intro x hx hp
  rw [eq_of_beq hp] at hx
  exact h hx

/-- Under a clean rooted directory, a host that is one real path element comes
right after the directory in the joined filename. -/
theorem Join_host_form (S H P : GoString) (hS : S.head? = some '/')
    (hclean : path.Clean S = S) (hne : H ≠ []) (hslash : '/' ∉ H) (hdot : H ≠ ".".toList)
    (hdd : H ≠ "..".toList) (hP : hasDotDot P = false) :
    ∃ T, path.Join [S, H, P] = S ++ (if S.length = 1 then [] else ['/']) ++ H ++ T ∧
      (T = [] ∨ T.head? = some '/') := by
  have hSne : S ≠ [] := by intro h; simp [h] at hS
  rw [Join_SrcDir S H P hSne]
  obtain ⟨c, t, rfl⟩ : ∃ c t, S = c :: t := by
    cases S with
    | nil => simp at hS
    | cons c t => exact ⟨c, t, rfl⟩
  simp only [List.head?_cons, Option.some.injEq] at hS
  subst hS
  have hbuf := Clean_fixed_buffer ('/' :: t) rfl hclean
  simp only [List.tail_cons] at hbuf
  unfold path.Clean
  simp only [List.cons_append, List.head?_cons, decide_True, if_true, List.tail_cons,
    reduceCtorEq, if_false, Split_append_sep, List.foldl_append, Split_single H hslash,
    List.foldl_cons, List.foldl_nil]
  generalize (strings.Split t '/').foldl (path.cleanStep true) (['/'], 1) = st at hbuf ⊢
  obtain ⟨o, d⟩ := st
  simp only at hbuf
  subst hbuf
  have hdot' : H ≠ ['.'] := hdot
  have hdd' : H ≠ ['.', '.'] := hdd
  have hstep : path.cleanStep true ('/' :: t, d) H =
      ('/' :: t ++ (if ('/' :: t).length = 1 then [] else ['/']) ++ H, d) := by
    by_cases h1 : ('/' :: t).length = 1
    · simp only [List.length_cons, add_left_eq_self, List.length_eq_zero] at h1
      subst h1
      simp [path.cleanStep, hne, hdot', hdd']
    · have h1' : t ≠ [] := by
        intro h; apply h1; simp [h]
      simp [path.cleanStep, hne, hdot', hdd', h1']
  rw [hstep]
  obtain ⟨T, hT, hT'⟩ := foldl_cleanStep_rooted (strings.Split P '/') (not_hasDotDot P hP)
    ('/' :: t ++ (if ('/' :: t).length = 1 then [] else ['/']) ++ H) d
  have hlen : ('/' :: t ++ (if ('/' :: t).length = 1 then [] else ['/']) ++ H).length ≠ 1 := by
    have : 0 < H.length := List.length_pos.2 hne
    simp only [List.length_append, List.length_cons]
    omega
  refine ⟨T, ?_, ?_⟩
  · rw [hT]
    have : ('/' :: t ++ (if ('/' :: t).length = 1 then [] else ['/']) ++ H ++ T).length ≠ 0 := by
      simp
    simp only [this, if_false]
    simp
  · rcases hT' with h | h | h
    · exact Or.inl h
    · exact Or.inr h
    · exact absurd h hlen

/-- A host without a slash can be read back from what follows the directory. -/
theorem host_of_filename (H1 H2 T1 T2 : GoString) (h1 : '/' ∉ H1) (h2 : '/' ∉ H2)
    (hT1 : T1 = [] ∨ T1.head? = some '/') (hT2 : T2 = [] ∨ T2.head? = some '/')
    (h : H1 ++ T1 = H2 ++ T2) : H1 = H2 := by
  have key : ∀ (H T : GoString), '/' ∉ H → (T = [] ∨ T.head? = some '/') →
      (H ++ T).takeWhile (fun c => c != '/') = H := by
    intro H T hH hT
    induction H with
    | nil =>
      rcases hT with hT | hT
      · simp [hT]
      · cases T with
        | nil => simp
        | cons a T => simp at hT; simp [hT]
    | cons a H ih =>
      have ha : a ≠ '/' := fun h => hH (h ▸ List.mem_cons_self _ _)
      have hH' : '/' ∉ H := fun h => hH (List.mem_cons_of_mem _ h)
      simp [List.takeWhile_cons, ha, ih hH']
  rw [← key H1 T1 h1 hT1, ← key H2 T2 h2 hT2, h]

theorem Join_host_injective (S H1 P1 H2 P2 : GoString) (hS : S.head? = some '/')
    (hclean : path.Clean S = S)
    (hne1 : H1 ≠ []) (hs1 : '/' ∉ H1) (hd1 : H1 ≠ ".".toList) (hdd1 : H1 ≠ "..".toList)
    (hP1 : hasDotDot P1 = false)
    (hne2 : H2 ≠ []) (hs2 : '/' ∉ H2) (hd2 : H2 ≠ ".".toList) (hdd2 : H2 ≠ "..".toList)
    (hP2 : hasDotDot P2 = false)
    (h : path.Join [S, H1, P1] = path.Join [S, H2, P2]) : H1 = H2 := by
  obtain ⟨T1, e1, hT1⟩ := Join_host_form S H1 P1 hS hclean hne1 hs1 hd1 hdd1 hP1
  obtain ⟨T2, e2, hT2⟩ := Join_host_form S H2 P2 hS hclean hne2 hs2 hd2 hdd2 hP2
  rw [e1, e2] at h
  simp only [List.append_assoc, List.append_cancel_left_eq] at h
  exact host_of_filename H1 H2 T1 T2 hs1 hs2 hT1 hT2 h

/-! ## A parsed host has no slash -/

theorem toNat_ofNat_byte (n : Nat) (h : n < 256) : (Char.ofNat n).toNat = n := by
  have hv : n.isValidChar := Or.inl (by omega)
  unfold Char.ofNat
  rw [dif_pos hv]
  rfl

theorem unhex_lt (c : Char) : url.unhex c < 16 := by
  unfold url.unhex
  split
  · rename_i h
    have h2 : c.toNat ≤ '9'.toNat := h.2
    have e9 : '9'.toNat = 57 := rfl
    have e0 : '0'.toNat = 48 := rfl
    omega
  · split
    · rename_i h
      have h2 : c.toNat ≤ 'f'.toNat := h.2
      have e9 : 'f'.toNat = 102 := rfl
      have e0 : 'a'.toNat = 97 := rfl
      omega
    · split
      · rename_i h
        have h2 : c.toNat ≤ 'F'.toNat := h.2
        have e9 : 'F'.toNat = 70 := rfl
        have e0 : 'A'.toNat = 65 := rfl
        omega
      · omega

/-- The first index of a byte: the bytes before it are other bytes. -/
theorem indexFrom_single (c : Char) (s : GoString) (k : Nat) :
    (c ∉ s ∧ strings.indexFrom [c] s k = -1) ∨
    (∃ n : Nat, strings.indexFrom [c] s k = ((k + n : Nat) : Int) ∧ c ∉ s.take n) := by
  induction s generalizing k with
  | nil => left; simp [strings.indexFrom]
  | cons a s ih =>
    by_cases h : a = c
    · right
      refine ⟨0, ?_, by simp⟩
      subst h
      simp [strings.indexFrom, List.isPrefixOf]
    · have hne : c ≠ a := fun h' => h h'.symm
      have hstep : strings.indexFrom [c] (a :: s) k = strings.indexFrom [c] s (k + 1) := by
        simp [strings.indexFrom, List.isPrefixOf, hne]
      rcases ih (k + 1) with ⟨h1, h2⟩ | ⟨n, h1, h2⟩
      · left
        exact ⟨by simp [hne, h1], by rw [hstep, h2]⟩
      · right
        refine ⟨n + 1, ?_, ?_⟩
        · rw [hstep, h1]; congr 1; omega
        · simp [List.take_succ_cons, hne, h2]

theorem split_fst_not_mem (s : GoString) (c : Char) (cutc : Bool) :
    c ∉ (url.split s [c] cutc).1 := by
  unfold url.split strings.Index
  rcases indexFrom_single c s 0 with ⟨h1, h2⟩ | ⟨n, h1, h2⟩
  · simp [h2, h1]
  · simp only [h1, Nat.zero_add]
    have : ¬ ((n : Nat) : Int) < 0 := by omega
    simp only [this, if_false]
    cases cutc <;> simpa [sliceTo] using h2

theorem not_mem_sliceTo (c : Char) (s : GoString) (i : Int) (h : c ∉ s) : c ∉ sliceTo s i :=
  fun hm => h (List.mem_of_mem_take hm)

theorem not_mem_sliceFrom (c : Char) (s : GoString) (i : Int) (h : c ∉ s) : c ∉ sliceFrom s i :=
  fun hm => h (List.mem_of_mem_drop hm)

/-- In a host or a zone an escape never decodes to a slash. -/
theorem unescapeDecode_no_slash (mode : url.encoding)
    (hmode : mode = url.encoding.encodeHost ∨ mode = url.encoding.encodeZone) :
    ∀ (k : Nat) (s : GoString) (n : Nat) (hp : Bool) (res : Nat × Bool), s.length ≤ k →
      url.unescapeCheck mode s n hp = .ok res → '/' ∉ s → '/' ∉ url.unescapeDecode mode s := by
  intro k
  induction k with
  | zero =>
    intro s n hp res hlen _ _
    have : s = [] := List.length_eq_zero.1 (Nat.le_zero.1 hlen)
    subst this
    simp [url.unescapeDecode]
  | succ k ih =>
    intro s n hp res hlen hcheck hs
    cases s with
    | nil => simp [url.unescapeDecode]
    | cons c rest =>
      have hc : c ≠ '/' := fun h => hs (h ▸ List.mem_cons_self _ _)
      have hrest : '/' ∉ rest := fun h => hs (List.mem_cons_of_mem _ h)
      by_cases hpc : c = '%'
      · subst hpc
        cases rest with
        | nil => simp [url.unescapeDecode]
        | cons a rest1 =>
          cases rest1 with
          | nil => simp [url.unescapeDecode]
          | cons b rest2 =>
            have hrest2 : '/' ∉ rest2 := fun h =>
              hrest (List.mem_cons_of_mem _ (List.mem_cons_of_mem _ h))
            simp only [url.unescapeCheck, if_true] at hcheck
            split at hcheck
            · cases hcheck
            · split at hcheck
              · cases hcheck
              · split at hcheck
                · cases hcheck
                · rename_i hhex hhost hzone
                  have hlen2 : rest2.length ≤ k := by
                    simp only [List.length_cons] at hlen; omega
                  have ihr := ih rest2 (n + 1) hp res hlen2 hcheck hrest2
                  simp only [url.unescapeDecode, if_true, List.mem_cons, not_or]
                  refine ⟨?_, ihr⟩
                  intro hv
                  have hb := unhex_lt b
                  have ha := unhex_lt a
                  have hnat : url.unhex a * 16 + url.unhex b = 47 := by
                    have := toNat_ofNat_byte (url.unhex a * 16 + url.unhex b) (by omega)
                    rw [← hv] at this
                    exact this.symm
                  rcases hmode with hm | hm
                  · subst hm
                    simp only [true_and, not_and, not_not] at hhost
                    by_cases h8 : url.unhex a < 8
                    · have h25 := hhost h8
                      simp only [List.cons.injEq, and_true, true_and] at h25
                      have : "%25".toList = ['%', '2', '5'] := rfl
                      rw [this] at h25
                      simp only [List.cons.injEq, and_true, true_and] at h25
                      obtain ⟨rfl, rfl⟩ := h25
                      revert hnat; decide
                    · omega
                  · subst hm
                    rw [← hv] at hzone
                    simp only [true_and, not_and, not_not] at hzone
                    by_cases h25 : ['%', a, b] = "%25".toList
                    · have : "%25".toList = ['%', '2', '5'] := rfl
                      rw [this] at h25
                      simp only [List.cons.injEq, and_true, true_and] at h25
                      obtain ⟨rfl, rfl⟩ := h25
                      revert hnat; decide
                    · have := hzone h25 (by decide)
                      revert this; decide
      · by_cases hplus : c = '+'
        · subst hplus
          unfold url.unescapeCheck at hcheck
          simp only [hpc, if_false, if_true] at hcheck
          have hlen2 : rest.length ≤ k := by simp only [List.length_cons] at hlen; omega
          have ihr := ih rest n _ res hlen2 hcheck hrest
          unfold url.unescapeDecode
          simp only [hpc, if_false, if_true, List.mem_cons, not_or]
          refine ⟨?_, ihr⟩
          split <;> decide
        · unfold url.unescapeCheck at hcheck
          simp only [hpc, hplus, if_false] at hcheck
          split at hcheck
          · cases hcheck
          · have hlen2 : rest.length ≤ k := by simp only [List.length_cons] at hlen; omega
            have ihr := ih rest n hp res hlen2 hcheck hrest
            unfold url.unescapeDecode
            simp only [hpc, hplus, if_false, List.mem_cons, not_or]
            exact ⟨fun h => hc h.symm, ihr⟩

theorem unescape_no_slash (mode : url.encoding)
    (hmode : mode = url.encoding.encodeHost ∨ mode = url.encoding.encodeZone)
    (s t : GoString) (h : url.unescape s mode = .ok t) (hs : '/' ∉ s) : '/' ∉ t := by
  unfold url.unescape at h
  cases hc : url.unescapeCheck mode s 0 false with
  | error e => simp [hc] at h
  | ok res =>
    simp only [hc] at h
    split at h
    · cases h; exact hs
    · cases h
      exact unescapeDecode_no_slash mode hmode s.length s 0 false res (le_refl _) hc hs

theorem parseHost_no_slash (h t : GoString) (hp : url.parseHost h = .ok t) (hs : '/' ∉ h) :
    '/' ∉ t := by
  have plain : ∀ t, url.unescape h url.encoding.encodeHost = .ok t → '/' ∉ t :=
    fun t ht => unescape_no_slash _ (Or.inl rfl) h t ht hs
  unfold url.parseHost at hp
  lift_lets at hp
  extract_lets pl i colonPort zone at hp
  split at hp
  · split at hp
    · cases hp
    · split at hp
      · cases hp
      · split at hp
        · cases h1 : url.unescape (sliceTo h zone) url.encoding.encodeHost with
          | error e => simp [h1] at hp
          | ok host1 =>
            cases h2 : url.unescape (sliceTo (sliceFrom h zone) (i - zone)) url.encoding.encodeZone with
            | error e => simp [h1, h2] at hp
            | ok host2 =>
              cases h3 : url.unescape (sliceFrom h i) url.encoding.encodeHost with
              | error e => simp [h1, h2, h3] at hp
              | ok host3 =>
                simp only [h1, h2, h3, Except.ok.injEq] at hp
                subst hp
                have n1 := unescape_no_slash _ (Or.inl rfl) _ _ h1 (not_mem_sliceTo _ _ _ hs)
                have n2 := unescape_no_slash _ (Or.inr rfl) _ _ h2
                  (not_mem_sliceTo _ _ _ (not_mem_sliceFrom _ _ _ hs))
                have n3 := unescape_no_slash _ (Or.inl rfl) _ _ h3 (not_mem_sliceFrom _ _ _ hs)
                simp [n1, n2, n3]
        · exact plain t hp
  · exact plain t hp

theorem parseAuthority_no_slash (a : GoString) (user : Option url.Userinfo) (host : GoString)
    (hp : url.parseAuthority a = .ok (user, host)) (hs : '/' ∉ a) : '/' ∉ host := by
  unfold url.parseAuthority at hp
  simp only at hp
  split at hp
  · cases hp
  · rename_i host0 hh
    have hhost0 : '/' ∉ host0 := by
      split at hh
      · exact parseHost_no_slash _ _ hh hs
      · exact parseHost_no_slash _ _ hh (not_mem_sliceFrom _ _ _ hs)
    split at hp
    · cases hp; exact hhost0
    · split at hp
      · cases hp
      · split at hp
        · split at hp
          · cases hp
          · cases hp; exact hhost0
        · split at hp
          · cases hp
          · split at hp
            · cases hp
            · cases hp; exact hhost0

theorem setPath_Host (u v : url.URL) (p : GoString) (h : u.setPath p = .ok v) :
    v.Host = u.Host ∧ v.Scheme = u.Scheme ∧ v.User = u.User ∧ v.Opaque = u.Opaque ∧
      v.RawQuery = u.RawQuery ∧ v.ForceQuery = u.ForceQuery ∧ v.Fragment = u.Fragment := by
  unfold url.URL.setPath at h
  split at h
  · cases h
  · split at h <;> (cases h; simp)

theorem withPath_Host (u : url.URL) (p : GoString) :
    (u.withPath p).Host = u.Host ∧ (u.withPath p).Scheme = u.Scheme ∧
      (u.withPath p).User = u.User ∧ (u.withPath p).Opaque = u.Opaque ∧
      (u.withPath p).RawQuery = u.RawQuery ∧ (u.withPath p).ForceQuery = u.ForceQuery ∧
      (u.withPath p).Fragment = u.Fragment := by
  unfold url.URL.withPath
  cases h : u.setPath p with
  | error e => simp
  | ok v => exact setPath_Host u v p h

theorem parse_Host_no_slash (rawurl : GoString) (viaRequest : Bool) (u : url.URL)
    (h : url.parse rawurl viaRequest = .ok u) : '/' ∉ u.Host := by
  unfold url.parse at h
  split at h
  · cases h
  · split at h
    · cases h; simp
    · split at h
      · cases h
      · lift_lets at h
        extract_lets scheme forceQuery rq rest u0 ar at h
        split at h
        · cases h; simp [u0]
        · split at h
          · cases h
          · split at h
            · cases h
            · split at h
              · cases hauth : url.parseAuthority ar.1 with
                | error e => simp [hauth] at h
                | ok uh =>
                  obtain ⟨user, host⟩ := uh
                  simp only [hauth] at h
                  have hh := parseAuthority_no_slash _ user host hauth
                    (split_fst_not_mem _ '/' false)
                  rw [(setPath_Host _ u _ h).1]
                  exact hh
              · rw [(setPath_Host _ u _ h).1]; simp [u0]

theorem Parse_Host_no_slash (s : GoString) (u : url.URL) (h : url.Parse s = .ok u) :
    '/' ∉ u.Host := by
  unfold url.Parse at h
  simp only at h
  split at h
  · cases h
  · rename_i u0 hu0
    have h0 := parse_Host_no_slash _ _ u0 hu0
    split at h
    · cases h; exact h0
    · split at h
      · cases h
      · cases h; exact h0

/-- The host of an absolute specifier, resolved: the host as parsed. -/
theorem ResolveReference_Host_of_scheme (b u : url.URL) (hu : u.Scheme ≠ []) :
    (b.ResolveReference u).Host = u.Host := by
  simp only [url.URL.ResolveReference, hu, if_false, ne_eq, not_false_eq_true, true_or, if_true]
  exact (withPath_Host u _).1

theorem resolved_Host_no_slash (s c : GoString) (r : url.URL) (hs : isAbsolute s = true)
    (hr : resolvedURL s c = some r) : '/' ∉ r.Host := by
  obtain ⟨u, b, hu, hb, rfl⟩ := resolvedURL_eq_some s c r hr
  obtain ⟨u', hu', hsch⟩ := (isAbsolute_iff s).1 hs
  rw [hu] at hu'
  cases hu'
  rw [ResolveReference_Host_of_scheme b u hsch]
  exact Parse_Host_no_slash s u hu

/-! ## C10 -/

/-- C10 as stated fails: with the host `..`, and with a path whose `..` elements
are percent-encoded, an absolute specifier resolves to a filename outside the
source root directory. -/
theorem C10_filename_escapes_SrcDir :
    isAbsolute "http://../etc/passwd".toList = true ∧
    ResolveModule Example.srcDir "http://../etc/passwd".toList "/app/main.ts".toList
      = { moduleName := "http://../etc/passwd".toList,
          filename := "/home/u/.deno/etc/passwd".toList } ∧
    Example.srcDir.isPrefixOf "/home/u/.deno/etc/passwd".toList = false ∧
    isAbsolute "http://a/%2e%2e/%2e%2e/x.ts".toList = true ∧
    ResolveModule Example.srcDir "http://a/%2e%2e/%2e%2e/x.ts".toList "/app/main.ts".toList
      = { moduleName := "http://a/%2e%2e/%2e%2e/x.ts".toList,
          filename := "/home/u/.deno/x.ts".toList } ∧
    Example.srcDir.isPrefixOf "/home/u/.deno/x.ts".toList = false := by
  refine ⟨by decide, by decide, by decide, by decide, by decide, by decide⟩

/-- C10 (amended). For every absolute specifier and every containing file for
which `ResolveModule` succeeds, the returned filename lies inside the source root
directory SrcDir, a clean rooted path (SrcDir is a prefix of filename, and what
follows it starts a new path element), provided that neither the resolved host
nor the resolved path has an element `..`. -/
theorem C10_filename_under_SrcDir (S s c : GoString) (r : url.URL)
    (hS : S.head? = some '/') (hclean : path.Clean S = S)
    (hs : isAbsolute s = true) (hr : resolvedURL s c = some r)
    (hH : hasDotDot r.Host = false) (hP : hasDotDot r.Path = false) :
    (ResolveModule S s c).err = none ∧
    S <+: (ResolveModule S s c).filename ∧
    ∃ T, (ResolveModule S s c).filename = S ++ T ∧ (T = [] ∨ T.head? = some '/' ∨ S = ['/']) := by
  rw [ResolveModule_absolute S s c r hs hr]
  obtain ⟨T, hT, hT'⟩ := Join_under_SrcDir S r.Host r.Path hS hclean hH hP
  exact ⟨rfl, ⟨T, hT.symm⟩, T, hT, hT'⟩

theorem C10_filename_under_SrcDir_witness :
    Example.srcDir.head? = some '/' ∧ path.Clean Example.srcDir = Example.srcDir ∧
    isAbsolute "http://example.com/lib/mod.ts".toList = true ∧
    (ResolveModule Example.srcDir "http://example.com/lib/mod.ts".toList
        "/app/main.ts".toList).filename = "/home/u/.deno/src/example.com/lib/mod.ts".toList ∧
    Example.srcDir <+: (ResolveModule Example.srcDir "http://example.com/lib/mod.ts".toList
        "/app/main.ts".toList).filename :=
  ⟨by decide, by decide, by decide, by decide,
    (C10_filename_under_SrcDir Example.srcDir "http://example.com/lib/mod.ts".toList
      "/app/main.ts".toList
      { Scheme := "http".toList, Host := "example.com".toList, Path := "/lib/mod.ts".toList }
      (by decide) (by decide) (by decide) (by decide) (by decide) (by decide)).2.1⟩

/-! ## C4 -/

/-- C4 as stated fails: `http://a/%2e%2e/b/x.ts` and `http://b/x.ts` resolve to the
hosts `a` and `b` and to the same filename. -/
theorem C4_two_hosts_one_filename :
    isAbsolute "http://a/%2e%2e/b/x.ts".toList = true ∧
    isAbsolute "http://b/x.ts".toList = true ∧
    (resolvedURL "http://a/%2e%2e/b/x.ts".toList "/app/main.ts".toList).map (fun r => r.Host)
      = some "a".toList ∧
    (resolvedURL "http://b/x.ts".toList "/app/main.ts".toList).map (fun r => r.Host)
      = some "b".toList ∧
    (ResolveModule Example.srcDir "http://a/%2e%2e/b/x.ts".toList "/app/main.ts".toList).filename
      = "/home/u/.deno/src/b/x.ts".toList ∧
    (ResolveModule Example.srcDir "http://b/x.ts".toList "/app/main.ts".toList).filename
      = "/home/u/.deno/src/b/x.ts".toList := by
  refine ⟨by decide, by decide, by decide, by decide, by decide, by decide⟩

/-- C4 (amended). For every absolute specifier for which the resolution succeeds,
`ResolveModule` returns filename = `path.Join(SrcDir, resolved host, resolved path)`.
For any two absolute specifiers whose resolved hosts differ, the two filenames
differ when SrcDir is a clean rooted path, both hosts are real path elements
(not empty, not `.`, not `..`) and neither resolved path has an element `..`;
without these conditions two hosts can meet in one filename. -/
theorem C4_filename_is_joined (S s1 c1 s2 c2 : GoString) (r1 r2 : url.URL)
    (hs1 : isAbsolute s1 = true) (hr1 : resolvedURL s1 c1 = some r1)
    (hs2 : isAbsolute s2 = true) (hr2 : resolvedURL s2 c2 = some r2) :
    (ResolveModule S s1 c1).filename = path.Join [S, r1.Host, r1.Path] ∧
    (ResolveModule S s2 c2).filename = path.Join [S, r2.Host, r2.Path] ∧
    (S.head? = some '/' → path.Clean S = S →
      r1.Host ≠ [] → r1.Host ≠ ".".toList → r1.Host ≠ "..".toList → hasDotDot r1.Path = false →
      r2.Host ≠ [] → r2.Host ≠ ".".toList → r2.Host ≠ "..".toList → hasDotDot r2.Path = false →
      r1.Host ≠ r2.Host →
      (ResolveModule S s1 c1).filename ≠ (ResolveModule S s2 c2).filename) := by
  rw [ResolveModule_absolute S s1 c1 r1 hs1 hr1, ResolveModule_absolute S s2 c2 r2 hs2 hr2]
  refine ⟨rfl, rfl, ?_⟩
  intro hS hclean hne1 hd1 hdd1 hP1 hne2 hd2 hdd2 hP2 hdiff heq
  exact hdiff (Join_host_injective S r1.Host r1.Path r2.Host r2.Path hS hclean
    hne1 (resolved_Host_no_slash s1 c1 r1 hs1 hr1) hd1 hdd1 hP1
    hne2 (resolved_Host_no_slash s2 c2 r2 hs2 hr2) hd2 hdd2 hP2 heq)

theorem C4_filename_is_joined_witness :
    isAbsolute "http://a/x.ts".toList = true ∧
    isAbsolute "http://b/x.ts".toList = true ∧
    (ResolveModule Example.srcDir "http://a/x.ts".toList "/app/main.ts".toList).filename
      = path.Join [Example.srcDir, "a".toList, "/x.ts".toList] ∧
    (ResolveModule Example.srcDir "http://a/x.ts".toList "/app/main.ts".toList).filename ≠
      (ResolveModule Example.srcDir "http://b/x.ts".toList "/app/main.ts".toList).filename :=
  have h := C4_filename_is_joined Example.srcDir "http://a/x.ts".toList "/app/main.ts".toList
    "http://b/x.ts".toList "/app/main.ts".toList
    { Scheme := "http".toList, Host := "a".toList, Path := "/x.ts".toList }
    { Scheme := "http".toList, Host := "b".toList, Path := "/x.ts".toList }
    (by decide) (by decide) (by decide) (by decide)
  ⟨by decide, by decide, h.1,
    h.2.2 (by decide) (by decide) (by decide) (by decide) (by decide) (by decide)
      (by decide) (by decide) (by decide) (by decide) (by decide)⟩

/-! ## Plain paths through `net/url` -/

theorem plain_not_mem (p : GoString) (hp : p.all plainByte = true) (x : Char)
    (hx : plainByte x = false) : x ∉ p := by
  intro hm
  have := List.all_eq_true.1 hp x hm
  rw [hx] at this
  exact Bool.false_ne_true this

theorem indexFrom_not_mem (c : Char) (s : GoString) (k : Nat) (h : c ∉ s) :
    strings.indexFrom [c] s k = -1 := by
  induction s generalizing k with
  | nil => simp [strings.indexFrom]
  | cons a s ih =>
    have hne : c ≠ a := fun h' => h (h' ▸ List.mem_cons_self _ _)
    have hs : c ∉ s := fun h' => h (List.mem_cons_of_mem _ h')
    have hstep : strings.indexFrom [c] (a :: s) k = strings.indexFrom [c] s (k + 1) := by
      simp [strings.indexFrom, List.isPrefixOf, hne]
    rw [hstep]
    exact ih (k + 1) hs

theorem Index_not_mem (c : Char) (s : GoString) (h : c ∉ s) : strings.Index s [c] = -1 :=
  indexFrom_not_mem c s 0 h

theorem split_not_mem (c : Char) (s : GoString) (cutc : Bool) (h : c ∉ s) :
    url.split s [c] cutc = (s, []) := by
  simp [url.split, Index_not_mem c s h]

theorem getschemeLoop_no_colon (rawurl rest : GoString) (i : Nat) (h : ':' ∉ rest) :
    url.getschemeLoop rawurl rest i = .ok ([], rawurl) := by
  induction rest generalizing i with
  | nil => simp [url.getschemeLoop]
  | cons c rest ih =>
    have hc : c ≠ ':' := fun h' => h (h' ▸ List.mem_cons_self _ _)
    have hr : ':' ∉ rest := fun h' => h (List.mem_cons_of_mem _ h')
    unfold url.getschemeLoop
    split
    · exact ih _ hr
    · split
      · split
        · rfl
        · exact ih _ hr
      · simp [hc]

theorem HasSuffix_not_mem (c : Char) (s : GoString) (h : c ∉ s) :
    strings.HasSuffix s [c] = false := by
  unfold strings.HasSuffix
  cases hs : s.reverse with
  | nil => simp [List.isPrefixOf]
  | cons d t =>
    have hd : d ∈ s := by
      have : d ∈ s.reverse := by rw [hs]; exact List.mem_cons_self _ _
      exact List.mem_reverse.1 this
    have hne : c ≠ d := fun h' => h (h' ▸ hd)
    simp [List.isPrefixOf, hne]

theorem unescapeCheck_no_percent (s : GoString) (n : Nat) (h : '%' ∉ s) :
    url.unescapeCheck url.encoding.encodePath s n false = .ok (n, false) := by
  induction s with
  | nil => simp [url.unescapeCheck]
  | cons c rest ih =>
    have hc : c ≠ '%' := fun h' => h (h' ▸ List.mem_cons_self _ _)
    have hr : '%' ∉ rest := fun h' => h (List.mem_cons_of_mem _ h')
    unfold url.unescapeCheck
    simp only [hc, if_false]
    split
    · simpa using ih hr
    · simpa using ih hr

theorem unescape_no_percent (s : GoString) (h : '%' ∉ s) :
    url.unescape s url.encoding.encodePath = .ok s := by
  simp [url.unescape, unescapeCheck_no_percent s 0 h]

theorem escape_of_all (s : GoString) (mode : url.encoding)
    (h : ∀ c ∈ s, url.shouldEscape c mode = false) : url.escape s mode = s := by
  unfold url.escape
  have h1 : List.countP (fun c => url.shouldEscape c mode &&
      decide (c = ' ' ∧ mode = url.encoding.encodeQueryComponent)) s = 0 := by
    rw [List.countP_eq_zero]
    intro c hc
    simp [h c hc]
  have h2 : List.countP (fun c => url.shouldEscape c mode &&
      !decide (c = ' ' ∧ mode = url.encoding.encodeQueryComponent)) s = 0 := by
    rw [List.countP_eq_zero]
    intro c hc
    simp [h c hc]
  simp only [h1, h2, and_self, if_true]

theorem plain_shouldEscape (p : GoString) (hp : p.all plainByte = true) :
    ∀ c ∈ p, url.shouldEscape c url.encoding.encodePath = false := by
  intro c hc
  have := List.all_eq_true.1 hp c hc
  unfold plainByte at this
  simp only [Bool.and_eq_true, Bool.not_eq_true'] at this
  exact this.1

theorem setPath_plain (u : url.URL) (p : GoString) (hp : p.all plainByte = true) :
    u.setPath p = .ok { u with Path := p, RawPath := [] } := by
  have h1 := unescape_no_percent p (plain_not_mem p hp '%' (by decide))
  have h2 := escape_of_all p _ (plain_shouldEscape p hp)
  simp [url.URL.setPath, h1, h2]

theorem withPath_plain (u : url.URL) (p : GoString) (hp : p.all plainByte = true) :
    u.withPath p = { u with Path := p, RawPath := [] } := by
  simp [url.URL.withPath, setPath_plain u p hp]

theorem parse_plain (s : GoString) (hs : plainPath s = true) :
    url.parse s false = .ok { Path := s } := by
  unfold plainPath at hs
  simp only [Bool.and_eq_true, Bool.not_eq_true'] at hs
  obtain ⟨hp, hpre⟩ := hs
  have hstar : s ≠ "*".toList := by
    intro h
    have := plain_not_mem s hp '*' (by decide)
    rw [h] at this
    exact this (by decide)
  have hcolon := plain_not_mem s hp ':' (by decide)
  have hq := plain_not_mem s hp '?' (by decide)
  have hsch : url.getscheme s = .ok ([], s) := getschemeLoop_no_colon s s 0 hcolon
  have hsuf : strings.HasSuffix s "?".toList = false := HasSuffix_not_mem '?' s hq
  have hsplit : url.split s "?".toList true = (s, []) := split_not_mem '?' s true hq
  have hidx : strings.Index s ":".toList = -1 := Index_not_mem ':' s hcolon
  unfold url.parse
  simp only [Bool.false_eq_true, and_false, if_false, hstar, hsch, strings.ToLower, List.map_nil,
    hsuf, Bool.false_and, hsplit, ne_eq, not_true_eq_false, hidx, hpre, false_or, and_self,
    Int.reduceNeg, Left.nonneg_neg_iff, Int.reduceLE, false_and]
  exact setPath_plain _ s hp

theorem Parse_plain (s : GoString) (hs : plainPath s = true) :
    url.Parse s = .ok { Path := s } := by
  have hp : s.all plainByte = true := by
    unfold plainPath at hs
    simp only [Bool.and_eq_true] at hs
    exact hs.1
  have hsplit : url.split s ['#'] true = (s, []) :=
    split_not_mem '#' s true (plain_not_mem s hp '#' (by decide))
  simp [url.Parse, hsplit, parse_plain s hs]

theorem EscapedPath_plain (p : GoString) (hp : p.all plainByte = true) :
    ({ Path := p } : url.URL).EscapedPath = p := by
  have hstar : p ≠ ['*'] := by
    intro h
    have := plain_not_mem p hp '*' (by decide)
    rw [h] at this
    exact this (by decide)
  simp [url.URL.EscapedPath, hstar, escape_of_all p _ (plain_shouldEscape p hp)]

theorem mem_of_mem_splitOnP {α : Type} (p : α → Bool) (s : List α) :
    ∀ e ∈ s.splitOnP p, ∀ x ∈ e, x ∈ s := by
  induction s with
  | nil => intro e he x hx; simp at he; subst he; simp at hx
  | cons a t ih =>
    intro e he x hx
    rw [List.splitOnP_cons] at he
    by_cases hp : p a = true
    · simp only [hp, if_true, List.mem_cons] at he
      rcases he with he | he
      · subst he; simp at hx
      · exact List.mem_cons_of_mem _ (ih e he x hx)
    · simp only [hp, if_false] at he
      obtain ⟨h, r, hsp⟩ : ∃ h r, List.splitOnP p t = h :: r := by
        cases hh : List.splitOnP p t with
        | nil => exact absurd hh (List.splitOnP_ne_nil p t)
        | cons h r => exact ⟨h, r, rfl⟩
      rw [hsp] at ih
      rw [hsp] at he
      have he' : e = a :: h ∨ e ∈ r := List.mem_cons.1 he
      rcases he' with he' | he'
      · subst he'
        rcases List.mem_cons.1 hx with hx | hx
        · subst hx; exact List.mem_cons_self _ _
        · exact List.mem_cons_of_mem _ (ih h (List.mem_cons_self _ _) x hx)
      · exact List.mem_cons_of_mem _ (ih e (List.mem_cons_of_mem _ he') x hx)

theorem mem_intersperse {α : Type} (sep : α) (L : List α) :
    ∀ l ∈ L.intersperse sep, l = sep ∨ l ∈ L := by
  induction L with
  | nil => intro l hl; simp at hl
  | cons a t ih =>
    cases t with
    | nil => intro l hl; simp at hl; exact Or.inr (by simp [hl])
    | cons b t =>
      intro l hl
      rw [List.intersperse_cons₂] at hl
      rcases List.mem_cons.1 hl with h | h
      · exact Or.inr (h ▸ List.mem_cons_self _ _)
      · rcases List.mem_cons.1 h with h | h
        · exact Or.inl h
        · rcases ih l h with h | h
          · exact Or.inl h
          · exact Or.inr (List.mem_cons_of_mem _ h)

theorem foldl_resolveStep_mem (src : List GoString) (acc : List GoString) :
    ∀ e ∈ src.foldl url.resolveStep acc, e ∈ acc ∨ e ∈ src := by
  induction src generalizing acc with
  | nil => intro e he; exact Or.inl he
  | cons a t ih =>
    intro e he
    simp only [List.foldl_cons] at he
    rcases ih _ e he with h | h
    · unfold url.resolveStep at h
      split at h
      · exact Or.inl h
      · split at h
        · split at h
          · exact Or.inl (List.mem_of_mem_dropLast h)
          · exact Or.inl h
        · rcases List.mem_append.1 h with h | h
          · exact Or.inl h
          · simp only [List.mem_singleton] at h
            exact Or.inr (h ▸ List.mem_cons_self _ _)
    · exact Or.inr (List.mem_cons_of_mem _ h)

/-- The bytes of a resolved path are bytes of the two paths, or slashes. -/
theorem resolvePath_all (P : Char → Prop) (hP : P '/') (base ref : GoString)
    (hb : ∀ x ∈ base, P x) (hr : ∀ x ∈ ref, P x) : ∀ x ∈ url.resolvePath base ref, P x := by
  intro x hx
  unfold url.resolvePath at hx
  lift_lets at hx
  extract_lets full src dst last dst2 at hx
  have hfull : ∀ x ∈ full, P x := by
    intro x hx
    simp only [full] at hx
    split at hx
    · exact hb x hx
    · split at hx
      · rcases List.mem_append.1 hx with h | h
        · exact hb x (List.mem_of_mem_take h)
        · exact hr x h
      · exact hr x hx
  have hsrc : ∀ e ∈ src, ∀ x ∈ e, P x := fun e he x hx =>
    hfull x (mem_of_mem_splitOnP _ full e he x hx)
  have hdst : ∀ e ∈ dst, ∀ x ∈ e, P x := by
    intro e he x hx
    rcases foldl_resolveStep_mem src [] e he with h | h
    · simp at h
    · exact hsrc e h x hx
  have hdst2 : ∀ e ∈ dst2, ∀ x ∈ e, P x := by
    intro e he x hx
    simp only [dst2] at he
    split at he
    · rcases List.mem_append.1 he with h | h
      · exact hdst e h x hx
      · simp only [List.mem_singleton] at h; subst h; simp at hx
    · exact hdst e he x hx
  have hjoin : ∀ x ∈ strings.Join dst2 "/".toList, P x := by
    intro x hx
    unfold strings.Join List.intercalate at hx
    obtain ⟨l, hl, hxl⟩ := List.mem_flatten.1 hx
    rcases mem_intersperse _ _ l hl with h | h
    · subst h
      simp only [String.toList, List.mem_singleton] at hxl
      exact hxl ▸ hP
    · exact hdst2 l h x hxl
  split at hx
  · simp at hx
  · rcases List.mem_cons.1 hx with h | h
    · exact h ▸ hP
    · unfold strings.TrimPrefix at h
      split at h
      · exact hjoin x (List.mem_of_mem_drop h)
      · exact hjoin x h

theorem resolvePath_plain (base ref : GoString) (hb : base.all plainByte = true)
    (hr : ref.all plainByte = true) : (url.resolvePath base ref).all plainByte = true := by
  rw [List.all_eq_true]
  exact resolvePath_all (fun c => plainByte c = true) (by decide) base ref
    (List.all_eq_true.1 hb) (List.all_eq_true.1 hr)

theorem ResolveReference_plain (c s : GoString) (hc : c.all plainByte = true)
    (hs : s.all plainByte = true) :
    ({ Path := c } : url.URL).ResolveReference { Path := s } =
      { Path := url.resolvePath c s } := by
  have hrp := resolvePath_plain c s hc hs
  unfold url.URL.ResolveReference
  simp only [EscapedPath_plain c hc, EscapedPath_plain s hs, ne_eq, not_true_eq_false,
    or_self, if_false, if_true, and_true, ite_self]
  rw [withPath_plain _ _ hrp]

theorem String_plain (p : GoString) (hp : p.all plainByte = true) :
    ({ Path := p } : url.URL).String = p := by
  have hidx : strings.Index p [':'] = -1 := Index_not_mem ':' p (plain_not_mem p hp ':' (by decide))
  simp [url.URL.String, EscapedPath_plain p hp, hidx]

/-- Two plain local paths resolve to one plain local path, which is both the
moduleName and the filename. -/
theorem ResolveModule_plain (S s c : GoString) (hs : plainPath s = true)
    (hc : plainPath c = true) :
    ResolveModule S s c =
      { moduleName := url.resolvePath c s, filename := url.resolvePath c s } := by
  have hs' : s.all plainByte = true := by
    unfold plainPath at hs; simp only [Bool.and_eq_true] at hs; exact hs.1
  have hc' : c.all plainByte = true := by
    unfold plainPath at hc; simp only [Bool.and_eq_true] at hc; exact hc.1
  simp [ResolveModule, Parse_plain s hs, Parse_plain c hc, ResolveReference_plain c s hc' hs',
    String_plain _ (resolvePath_plain c s hc' hs'), url.URL.IsAbs]

theorem isAbsolute_plain (s : GoString) (hs : plainPath s = true) : isAbsolute s = false := by
  simp [isAbsolute, Parse_plain s hs, url.URL.IsAbs]

/-! ## C1 -/

/-- C1 as stated fails: `./b.ts` is not absolute, and against the containing file
`file:///proj/a.ts` it resolves without error to the moduleName `file:///proj/b.ts`
and the filename `/proj/b.ts`. -/
theorem C1_moduleName_differs_from_filename :
    isAbsolute "./b.ts".toList = false ∧
    ResolveModule Example.srcDir "./b.ts".toList "file:///proj/a.ts".toList
      = { moduleName := "file:///proj/b.ts".toList, filename := "/proj/b.ts".toList,
          err := none } ∧
    (ResolveModule Example.srcDir "./b.ts".toList "file:///proj/a.ts".toList).moduleName ≠
      (ResolveModule Example.srcDir "./b.ts".toList "file:///proj/a.ts".toList).filename := by
  refine ⟨by decide, by decide, by decide⟩

/-- C1 (amended). For every specifier and every containing file that are plain
local paths (only bytes that a URL path carries unescaped, the colon left out:
letters, digits and `- _ . ~ $ & + , / ; = @`, and no `//` at the head), the
specifier is not absolute, `ResolveModule` succeeds, and the returned moduleName
is equal to the returned filename: both are the containing file's path with the
specifier resolved against it. -/
theorem C1_plain_moduleName_eq_filename (S s c : GoString) (hs : plainPath s = true)
    (hc : plainPath c = true) :
    isAbsolute s = false ∧ (ResolveModule S s c).err = none ∧
    (ResolveModule S s c).moduleName = (ResolveModule S s c).filename ∧
    (ResolveModule S s c).filename = url.resolvePath c s := by
  rw [ResolveModule_plain S s c hs hc]
  exact ⟨isAbsolute_plain s hs, rfl, rfl, rfl⟩

theorem C1_plain_moduleName_eq_filename_witness :
    plainPath "./util.ts".toList = true ∧ plainPath "/app/main.ts".toList = true ∧
    (ResolveModule Example.srcDir "./util.ts".toList "/app/main.ts".toList).moduleName =
      (ResolveModule Example.srcDir "./util.ts".toList "/app/main.ts".toList).filename ∧
    (ResolveModule Example.srcDir "./util.ts".toList "/app/main.ts".toList).filename
      = "/app/util.ts".toList :=
  ⟨by decide, by decide,
    (C1_plain_moduleName_eq_filename Example.srcDir "./util.ts".toList "/app/main.ts".toList
      (by decide) (by decide)).2.2.1, by decide⟩

/-! ## More on plain paths -/

theorem all_plain_of_plainPath (p : GoString) (h : plainPath p = true) :
    p.all plainByte = true := by
  unfold plainPath at h
  simp only [Bool.and_eq_true] at h
  exact h.1

theorem resolvePath_ne_nil (base ref : GoString) (h : base ≠ [] ∨ ref ≠ []) :
    ∃ t, url.resolvePath base ref = '/' :: t := by
  unfold url.resolvePath
  lift_lets
  extract_lets full src dst last dst2
  have hfull : full ≠ [] := by
    simp only [full]
    split
    · rename_i hr
      rcases h with h | h
      · exact h
      · exact absurd hr h
    · rename_i hr
      split
      · simp [hr]
      · exact hr
  simp only [hfull, if_false]
  exact ⟨_, rfl⟩

/-! ## The loop of `resolvePath` -/

theorem resolveStep_dotdot (dst : List GoString) :
    url.resolveStep dst ['.', '.'] = dst.dropLast := by
  unfold url.resolveStep
  cases dst with
  | nil => simp
  | cons a t => simp

theorem resolveStep_dot (dst : List GoString) : url.resolveStep dst ['.'] = dst := by
  simp [url.resolveStep]

theorem resolveStep_other (dst : List GoString) (e : GoString) (h1 : e ≠ ['.'])
    (h2 : e ≠ ['.', '.']) : url.resolveStep dst e = dst ++ [e] := by
  simp [url.resolveStep, h1, h2]

/-- The loop of `resolvePath` and the slash it adds for a dot segment at the end. -/
theorem foldl_resolveStep_eq_dotFold (es : List GoString) (hne : es ≠ []) (dst : List GoString) :
    (if es.getLastD [] = ['.'] ∨ es.getLastD [] = ['.', '.']
      then es.foldl url.resolveStep dst ++ [[]] else es.foldl url.resolveStep dst)
      = dotFold es dst := by
  induction es generalizing dst with
  | nil => exact absurd rfl hne
  | cons e es ih =>
    cases es with
    | nil =>
      simp only [List.getLastD_cons, List.getLastD_nil, List.foldl_cons, List.foldl_nil, dotFold,
        if_true]
      by_cases h1 : e = ['.']
      · simp [h1, resolveStep_dot]
      · by_cases h2 : e = ['.', '.']
        · simp [h2, resolveStep_dotdot]
        · simp [h1, h2, resolveStep_other dst e h1 h2]
    | cons e2 es2 =>
      have := ih (by simp) (url.resolveStep dst e)
      simp only [List.getLastD_cons, List.foldl_cons] at this ⊢
      rw [this]
      simp [dotFold]

/-- A root element at the bottom stays there, or is dropped by a `..`. -/
theorem dotFold_root (es : List GoString) (hne : es ≠ []) (st : List GoString) :
    dotFold es ([] :: st) = [] :: dotFold es st ∨ dotFold es ([] :: st) = dotFold es st := by
  induction es generalizing st with
  | nil => exact absurd rfl hne
  | cons e es ih =>
    cases es with
    | nil =>
      simp only [dotFold, if_true]
      by_cases h1 : e = ['.']
      · left; simp [h1]
      · by_cases h2 : e = ['.', '.']
        · simp only [h2, if_true, h1, if_false]
          cases st with
          | nil => right; simp
          | cons a t => left; simp
        · left; simp [h1, h2]
    | cons e2 es2 =>
      have hd : ∀ st0, dotFold (e :: e2 :: es2) st0 = dotFold (e2 :: es2) (url.resolveStep st0 e) := by
        intro st0; simp [dotFold]
      rw [hd, hd]
      by_cases h1 : e = ['.']
      · rw [h1, resolveStep_dot, resolveStep_dot]
        exact ih (by simp) st
      · by_cases h2 : e = ['.', '.']
        · rw [h2, resolveStep_dotdot, resolveStep_dotdot]
          cases st with
          | nil => right; simp
          | cons a t =>
            have : ([] :: a :: t : List GoString).dropLast = [] :: (a :: t).dropLast := by simp
            rw [this]
            exact ih (by simp) _
        · rw [resolveStep_other _ e h1 h2, resolveStep_other _ e h1 h2]
          exact ih (by simp) (st ++ [e])

/-- Without an empty element before the last one, only the last element kept can
be empty. -/
theorem dotFold_good (es : List GoString) (hne : es ≠ [])
    (hes : ∀ e ∈ es.dropLast, e ≠ []) (st : List GoString) (hst : ∀ e ∈ st, e ≠ []) :
    ∃ R0 x, dotFold es st = R0 ++ [x] ∧ ∀ e ∈ R0, e ≠ [] := by
  induction es generalizing st with
  | nil => exact absurd rfl hne
  | cons e es ih =>
    cases es with
    | nil =>
      simp only [dotFold, if_true]
      by_cases h1 : e = ['.']
      · exact ⟨st, [], by simp [h1], hst⟩
      · by_cases h2 : e = ['.', '.']
        · exact ⟨st.dropLast, [], by simp [h1, h2],
            fun e he => hst e (List.mem_of_mem_dropLast he)⟩
        · exact ⟨st, e, by simp [h1, h2], hst⟩
    | cons e2 es2 =>
      have hd : dotFold (e :: e2 :: es2) st = dotFold (e2 :: es2) (url.resolveStep st e) := by
        simp [dotFold]
      rw [hd]
      have he : e ≠ [] := hes e (by simp)
      have hes2 : ∀ x ∈ (e2 :: es2).dropLast, x ≠ [] := by
        intro x hx
        exact hes x (by simp only [List.dropLast_cons₂]; exact List.mem_cons_of_mem _ hx)
      apply ih (by simp) hes2
      by_cases h1 : e = ['.']
      · rw [h1, resolveStep_dot]; exact hst
      · by_cases h2 : e = ['.', '.']
        · rw [h2, resolveStep_dotdot]
          exact fun x hx => hst x (List.mem_of_mem_dropLast hx)
        · rw [resolveStep_other _ e h1 h2]
          intro x hx
          rcases List.mem_append.1 hx with hx | hx
          · exact hst x hx
          · simp only [List.mem_singleton] at hx
            exact hx ▸ he

theorem dotFold_mem (es : List GoString) (st : List GoString) :
    ∀ x ∈ dotFold es st, x = [] ∨ x ∈ st ∨ x ∈ es := by
  induction es generalizing st with
  | nil => intro x hx; exact Or.inr (Or.inl hx)
  | cons e es ih =>
    intro x hx
    cases es with
    | nil =>
      simp only [dotFold, if_true] at hx
      split at hx
      · rcases List.mem_append.1 hx with h | h
        · exact Or.inr (Or.inl h)
        · left; simpa using h
      · split at hx
        · rcases List.mem_append.1 hx with h | h
          · exact Or.inr (Or.inl (List.mem_of_mem_dropLast h))
          · left; simpa using h
        · rcases List.mem_append.1 hx with h | h
          · exact Or.inr (Or.inl h)
          · right; right; simpa using h
    | cons e2 es2 =>
      have hd : dotFold (e :: e2 :: es2) st = dotFold (e2 :: es2) (url.resolveStep st e) := by
        simp [dotFold]
      rw [hd] at hx
      rcases ih _ x hx with h | h | h
      · exact Or.inl h
      · unfold url.resolveStep at h
        split at h
        · exact Or.inr (Or.inl h)
        · split at h
          · split at h
            · exact Or.inr (Or.inl (List.mem_of_mem_dropLast h))
            · exact Or.inr (Or.inl h)
          · rcases List.mem_append.1 h with h | h
            · exact Or.inr (Or.inl h)
            · right; right
              simp only [List.mem_singleton] at h
              exact h ▸ List.mem_cons_self _ _
      · exact Or.inr (Or.inr (List.mem_cons_of_mem _ h))

/-! ## Writing the elements back as a path -/

theorem pathOf_append (a b : List GoString) : pathOf (a ++ b) = pathOf a ++ pathOf b := by
  simp [pathOf]

theorem pathOf_singleton (x : GoString) : pathOf [x] = '/' :: x := by
  simp [pathOf]

theorem pathOf_cons (x : GoString) (l : List GoString) : pathOf (x :: l) = '/' :: x ++ pathOf l := by
  simp [pathOf]

theorem Join_cons_cons (a b : GoString) (l : List GoString) :
    strings.Join (a :: b :: l) ['/'] = a ++ '/' :: strings.Join (b :: l) ['/'] := by
  simp [strings.Join, List.intercalate]

theorem Join_singleton (a : GoString) : strings.Join [a] ['/'] = a := by
  simp [strings.Join, List.intercalate]

theorem pathOf_eq_Join (R : List GoString) (hne : R ≠ []) :
    pathOf R = '/' :: strings.Join R ['/'] := by
  induction R with
  | nil => exact absurd rfl hne
  | cons x l ih =>
    cases l with
    | nil => simp [pathOf_singleton, Join_singleton]
    | cons y l2 =>
      rw [pathOf_cons, ih (by simp), Join_cons_cons]
      simp

theorem TrimPrefix_slash_cons (s : GoString) : strings.TrimPrefix ('/' :: s) ['/'] = s := by
  simp [strings.TrimPrefix, strings.HasPrefix, List.isPrefixOf]

theorem TrimPrefix_slash_of_head (s : GoString) (h : s.head? ≠ some '/') :
    strings.TrimPrefix s ['/'] = s := by
  cases s with
  | nil => simp [strings.TrimPrefix, strings.HasPrefix, List.isPrefixOf]
  | cons c t =>
    have hc : c ≠ '/' := by simpa using h
    have hc2 : ¬ ('/' = c) := fun h' => hc h'.symm
    simp [strings.TrimPrefix, strings.HasPrefix, List.isPrefixOf, hc2]

/-- What `resolvePath` returns for the elements kept above a root element. -/
theorem goRender_root (R : List GoString) (hne : R ≠ []) :
    '/' :: strings.TrimPrefix (strings.Join ([] :: R) ['/']) ['/'] = pathOf R := by
  cases R with
  | nil => exact absurd rfl hne
  | cons y l =>
    rw [Join_cons_cons, List.nil_append, TrimPrefix_slash_cons, pathOf_eq_Join _ (by simp)]

/-- What `resolvePath` returns for the elements kept when the root element is gone. -/
theorem goRender_noroot (R0 : List GoString) (x : GoString) (h0 : ∀ e ∈ R0, e ≠ [])
    (hs : ∀ e ∈ R0 ++ [x], '/' ∉ e) :
    '/' :: strings.TrimPrefix (strings.Join (R0 ++ [x]) ['/']) ['/'] = pathOf (R0 ++ [x]) := by
  have hhead : (strings.Join (R0 ++ [x]) ['/']).head? ≠ some '/' := by
    cases R0 with
    | nil =>
      simp only [List.nil_append, Join_singleton]
      have hx : '/' ∉ x := hs x (by simp)
      cases x with
      | nil => simp
      | cons c t =>
        simp only [List.head?_cons, ne_eq, Option.some.injEq]
        intro h
        exact hx (h ▸ List.mem_cons_self _ _)
    | cons r R1 =>
      have hr : r ≠ [] := h0 r (List.mem_cons_self _ _)
      have hr2 : '/' ∉ r := hs r (by simp)
      obtain ⟨y, l, hyl⟩ : ∃ y l, R1 ++ [x] = y :: l := by
        cases R1 with
        | nil => exact ⟨x, [], rfl⟩
        | cons y l => exact ⟨y, l ++ [x], rfl⟩
      rw [List.cons_append, hyl, Join_cons_cons]
      cases r with
      | nil => exact absurd rfl hr
      | cons c t =>
        simp only [List.cons_append, List.head?_cons, ne_eq, Option.some.injEq]
        intro h
        exact hr2 (h ▸ List.mem_cons_self _ _)
  rw [TrimPrefix_slash_of_head _ hhead, pathOf_eq_Join _ (by simp)]

/-! ## `resolvePath` on the elements of the full path -/

theorem Split_cons_slash (t : GoString) :
    strings.Split ('/' :: t) '/' = [] :: strings.Split t '/' := by
  have := Split_append_sep [] t
  simpa [strings.Split] using this

theorem Split_ne_nil (t : GoString) : strings.Split t '/' ≠ [] := by
  unfold strings.Split List.splitOn
  exact List.splitOnP_ne_nil _ t

theorem resolvePath_rooted (t : GoString) :
    url.resolvePath [] ('/' :: t) =
      '/' :: strings.TrimPrefix
        (strings.Join (dotFold (strings.Split t '/') [[]]) ['/']) ['/'] := by
  have h := foldl_resolveStep_eq_dotFold (strings.Split t '/') (Split_ne_nil t) [[]]
  have hfull : (if '/' :: t = [] then []
      else if ('/' :: t).head? ≠ some '/' then
        sliceTo [] (strings.LastIndex [] "/".toList + 1) ++ '/' :: t
      else '/' :: t) = '/' :: t := by simp
  have h0 : url.resolveStep [] [] = [[]] := by simp [url.resolveStep]
  unfold url.resolvePath
  simp only [hfull]
  simp only [Split_cons_slash, List.foldl_cons, List.getLastD_cons, h0, reduceCtorEq, if_false]
  rw [← h]
  rfl

theorem resolvePath_abs (base t : GoString) :
    url.resolvePath base ('/' :: t) = url.resolvePath [] ('/' :: t) := by
  unfold url.resolvePath
  simp

theorem resolvePath_merged (base ref t : GoString) (hne : ref ≠ [])
    (hrel : ref.head? ≠ some '/')
    (hm : sliceTo base (strings.LastIndex base "/".toList + 1) ++ ref = '/' :: t) :
    url.resolvePath base ref = url.resolvePath [] ('/' :: t) := by
  unfold url.resolvePath
  simp only [hne, hrel, hm, if_false, if_true, ne_eq, not_false_eq_true, reduceCtorEq,
    List.head?_cons, not_true_eq_false]

/-! ## The loop of RFC 3986, section 5.2.4, on the elements of a rooted path -/

theorem loop_nil (fuel : Nat) (out : GoString) :
    RFC3986.removeDotSegmentsLoop fuel [] out = out := by
  cases fuel <;> simp [RFC3986.removeDotSegmentsLoop]

/-- A path is its first element, and then nothing or a slash and the rest. -/
theorem element_split (t : GoString) :
    ∃ e rest, t = e ++ rest ∧ '/' ∉ e ∧ (rest = [] ∨ ∃ t2, rest = '/' :: t2) := by
  induction t with
  | nil => exact ⟨[], [], rfl, by simp, Or.inl rfl⟩
  | cons a t ih =>
    by_cases ha : a = '/'
    · exact ⟨[], a :: t, rfl, by simp, Or.inr ⟨t, by rw [ha]⟩⟩
    · obtain ⟨e, rest, h1, h2, h3⟩ := ih
      refine ⟨a :: e, rest, by rw [h1]; rfl, ?_, h3⟩
      simp only [List.mem_cons, not_or]
      exact ⟨fun h => ha h.symm, h2⟩

theorem lastIndexFrom_none (c : Char) (x : GoString) (i : Nat) (best : Int) (h : c ∉ x) :
    strings.lastIndexFrom [c] x i best = best := by
  induction x generalizing i best with
  | nil => simp [strings.lastIndexFrom]
  | cons a x ih =>
    have ha : ¬ (c = a) := fun h' => h (h' ▸ List.mem_cons_self _ _)
    have hx : c ∉ x := fun h' => h (List.mem_cons_of_mem _ h')
    simp only [strings.lastIndexFrom, List.isPrefixOf, beq_iff_eq, ha, Bool.and_true]
    simpa using ih (i + 1) best hx

theorem lastIndexFrom_append (A x : GoString) (i : Nat) (best : Int) (h : '/' ∉ x) :
    strings.lastIndexFrom ['/'] (A ++ '/' :: x) i best = ((i + A.length : Nat) : Int) := by
  induction A generalizing i best with
  | nil =>
    simp only [List.nil_append, strings.lastIndexFrom, List.isPrefixOf, beq_self_eq_true,
      Bool.and_true, if_true, List.length_nil, Nat.add_zero]
    exact lastIndexFrom_none '/' x (i + 1) i h
  | cons a A ih =>
    show strings.lastIndexFrom ['/'] (A ++ '/' :: x) (i + 1)
      (if ['/'].isPrefixOf (a :: (A ++ '/' :: x)) then (i : Int) else best) = _
    rw [ih]
    simp only [List.length_cons]
    congr 1
    omega

theorem removeLastSegment_pathOf (st : List GoString) (hst : ∀ e ∈ st, '/' ∉ e) :
    RFC3986.removeLastSegment (pathOf st) = pathOf st.dropLast := by
  rcases List.eq_nil_or_concat st with h | ⟨st0, x, h⟩
  · subst h
    simp [RFC3986.removeLastSegment, pathOf, sliceTo]
  · rw [List.concat_eq_append] at h
    subst h
    have hx : '/' ∉ x := hst x (by simp)
    have h1 : strings.LastIndex (pathOf st0 ++ '/' :: x) ['/'] = ((pathOf st0).length : Int) := by
      unfold strings.LastIndex
      rw [lastIndexFrom_append _ _ _ _ hx]
      simp
    have h2 : pathOf (st0 ++ [x]) = pathOf st0 ++ '/' :: x := by
      rw [pathOf_append, pathOf_singleton]
    have h3 : (st0 ++ [x]).dropLast = st0 := by simp
    unfold RFC3986.removeLastSegment
    rw [h2, h3]
    have h4 : "/".toList = ['/'] := rfl
    rw [h4, h1]
    simp [sliceTo]

theorem loop_dot_end (n : Nat) (out : GoString) :
    RFC3986.removeDotSegmentsLoop (n + 2) ['/', '.'] out = out ++ ['/'] := by
  simp [RFC3986.removeDotSegmentsLoop, strings.HasPrefix, List.isPrefixOf, loop_nil]

theorem loop_dotdot_end (n : Nat) (out : GoString) :
    RFC3986.removeDotSegmentsLoop (n + 2) ['/', '.', '.'] out
      = RFC3986.removeLastSegment out ++ ['/'] := by
  simp [RFC3986.removeDotSegmentsLoop, strings.HasPrefix, List.isPrefixOf, loop_nil]

theorem loop_dot_mid (n : Nat) (t out : GoString) :
    RFC3986.removeDotSegmentsLoop (n + 1) ('/' :: '.' :: '/' :: t) out
      = RFC3986.removeDotSegmentsLoop n ('/' :: t) out := by
  simp [RFC3986.removeDotSegmentsLoop, strings.HasPrefix, List.isPrefixOf]

theorem loop_dotdot_mid (n : Nat) (t out : GoString) :
    RFC3986.removeDotSegmentsLoop (n + 1) ('/' :: '.' :: '.' :: '/' :: t) out
      = RFC3986.removeDotSegmentsLoop n ('/' :: t) (RFC3986.removeLastSegment out) := by
  simp [RFC3986.removeDotSegmentsLoop, strings.HasPrefix, List.isPrefixOf]

theorem takeWhile_element (e rest : GoString) (he : '/' ∉ e)
    (hrest : rest = [] ∨ ∃ t2, rest = '/' :: t2) :
    (e ++ rest).takeWhile (fun c => decide (c ≠ '/')) = e := by
  induction e with
  | nil =>
    rcases hrest with h | ⟨t2, h⟩ <;> simp [h]
  | cons a e ih =>
    have ha : a ≠ '/' := fun h' => he (h' ▸ List.mem_cons_self _ _)
    have hx : '/' ∉ e := fun h' => he (List.mem_cons_of_mem _ h')
    rw [List.cons_append, List.takeWhile_cons_of_pos (by simpa using ha), ih hx]

theorem loop_element (n : Nat) (e rest out : GoString) (he : '/' ∉ e) (h1 : e ≠ ['.'])
    (h2 : e ≠ ['.', '.']) (hrest : rest = [] ∨ ∃ t2, rest = '/' :: t2) :
    RFC3986.removeDotSegmentsLoop (n + 1) ('/' :: (e ++ rest)) out
      = RFC3986.removeDotSegmentsLoop n rest (out ++ '/' :: e) := by
  have hT := takeWhile_element e rest he hrest
  have hA : strings.HasPrefix ('/' :: (e ++ rest)) ['.', '.', '/'] = false := by
    simp [strings.HasPrefix, List.isPrefixOf]
  have hB : strings.HasPrefix ('/' :: (e ++ rest)) ['.', '/'] = false := by
    simp [strings.HasPrefix, List.isPrefixOf]
  have hC : strings.HasPrefix ('/' :: (e ++ rest)) ['/', '.', '/'] = false := by
    rcases e with _ | ⟨a, _ | ⟨b, e2⟩⟩
    · rcases hrest with h | ⟨t2, h⟩ <;> simp [h, strings.HasPrefix, List.isPrefixOf]
    · have ha : ¬ ('.' = a) := fun h => h1 (by rw [← h])
      simp [strings.HasPrefix, List.isPrefixOf, ha]
    · have hb : ¬ ('/' = b) := fun h => he (by simp [← h])
      simp [strings.HasPrefix, List.isPrefixOf, hb]
  have hD : '/' :: (e ++ rest) ≠ ['/', '.'] := by
    rcases e with _ | ⟨a, _ | ⟨b, e2⟩⟩
    · rcases hrest with h | ⟨t2, h⟩ <;> simp [h]
    · have ha : ¬ (a = '.') := fun h => h1 (by rw [h])
      simp [ha]
    · simp
  have hE : strings.HasPrefix ('/' :: (e ++ rest)) ['/', '.', '.', '/'] = false := by
    rcases e with _ | ⟨a, _ | ⟨b, _ | ⟨c, e3⟩⟩⟩
    · rcases hrest with h | ⟨t2, h⟩ <;> simp [h, strings.HasPrefix, List.isPrefixOf]
    · rcases hrest with h | ⟨t2, h⟩ <;> simp [h, strings.HasPrefix, List.isPrefixOf]
    · by_cases ha : a = '.'
      · by_cases hb : b = '.'
        · exact absurd (by rw [ha, hb]) h2
        · have hb2 : ¬ ('.' = b) := fun h => hb h.symm
          simp [strings.HasPrefix, List.isPrefixOf, hb2]
      · have ha2 : ¬ ('.' = a) := fun h => ha h.symm
        simp [strings.HasPrefix, List.isPrefixOf, ha2]
    · have hc : ¬ ('/' = c) := fun h => he (by simp [← h])
      simp [strings.HasPrefix, List.isPrefixOf, hc]
  have hF : '/' :: (e ++ rest) ≠ ['/', '.', '.'] := by
    rcases e with _ | ⟨a, _ | ⟨b, _ | ⟨c, e3⟩⟩⟩
    · rcases hrest with h | ⟨t2, h⟩ <;> simp [h]
    · rcases hrest with h | ⟨t2, h⟩ <;> simp [h]
    · by_cases ha : a = '.'
      · by_cases hb : b = '.'
        · exact absurd (by rw [ha, hb]) h2
        · simp [hb]
      · simp [ha]
    · simp
  have hG : '/' :: (e ++ rest) ≠ ['.'] ∧ '/' :: (e ++ rest) ≠ ['.', '.'] := by
    constructor <;> simp
  have hlit : "../".toList = ['.', '.', '/'] ∧ "./".toList = ['.', '/'] ∧
      "/./".toList = ['/', '.', '/'] ∧ "/.".toList = ['/', '.'] ∧
      "/../".toList = ['/', '.', '.', '/'] ∧ "/..".toList = ['/', '.', '.'] ∧
      ".".toList = ['.'] ∧ "..".toList = ['.', '.'] :=
    ⟨rfl, rfl, rfl, rfl, rfl, rfl, rfl, rfl⟩
  rw [RFC3986.removeDotSegmentsLoop]
  simp only [hlit.1, hlit.2.1, hlit.2.2.1, hlit.2.2.2.1, hlit.2.2.2.2.1, hlit.2.2.2.2.2.1,
    hlit.2.2.2.2.2.2.1, hlit.2.2.2.2.2.2.2, hA, hB, hC, hD, hE, hF, hG.1, hG.2, reduceCtorEq,
    if_false, Bool.false_eq_true, or_self, List.head?_cons, if_true, List.tail_cons, hT,
    List.length_cons, List.drop_succ_cons, List.drop_left]

theorem Split_element (e t2 : GoString) (he : '/' ∉ e) :
    strings.Split (e ++ '/' :: t2) '/' = e :: strings.Split t2 '/' := by
  rw [Split_append_sep, Split_single e he]
  rfl

theorem Split_no_slash (t : GoString) : ∀ e ∈ strings.Split t '/', '/' ∉ e := by
  generalize hn : t.length = n
  induction n using Nat.strong_induction_on generalizing t with
  | _ n ih =>
    obtain ⟨e, rest, rfl, he, hrest⟩ := element_split t
    rcases hrest with rfl | ⟨t2, rfl⟩
    · intro x hx
      rw [List.append_nil, Split_single e he] at hx
      simp only [List.mem_singleton] at hx
      exact hx ▸ he
    · intro x hx
      rw [Split_element e t2 he] at hx
      rcases List.mem_cons.1 hx with hx | hx
      · exact hx ▸ he
      · exact ih t2.length (by rw [← hn]; simp; omega) t2 rfl x hx

/-- The loop of section 5.2.4 on a rooted path is `dotFold` on its elements. -/
theorem loop_eq_dotFold : ∀ (fuel : Nat) (t : GoString) (st : List GoString),
    t.length + 1 ≤ fuel → (∀ e ∈ st, '/' ∉ e) →
    RFC3986.removeDotSegmentsLoop fuel ('/' :: t) (pathOf st)
      = pathOf (dotFold (strings.Split t '/') st) := by
  intro fuel
  induction fuel with
  | zero => intro t st h; omega
  | succ n ih =>
    intro t st hlen hst
    obtain ⟨e, rest, rfl, he, hrest⟩ := element_split t
    rcases hrest with rfl | ⟨t2, rfl⟩
    · rw [List.append_nil] at hlen ⊢
      rw [Split_single e he]
      by_cases h1 : e = ['.']
      · subst h1
        obtain ⟨m, rfl⟩ : ∃ m, n = m + 1 := ⟨n - 1, by simp at hlen; omega⟩
        rw [loop_dot_end]
        simp [dotFold, pathOf_append, pathOf_singleton]
      · by_cases h2 : e = ['.', '.']
        · subst h2
          obtain ⟨m, rfl⟩ : ∃ m, n = m + 1 := ⟨n - 1, by simp at hlen; omega⟩
          rw [loop_dotdot_end, removeLastSegment_pathOf st hst]
          simp [dotFold, pathOf_append, pathOf_singleton]
        · have := loop_element n e [] (pathOf st) he h1 h2 (Or.inl rfl)
          rw [List.append_nil] at this
          rw [this, loop_nil]
          simp [dotFold, h1, h2, pathOf_append, pathOf_singleton]
    · rw [Split_element e t2 he]
      have hsp : strings.Split t2 '/' ≠ [] := Split_ne_nil t2
      have hd : dotFold (e :: strings.Split t2 '/') st
          = dotFold (strings.Split t2 '/') (url.resolveStep st e) := by
        simp [dotFold, hsp]
      rw [hd]
      have hlen2 : t2.length + 1 ≤ n := by
        simp only [List.length_append, List.length_cons] at hlen
        omega
      by_cases h1 : e = ['.']
      · subst h1
        rw [resolveStep_dot]
        show RFC3986.removeDotSegmentsLoop (n + 1) ('/' :: '.' :: '/' :: t2) (pathOf st) = _
        rw [loop_dot_mid]
        exact ih t2 st hlen2 hst
      · by_cases h2 : e = ['.', '.']
        · subst h2
          rw [resolveStep_dotdot]
          show RFC3986.removeDotSegmentsLoop (n + 1) ('/' :: '.' :: '.' :: '/' :: t2) (pathOf st)
            = _
          rw [loop_dotdot_mid, removeLastSegment_pathOf st hst]
          exact ih t2 st.dropLast hlen2 (fun x hx => hst x (List.mem_of_mem_dropLast hx))
        · rw [resolveStep_other st e h1 h2]
          rw [loop_element n e ('/' :: t2) (pathOf st) he h1 h2 (Or.inr ⟨t2, rfl⟩)]
          have hp : pathOf st ++ '/' :: e = pathOf (st ++ [e]) := by
            rw [pathOf_append, pathOf_singleton]
          rw [hp]
          apply ih t2 (st ++ [e]) hlen2
          intro x hx
          rcases List.mem_append.1 hx with hx | hx
          · exact hst x hx
          · simp only [List.mem_singleton] at hx
            exact hx ▸ he

/-! ## Empty elements -/

theorem doubleSlash_cons (c : Char) (t : GoString) :
    doubleSlash (c :: t) = ((c == '/' && t.head? == some '/') || doubleSlash t) := rfl

theorem doubleSlash_append_right (a b : GoString) (h : doubleSlash (a ++ b) = false) :
    doubleSlash b = false := by
  induction a with
  | nil => exact h
  | cons c a ih =>
    rw [List.cons_append, doubleSlash_cons] at h
    simp only [Bool.or_eq_false_iff] at h
    exact ih h.2

theorem doubleSlash_take (p : GoString) (n : Nat) (h : doubleSlash p = false) :
    doubleSlash (p.take n) = false := by
  induction p generalizing n with
  | nil => simp [doubleSlash]
  | cons c p ih =>
    cases n with
    | zero => simp [doubleSlash]
    | succ n =>
      rw [doubleSlash_cons] at h
      simp only [Bool.or_eq_false_iff] at h
      rw [List.take_succ_cons, doubleSlash_cons, ih n h.2]
      simp only [Bool.or_false]
      have h1 := h.1
      cases n with
      | zero => simp
      | succ m =>
        cases p with
        | nil => simp
        | cons d p2 => simpa using h1

theorem doubleSlash_append (a b : GoString) (ha : doubleSlash a = false)
    (hb : doubleSlash b = false) (hhead : b.head? ≠ some '/') :
    doubleSlash (a ++ b) = false := by
  induction a with
  | nil => exact hb
  | cons c a ih =>
    rw [doubleSlash_cons] at ha
    simp only [Bool.or_eq_false_iff] at ha
    rw [List.cons_append, doubleSlash_cons, ih ha.2]
    simp only [Bool.or_false]
    cases a with
    | nil =>
      simp only [List.nil_append]
      cases b with
      | nil => simp
      | cons d b2 =>
        have hd : d ≠ '/' := by simpa using hhead
        simp [hd]
    | cons d a2 => simpa using ha.1

/-- Without two slashes in a row, no element before the last one is empty. -/
theorem Split_dropLast_ne_nil (t : GoString) (h : doubleSlash ('/' :: t) = false) :
    ∀ e ∈ (strings.Split t '/').dropLast, e ≠ [] := by
  generalize hn : t.length = n
  induction n using Nat.strong_induction_on generalizing t with
  | _ n ih =>
    obtain ⟨e, rest, rfl, he, hrest⟩ := element_split t
    rcases hrest with rfl | ⟨t2, rfl⟩
    · intro x hx
      rw [List.append_nil, Split_single e he] at hx
      simp at hx
    · intro x hx
      rw [Split_element e t2 he] at hx
      obtain ⟨y, l, hyl⟩ : ∃ y l, strings.Split t2 '/' = y :: l := by
        cases hs : strings.Split t2 '/' with
        | nil => exact absurd hs (Split_ne_nil t2)
        | cons y l => exact ⟨y, l, rfl⟩
      rw [hyl, List.dropLast_cons₂, ← hyl] at hx
      have h2 : doubleSlash ('/' :: t2) = false := by
        have : '/' :: (e ++ '/' :: t2) = ('/' :: e) ++ '/' :: t2 := rfl
        rw [this] at h
        exact doubleSlash_append_right _ _ h
      rcases List.mem_cons.1 hx with hx | hx
      · subst hx
        intro hx0
        subst hx0
        simp [doubleSlash] at h
      · exact ih t2.length (by rw [← hn]; simp; omega) t2 h2 rfl x hx

/-- The path of `resolvePath` is the path of section 5.2.4 of RFC 3986, on a
rooted path without an empty element. -/
theorem resolvePath_eq_removeDotSegments (t : GoString) (h : doubleSlash ('/' :: t) = false) :
    url.resolvePath [] ('/' :: t) = RFC3986.removeDotSegments ('/' :: t) := by
  have hne := Split_ne_nil t
  have hR : RFC3986.removeDotSegments ('/' :: t) = pathOf (dotFold (strings.Split t '/') []) := by
    unfold RFC3986.removeDotSegments
    have := loop_eq_dotFold (('/' :: t).length + 1) t [] (by simp) (by simp)
    simpa [pathOf] using this
  obtain ⟨R0, x, hgood, hR0⟩ := dotFold_good (strings.Split t '/') hne
    (Split_dropLast_ne_nil t h) [] (by simp)
  have hslash : ∀ e ∈ dotFold (strings.Split t '/') [], '/' ∉ e := by
    intro e he
    rcases dotFold_mem _ _ e he with h1 | h1 | h1
    · rw [h1]; simp
    · simp at h1
    · exact Split_no_slash t e h1
  rw [resolvePath_rooted, hR]
  rcases dotFold_root (strings.Split t '/') hne [] with hroot | hroot
  · rw [hroot]
    exact goRender_root _ (by rw [hgood]; simp)
  · rw [hroot, hgood]
    rw [hgood] at hslash
    exact goRender_noroot R0 x hR0 hslash

/-! ## URLs with a scheme and a host through `net/url` -/

theorem all_not_mem (f : Char → Bool) (l : GoString) (h : l.all f = true) (x : Char)
    (hx : f x = false) : x ∉ l := by
  intro hm
  have := List.all_eq_true.1 h x hm
  rw [hx] at this
  exact Bool.false_ne_true this

theorem lowerScheme_all (sch : GoString) (h : lowerScheme sch = true) :
    sch ≠ [] ∧ ∀ c ∈ sch, c ∈ lowerLetters := by
  unfold lowerScheme at h
  simp only [Bool.and_eq_true, decide_eq_true_eq, List.all_eq_true, List.contains_iff_exists_mem_beq,
    beq_iff_eq, exists_eq_right'] at h
  exact ⟨h.1, fun c hc => by simpa using h.2 c hc⟩

theorem plainHost_all (h : GoString) (hh : plainHost h = true) :
    ∀ c ∈ h, c ∈ authorityBytes := by
  induction h with
  | nil => intro c hc; simp at hc
  | cons a t ih =>
    intro c hc
    by_cases ha : a = ':'
    · subst ha
      have hport : t.all (fun c => portDigits.contains c) = true := by
        simpa [plainHost] using hh
      rcases List.mem_cons.1 hc with hc | hc
      · subst hc; decide
      · have hd : c ∈ portDigits := by
          have := List.all_eq_true.1 hport c hc
          simpa using this
        have : ∀ x ∈ portDigits, x ∈ authorityBytes := by decide
        exact this c hd
    · have ha2 : (a != ':') = true := by simpa using ha
      have hh2 : hostBytes.contains a = true ∧ plainHost t = true := by
        have e1 : (a :: t).takeWhile (fun c => c != ':') = a :: t.takeWhile (fun c => c != ':') :=
          List.takeWhile_cons_of_pos ha2
        have e2 : (a :: t).dropWhile (fun c => c != ':') = t.dropWhile (fun c => c != ':') :=
          List.dropWhile_cons_of_pos ha2
        unfold plainHost at hh ⊢
        rw [e1, e2] at hh
        simp only [List.all_cons, Bool.and_eq_true] at hh ⊢
        exact ⟨hh.1.1, hh.1.2, hh.2⟩
      rcases List.mem_cons.1 hc with hc | hc
      · subst hc
        have : c ∈ hostBytes := by simpa using hh2.1
        have hsub : ∀ x ∈ hostBytes, x ∈ authorityBytes := by decide
        exact hsub c this
      · exact ih hh2.2 c hc

theorem getschemeLoop_scheme (sch : GoString) (hsch : ∀ c ∈ sch, c ∈ lowerLetters)
    (pre rest : GoString) (hpos : 0 < pre.length + sch.length) :
    url.getschemeLoop (pre ++ sch ++ ':' :: rest) (sch ++ ':' :: rest) pre.length
      = .ok (pre ++ sch, rest) := by
  induction sch generalizing pre with
  | nil =>
    have hp : pre.length ≠ 0 := by simp at hpos; omega
    simp [url.getschemeLoop, hp]
  | cons c sch ih =>
    have hc : ('a' ≤ c ∧ c ≤ 'z') ∨ ('A' ≤ c ∧ c ≤ 'Z') := by
      have : ∀ x ∈ lowerLetters, ('a' ≤ x ∧ x ≤ 'z') ∨ ('A' ≤ x ∧ x ≤ 'Z') := by decide
      exact this c (hsch c (List.mem_cons_self _ _))
    have := ih (fun x hx => hsch x (List.mem_cons_of_mem _ hx)) (pre ++ [c]) (by simp)
    simp only [List.append_assoc, List.singleton_append, List.length_append, List.length_singleton]
      at this
    rw [List.cons_append, url.getschemeLoop]
    simp only [hc, if_true]
    simpa [List.append_assoc] using this

theorem ToLower_scheme (sch : GoString) (hsch : ∀ c ∈ sch, c ∈ lowerLetters) :
    strings.ToLower sch = sch := by
  unfold strings.ToLower
  induction sch with
  | nil => rfl
  | cons c sch ih =>
    have hc : ¬ ('A' ≤ c ∧ c ≤ 'Z') := by
      have : ∀ x ∈ lowerLetters, ¬ ('A' ≤ x ∧ x ≤ 'Z') := by decide
      exact this c (hsch c (List.mem_cons_self _ _))
    simp only [List.map_cons, hc, if_false]
    rw [ih (fun x hx => hsch x (List.mem_cons_of_mem _ hx))]

theorem indexFrom_append (c : Char) (a b : GoString) (k : Nat) (h : c ∉ a) :
    strings.indexFrom [c] (a ++ c :: b) k = ((k + a.length : Nat) : Int) := by
  induction a generalizing k with
  | nil => simp [strings.indexFrom, List.isPrefixOf]
  | cons x a ih =>
    have hne : c ≠ x := fun h' => h (h' ▸ List.mem_cons_self _ _)
    have ha : c ∉ a := fun h' => h (List.mem_cons_of_mem _ h')
    have hstep : strings.indexFrom [c] (x :: a ++ c :: b) k
        = strings.indexFrom [c] (a ++ c :: b) (k + 1) := by
      simp [strings.indexFrom, List.isPrefixOf, hne]
    rw [hstep, ih (k + 1) ha]
    simp only [List.length_cons]
    congr 1
    omega

theorem split_append (c : Char) (a b : GoString) (h : c ∉ a) :
    url.split (a ++ c :: b) [c] false = (a, c :: b) := by
  have hi : strings.Index (a ++ c :: b) [c] = (a.length : Int) := by
    unfold strings.Index
    rw [indexFrom_append c a b 0 h]
    simp
  simp [url.split, hi, sliceTo, sliceFrom]

theorem split_append_cut (c : Char) (a b : GoString) (h : c ∉ a) :
    url.split (a ++ c :: b) [c] true = (a, b) := by
  have hi : strings.Index (a ++ c :: b) [c] = (a.length : Int) := by
    unfold strings.Index
    rw [indexFrom_append c a b 0 h]
    simp
  have h1 : ((a.length : Int) + 1).toNat = a.length + 1 := by omega
  simp [url.split, hi, sliceTo, sliceFrom, h1]

theorem unescapeCheck_host (h : GoString) (hh : ∀ c ∈ h, c ∈ authorityBytes) (n : Nat) :
    url.unescapeCheck url.encoding.encodeHost h n false = .ok (n, false) := by
  induction h with
  | nil => simp [url.unescapeCheck]
  | cons c rest ih =>
    have hfact : ∀ x ∈ authorityBytes, x ≠ '%' ∧ x ≠ '+' ∧
        url.shouldEscape x url.encoding.encodeHost = false := by decide
    obtain ⟨h1, h2, h3⟩ := hfact c (hh c (List.mem_cons_self _ _))
    unfold url.unescapeCheck
    simp only [h1, h2, h3, if_false, Bool.false_eq_true, and_false]
    exact ih (fun x hx => hh x (List.mem_cons_of_mem _ hx))

theorem parseAuthority_host (h : GoString) (hh : ∀ c ∈ h, c ∈ authorityBytes) :
    url.parseAuthority h = .ok (none, h) := by
  have hat : '@' ∉ h := fun hm => absurd (hh _ hm) (by decide)
  have hbr : '[' ∉ h := fun hm => absurd (hh _ hm) (by decide)
  have hlast : strings.LastIndex h ['@'] = -1 := lastIndexFrom_none '@' h 0 (-1) hat
  have hpre : strings.HasPrefix h ['['] = false := by
    cases h with
    | nil => simp [strings.HasPrefix, List.isPrefixOf]
    | cons c t =>
      have : ¬ ('[' = c) := fun h' => hbr (h' ▸ List.mem_cons_self _ _)
      simp [strings.HasPrefix, List.isPrefixOf, this]
  have hun : url.unescape h url.encoding.encodeHost = .ok h := by
    simp [url.unescape, unescapeCheck_host h hh 0]
  have hph : url.parseHost h = .ok h := by
    simp [url.parseHost, hpre, hun]
  simp [url.parseAuthority, hlast, hph]

theorem parse_hier (sch h t : GoString) (hsch : lowerScheme sch = true)
    (hh : plainHost h = true) (hp : ('/' :: t).all plainByte = true) :
    url.parse (sch ++ ':' :: '/' :: '/' :: (h ++ '/' :: t)) false =
      .ok { Scheme := sch, Host := h, Path := '/' :: t } := by
  obtain ⟨hne, hs⟩ := lowerScheme_all sch hsch
  have hhb := plainHost_all h hh
  have hq0 := plain_not_mem _ hp '?' (by decide)
  have hqh : '?' ∉ h := fun hm => absurd (hhb _ hm) (by decide)
  have hsl : '/' ∉ h := fun hm => absurd (hhb _ hm) (by decide)
  have hq : '?' ∉ '/' :: '/' :: (h ++ '/' :: t) := by
    simp only [List.mem_cons, List.mem_append, not_or] at hq0 ⊢
    exact ⟨by decide, by decide, hqh, hq0.1, hq0.2⟩
  have hstar : sch ++ ':' :: '/' :: '/' :: (h ++ '/' :: t) ≠ "*".toList := by
    intro h'
    have := congrArg List.length h'
    simp at this
    omega
  have hsch2 : url.getscheme (sch ++ ':' :: '/' :: '/' :: (h ++ '/' :: t))
      = .ok (sch, '/' :: '/' :: (h ++ '/' :: t)) := by
    have := getschemeLoop_scheme sch hs [] ('/' :: '/' :: (h ++ '/' :: t))
      (by
        cases sch with
        | nil => exact absurd rfl hne
        | cons c s => simp)
    simpa [url.getscheme] using this
  have hsuf : strings.HasSuffix ('/' :: '/' :: (h ++ '/' :: t)) "?".toList = false :=
    HasSuffix_not_mem '?' _ hq
  have hsplitq : url.split ('/' :: '/' :: (h ++ '/' :: t)) "?".toList true
      = ('/' :: '/' :: (h ++ '/' :: t), []) := split_not_mem '?' _ true hq
  have hpre1 : strings.HasPrefix ('/' :: '/' :: (h ++ '/' :: t)) "/".toList = true := by
    simp [strings.HasPrefix, List.isPrefixOf]
  have hpre2 : strings.HasPrefix ('/' :: '/' :: (h ++ '/' :: t)) "//".toList = true := by
    simp [strings.HasPrefix, List.isPrefixOf]
  have hslice : sliceFrom ('/' :: '/' :: (h ++ '/' :: t)) 2 = h ++ '/' :: t := by
    simp [sliceFrom]
  have hidx : url.split (h ++ '/' :: t) "/".toList false = (h, '/' :: t) :=
    split_append '/' h t hsl
  have hauth := parseAuthority_host h hhb
  have hlow := ToLower_scheme sch hs
  have hset := setPath_plain { Scheme := sch, User := none, Host := h } ('/' :: t) hp
  unfold url.parse
  simp only [Bool.false_eq_true, and_false, if_false, hstar, hsch2, hlow, hsuf, Bool.false_and,
    hsplitq, hpre1, hpre2, hslice, hidx, hauth, Bool.not_true, false_and, ne_eq, hne,
    not_false_eq_true, true_or, and_self, if_true]
  exact hset

theorem Parse_hier (sch h t : GoString) (hsch : lowerScheme sch = true)
    (hh : plainHost h = true) (hp : ('/' :: t).all plainByte = true) :
    url.Parse (sch ++ ':' :: '/' :: '/' :: (h ++ '/' :: t)) =
      .ok { Scheme := sch, Host := h, Path := '/' :: t } := by
  obtain ⟨hne, hs⟩ := lowerScheme_all sch hsch
  have hhb := plainHost_all h hh
  have hh0 := plain_not_mem _ hp '#' (by decide)
  have hh1 : '#' ∉ h := fun hm => absurd (hhb _ hm) (by decide)
  have hh2 : '#' ∉ sch := fun hm => absurd (hs _ hm) (by decide)
  have hhash : '#' ∉ sch ++ ':' :: '/' :: '/' :: (h ++ '/' :: t) := by
    simp only [List.mem_cons, List.mem_append, not_or] at hh0 ⊢
    exact ⟨hh2, by decide, by decide, by decide, hh1, hh0.1, hh0.2⟩
  have hsplit : url.split (sch ++ ':' :: '/' :: '/' :: (h ++ '/' :: t)) "#".toList true
      = (sch ++ ':' :: '/' :: '/' :: (h ++ '/' :: t), []) := split_not_mem '#' _ true hhash
  unfold url.Parse
  simp only [hsplit, parse_hier sch h t hsch hh hp, if_true]

/-! ## References with a query and a fragment through `net/url` -/

theorem escape_host (h : GoString) (hh : ∀ c ∈ h, c ∈ authorityBytes) :
    url.escape h url.encoding.encodeHost = h := by
  apply escape_of_all
  intro c hc
  have : ∀ x ∈ authorityBytes, url.shouldEscape x url.encoding.encodeHost = false := by decide
  exact this c (hh c hc)

theorem plainElements_iff (p : GoString) (h : plainElements p = true) :
    p.all plainByte = true ∧ doubleSlash p = false := by
  unfold plainElements at h
  simpa using h

theorem plainPath_of_plainElements (p : GoString) (h : plainElements p = true) :
    plainPath p = true := by
  obtain ⟨h1, h2⟩ := plainElements_iff p h
  unfold plainPath
  rw [h1]
  rcases p with _ | ⟨a, _ | ⟨b, p2⟩⟩
  · rfl
  · simp [strings.HasPrefix, List.isPrefixOf]
  · rw [doubleSlash_cons] at h2
    simp only [Bool.or_eq_false_iff, List.head?_cons, Bool.and_eq_false_imp, beq_iff_eq] at h2
    simp only [strings.HasPrefix, Bool.true_and, Bool.not_eq_true']
    by_cases ha : a = '/'
    · have hb : ¬ ('/' = b) := by
        intro hb
        have := h2.1 ha
        simp [← hb] at this
      simp [List.isPrefixOf, hb]
    · have ha2 : ¬ ('/' = a) := fun h => ha h.symm
      simp [List.isPrefixOf, ha2]

theorem plainQuery_not_mem (q : Option GoString) (h : plainQuery q = true) :
    '#' ∉ queryPart q := by
  cases q with
  | none => simp [queryPart]
  | some x =>
    simp only [plainQuery, Bool.not_eq_true', List.contains_eq_any_beq, List.any_eq_false,
      beq_iff_eq] at h
    simp only [queryPart, List.mem_cons, not_or]
    refine ⟨by decide, ?_⟩
    intro hm
    exact h '#' hm rfl

theorem plainFragment_all (f : Option GoString) (h : plainFragment f = true) :
    ∀ x, f = some x → x ≠ [] ∧ x.all fragmentByte = true := by
  intro x hx
  subst hx
  simpa [plainFragment] using h

/-- The scan for a scheme stops at a `?` or at the end, when no colon comes before. -/
theorem getschemeLoop_stop (rawurl a rest : GoString) (i : Nat) (h : ':' ∉ a)
    (hrest : rest = [] ∨ ∃ t, rest = '?' :: t) :
    url.getschemeLoop rawurl (a ++ rest) i = .ok ([], rawurl) := by
  induction a generalizing i with
  | nil =>
    rcases hrest with rfl | ⟨t, rfl⟩
    · simp [url.getschemeLoop]
    · simp [url.getschemeLoop]
  | cons c a ih =>
    have hc : c ≠ ':' := fun h' => h (h' ▸ List.mem_cons_self _ _)
    have hr : ':' ∉ a := fun h' => h (List.mem_cons_of_mem _ h')
    rw [List.cons_append]
    unfold url.getschemeLoop
    split
    · exact ih _ hr
    · split
      · split
        · rfl
        · exact ih _ hr
      · simp [hc]

theorem HasSuffix_mem (pre y : GoString) (c : Char) (hy : y ≠ [])
    (h : strings.HasSuffix (pre ++ y) [c] = true) : c ∈ y := by
  unfold strings.HasSuffix at h
  rw [List.reverse_append] at h
  cases hr : y.reverse with
  | nil => simp at hr; exact absurd hr hy
  | cons z w =>
    rw [hr] at h
    simp only [List.reverse_singleton, List.cons_append, List.isPrefixOf, Bool.and_true,
      beq_iff_eq] at h
    have hz : z ∈ y := by
      have : z ∈ y.reverse := by rw [hr]; exact List.mem_cons_self _ _
      exact List.mem_reverse.1 this
    rw [h]
    exact hz

/-- The split of a reference without fragment into its path and its query. -/
theorem query_split (sp : GoString) (q : Option GoString) (hq : '?' ∉ sp) :
    (strings.HasSuffix (sp ++ queryPart q) "?".toList &&
        decide (strings.Count (sp ++ queryPart q) '?' = 1)) = decide (q = some []) ∧
    (if (strings.HasSuffix (sp ++ queryPart q) "?".toList &&
          decide (strings.Count (sp ++ queryPart q) '?' = 1)) = true
      then (sliceTo (sp ++ queryPart q) ((sp ++ queryPart q).length - 1), [])
      else url.split (sp ++ queryPart q) "?".toList true) = (sp, q.getD []) := by
  have hcount : sp.count '?' = 0 := List.count_eq_zero.2 hq
  cases q with
  | none =>
    have h1 : strings.HasSuffix sp ['?'] = false := HasSuffix_not_mem '?' sp hq
    have h2 : url.split sp ['?'] true = (sp, []) := split_not_mem '?' sp true hq
    simp [queryPart, h1, h2]
  | some x =>
    cases x with
    | nil =>
      have h1 : strings.HasSuffix (sp ++ ['?']) ['?'] = true := by
        simp [strings.HasSuffix, List.isPrefixOf]
      have h2 : strings.Count (sp ++ ['?']) '?' = 1 := by
        simp [strings.Count, hcount]
      have h3 : (((sp ++ ['?']).length : Int) - 1).toNat = sp.length := by
        simp
      simp [queryPart, h1, h2, sliceTo, h3]
    | cons a x =>
      have h1 : (strings.HasSuffix (sp ++ '?' :: a :: x) ['?'] &&
          decide (strings.Count (sp ++ '?' :: a :: x) '?' = 1)) = false := by
        cases hs : strings.HasSuffix (sp ++ '?' :: a :: x) ['?'] with
        | false => rfl
        | true =>
          have hm : '?' ∈ a :: x := by
            have := HasSuffix_mem (sp ++ ['?']) (a :: x) '?' (by simp)
              (by simpa [List.append_assoc] using hs)
            exact this
          have hpos : 0 < (a :: x).count '?' := List.count_pos_iff.2 hm
          have hc : strings.Count (sp ++ '?' :: a :: x) '?' = 1 + (a :: x).count '?' := by
            unfold strings.Count
            rw [List.count_append, hcount, List.count_cons_self]
            omega
          simp only [Bool.true_and, decide_eq_false_iff_not, hc]
          omega
      have h2 : url.split (sp ++ '?' :: a :: x) ['?'] true = (sp, a :: x) :=
        split_append_cut '?' sp (a :: x) hq
      have hlit : "?".toList = ['?'] := rfl
      simp only [queryPart, hlit, h1, h2, Option.getD_some, Bool.false_eq_true, if_false]
      simp

theorem parse_reference (sp : GoString) (q : Option GoString) (hs : plainPath sp = true)
    (hne : sp ≠ []) :
    url.parse (sp ++ queryPart q) false =
      .ok { Path := sp, ForceQuery := decide (q = some []), RawQuery := q.getD [] } := by
  have hp := all_plain_of_plainPath sp hs
  have hpre : strings.HasPrefix sp "//".toList = false := by
    unfold plainPath at hs
    simpa [hp] using hs
  have hstar : sp ++ queryPart q ≠ "*".toList := by
    cases sp with
    | nil => exact absurd rfl hne
    | cons a t =>
      have ha : a ≠ '*' := by
        intro h
        exact plain_not_mem _ hp '*' (by decide) (h ▸ List.mem_cons_self _ _)
      intro h
      simp only [List.cons_append] at h
      have := (List.cons.inj h).1
      exact ha this
  have hcolon := plain_not_mem sp hp ':' (by decide)
  have hq := plain_not_mem sp hp '?' (by decide)
  have hsch : url.getscheme (sp ++ queryPart q) = .ok ([], sp ++ queryPart q) := by
    unfold url.getscheme
    apply getschemeLoop_stop _ sp (queryPart q) 0 hcolon
    cases q with
    | none => exact Or.inl rfl
    | some x => exact Or.inr ⟨x, rfl⟩
  obtain ⟨hf, hrq⟩ := query_split sp q hq
  rw [hf] at hrq
  have hidx : strings.Index sp ":".toList = -1 := Index_not_mem ':' sp hcolon
  unfold url.parse
  simp only [Bool.false_eq_true, and_false, if_false, hstar, hsch, strings.ToLower, List.map_nil,
    hrq, hf, ne_eq, not_true_eq_false, hidx, hpre, false_or, and_self,
    Int.reduceNeg, Left.nonneg_neg_iff, Int.reduceLE, false_and]
  exact setPath_plain _ sp hp

theorem unescapeCheck_fragment (s : GoString) (n : Nat) (h : '%' ∉ s) :
    url.unescapeCheck url.encoding.encodeFragment s n false = .ok (n, false) := by
  induction s with
  | nil => simp [url.unescapeCheck]
  | cons c rest ih =>
    have hc : c ≠ '%' := fun h' => h (h' ▸ List.mem_cons_self _ _)
    have hr : '%' ∉ rest := fun h' => h (List.mem_cons_of_mem _ h')
    unfold url.unescapeCheck
    simp only [hc, if_false]
    split
    · simpa using ih hr
    · simpa using ih hr

theorem fragment_not_mem (x : GoString) (hx : x.all fragmentByte = true) : '%' ∉ x :=
  all_not_mem fragmentByte x hx '%' (by decide)

theorem unescape_fragment (x : GoString) (hx : x.all fragmentByte = true) :
    url.unescape x url.encoding.encodeFragment = .ok x := by
  simp [url.unescape, unescapeCheck_fragment x 0 (fragment_not_mem x hx)]

theorem escape_fragment (x : GoString) (hx : x.all fragmentByte = true) :
    url.escape x url.encoding.encodeFragment = x := by
  apply escape_of_all
  intro c hc
  have := List.all_eq_true.1 hx c hc
  simpa [fragmentByte] using this

theorem Parse_reference (sp : GoString) (q f : Option GoString) (hs : plainPath sp = true)
    (hne : sp ≠ []) (hq : plainQuery q = true) (hf : plainFragment f = true) :
    url.Parse (sp ++ queryPart q ++ fragmentPart f) =
      .ok { Path := sp, ForceQuery := decide (q = some []), RawQuery := q.getD [],
            Fragment := f.getD [] } := by
  have hp := all_plain_of_plainPath sp hs
  have hh : '#' ∉ sp ++ queryPart q := by
    simp only [List.mem_append, not_or]
    exact ⟨plain_not_mem sp hp '#' (by decide), plainQuery_not_mem q hq⟩
  cases f with
  | none =>
    have hsplit : url.split (sp ++ queryPart q) ['#'] true = (sp ++ queryPart q, []) :=
      split_not_mem '#' _ true hh
    simp [url.Parse, fragmentPart, hsplit, parse_reference sp q hs hne]
  | some x =>
    obtain ⟨hx1, hx2⟩ := plainFragment_all (some x) hf x rfl
    have hsplit : url.split (sp ++ queryPart q ++ '#' :: x) ['#'] true = (sp ++ queryPart q, x) :=
      split_append_cut '#' _ x hh
    have hlit : "#".toList = ['#'] := rfl
    unfold url.Parse
    simp only [fragmentPart, hlit, hsplit, parse_reference sp q hs hne, hx1, if_false,
      unescape_fragment x hx2, Option.getD_some]

theorem EscapedPath_of_plain (u : url.URL) (hraw : u.RawPath = [])
    (hp : u.Path.all plainByte = true) : u.EscapedPath = u.Path := by
  have hstar : u.Path ≠ ['*'] := by
    intro h
    have := plain_not_mem u.Path hp '*' (by decide)
    rw [h] at this
    exact this (by decide)
  simp [url.URL.EscapedPath, hraw, hstar, escape_of_all _ _ (plain_shouldEscape _ hp)]

theorem ResolveReference_hier (sch h p sp rq fr : GoString) (fq : Bool)
    (hp : p.all plainByte = true) (hs : sp.all plainByte = true) (hne : sp ≠ []) :
    ({ Scheme := sch, Host := h, Path := p } : url.URL).ResolveReference
      { Path := sp, ForceQuery := fq, RawQuery := rq, Fragment := fr } =
      { Scheme := sch, Host := h, Path := url.resolvePath p sp,
        ForceQuery := fq, RawQuery := rq, Fragment := fr } := by
  have hrp := resolvePath_plain p sp hp hs
  have he1 := EscapedPath_of_plain { Scheme := sch, Host := h, Path := p } rfl hp
  have he2 := EscapedPath_of_plain
    { Path := sp, ForceQuery := fq, RawQuery := rq, Fragment := fr } rfl hs
  unfold url.URL.ResolveReference
  simp only [he1, he2, ne_eq, not_true_eq_false, or_self, if_false, if_true, hne, false_and]
  rw [withPath_plain _ _ hrp]

theorem String_hier (sch h r : GoString) (q f : Option GoString)
    (hsch : sch ≠ []) (hh : ∀ c ∈ h, c ∈ authorityBytes)
    (hr : ('/' :: r).all plainByte = true) (hf : plainFragment f = true) :
    ({ Scheme := sch, Host := h, Path := '/' :: r, ForceQuery := decide (q = some []),
       RawQuery := q.getD [], Fragment := f.getD [] } : url.URL).String =
      sch ++ ':' :: '/' :: '/' :: (h ++ '/' :: r) ++ queryPart q ++ fragmentPart f := by
  have he := EscapedPath_of_plain
    { Scheme := sch, Host := h, Path := '/' :: r, ForceQuery := decide (q = some []),
      RawQuery := q.getD [], Fragment := f.getD [] } rfl hr
  have hfrag : (if f.getD [] ≠ [] then ['#'] ++ url.escape (f.getD []) url.encoding.encodeFragment
      else []) = fragmentPart f := by
    cases f with
    | none => simp [fragmentPart]
    | some x =>
      obtain ⟨hx1, hx2⟩ := plainFragment_all (some x) hf x rfl
      simp [fragmentPart, hx1, escape_fragment x hx2]
  have hquery : (if (decide (q = some []) = true ∨ q.getD [] ≠ []) then ['?'] ++ q.getD []
      else []) = queryPart q := by
    cases q with
    | none => simp [queryPart]
    | some x =>
      cases x with
      | nil => simp [queryPart]
      | cons a x => simp [queryPart]
  unfold url.URL.String
  simp only [he, escape_host h hh]
  rw [← hfrag, ← hquery]
  by_cases hh0 : h = []
  · simp only [hsch, hh0, ne_eq, not_false_eq_true, true_or, if_true, not_true_eq_false,
      false_or, reduceCtorEq, or_false, or_true, List.head?_cons, and_false, false_and, if_false,
      List.append_nil, List.nil_append]
    split_ifs <;> simp_all
  · simp only [hsch, hh0, ne_eq, not_false_eq_true, true_or, if_true, not_true_eq_false,
      false_or, reduceCtorEq, or_false, or_true, List.head?_cons, and_false, false_and, if_false,
      List.append_nil, List.nil_append]
    split_ifs <;> simp_all

/-- A plain reference against a URL with a scheme, a plain host and a plain rooted
path. -/
theorem ResolveModule_hier (S sp sch h t : GoString) (q f : Option GoString)
    (hs : plainPath sp = true) (hne : sp ≠ []) (hq : plainQuery q = true)
    (hf : plainFragment f = true) (hsch : lowerScheme sch = true) (hh : plainHost h = true)
    (hp : ('/' :: t).all plainByte = true) :
    ResolveModule S (sp ++ queryPart q ++ fragmentPart f)
        (sch ++ ':' :: '/' :: '/' :: (h ++ '/' :: t)) =
      { moduleName := sch ++ ':' :: '/' :: '/' :: (h ++ url.resolvePath ('/' :: t) sp)
          ++ queryPart q ++ fragmentPart f,
        filename := url.resolvePath ('/' :: t) sp } := by
  obtain ⟨hschne, hsl⟩ := lowerScheme_all sch hsch
  have hhb := plainHost_all h hh
  have hs' := all_plain_of_plainPath sp hs
  have hrp := resolvePath_plain ('/' :: t) sp hp hs'
  obtain ⟨r, hr⟩ := resolvePath_ne_nil ('/' :: t) sp (Or.inl (by simp))
  have hres := ResolveReference_hier sch h ('/' :: t) sp (q.getD []) (f.getD [])
    (decide (q = some [])) hp hs' hne
  rw [hr] at hrp
  have hstr := String_hier sch h r q f hschne hhb hrp hf
  unfold ResolveModule
  simp only [Parse_reference sp q f hs hne hq hf, Parse_hier sch h t hsch hh hp, hres,
    url.URL.IsAbs, hr, hstr]
  simp

/-! ## The components of RFC 3986 on plain references -/

theorem takeWhile_all (f : Char → Bool) (l : GoString) (h : ∀ x ∈ l, f x = true) :
    l.takeWhile f = l := by
  induction l with
  | nil => rfl
  | cons a l ih =>
    rw [List.takeWhile_cons_of_pos (h a (List.mem_cons_self _ _)),
      ih (fun x hx => h x (List.mem_cons_of_mem _ hx))]

theorem takeWhile_append_stop (f : Char → Bool) (a : GoString) (b : Char) (r : GoString)
    (h : ∀ x ∈ a, f x = true) (hb : f b = false) : (a ++ b :: r).takeWhile f = a := by
  induction a with
  | nil => simp [List.takeWhile_cons, hb]
  | cons c a ih =>
    rw [List.cons_append, List.takeWhile_cons_of_pos (h c (List.mem_cons_self _ _)),
      ih (fun x hx => h x (List.mem_cons_of_mem _ hx))]

/-- The byte after the longest run of `g` is not `x`, in a text without `x` that is
followed by nothing or by a byte that ends the run and is not `x`. -/
theorem head_after_run (g : Char → Bool) (x : Char) (a rest : GoString) (ha : x ∉ a)
    (hrest : rest = [] ∨ ∃ b r, rest = b :: r ∧ g b = false ∧ b ≠ x) :
    ((a ++ rest).drop ((a ++ rest).takeWhile g).length).head? ≠ some x := by
  induction a with
  | nil =>
    rcases hrest with rfl | ⟨b, r, rfl, hg, hb⟩
    · simp
    · rw [List.nil_append, List.takeWhile_cons_of_neg (by simp [hg])]
      simpa using hb
  | cons c a ih =>
    have hc : c ≠ x := fun h' => ha (h' ▸ List.mem_cons_self _ _)
    have ha2 : x ∉ a := fun h' => ha (List.mem_cons_of_mem _ h')
    rw [List.cons_append]
    by_cases hg : g c = true
    · rw [List.takeWhile_cons_of_pos hg]
      simpa using ih ha2
    · rw [List.takeWhile_cons_of_neg hg]
      simpa using hc

theorem rest_cases (q f : Option GoString) :
    queryPart q ++ fragmentPart f = [] ∨
      ∃ b r, queryPart q ++ fragmentPart f = b :: r ∧ (b = '?' ∨ b = '#') := by
  cases q with
  | none =>
    cases f with
    | none => left; rfl
    | some x => right; exact ⟨'#', x, rfl, Or.inr rfl⟩
  | some y => right; exact ⟨'?', y ++ fragmentPart f, rfl, Or.inl rfl⟩

theorem components_reference (sp : GoString) (q f : Option GoString)
    (hs : sp.all plainByte = true) (hpre : strings.HasPrefix sp "//".toList = false)
    (hne : sp ≠ []) (hq : plainQuery q = true) :
    RFC3986.components (sp ++ queryPart q ++ fragmentPart f) =
      { path := sp, query := q, fragment := f } := by
  have hcolon := plain_not_mem sp hs ':' (by decide)
  have hassoc : sp ++ queryPart q ++ fragmentPart f = sp ++ (queryPart q ++ fragmentPart f) :=
    List.append_assoc _ _ _
  rw [hassoc]
  have hgsp : ∀ x ∈ sp, (!"?#".toList.contains x) = true := by
    intro x hx
    have h1 : x ≠ '?' := fun h => plain_not_mem sp hs '?' (by decide) (h ▸ hx)
    have h2 : x ≠ '#' := fun h => plain_not_mem sp hs '#' (by decide) (h ▸ hx)
    simp [h1, h2]
  have hp : (sp ++ (queryPart q ++ fragmentPart f)).takeWhile (fun c => !"?#".toList.contains c)
      = sp := by
    rcases rest_cases q f with h | ⟨b, r, h, hb⟩
    · rw [h, List.append_nil]
      exact takeWhile_all _ sp hgsp
    · rw [h]
      apply takeWhile_append_stop _ sp b r hgsp
      rcases hb with rfl | rfl <;> decide
  have hhead : ((sp ++ (queryPart q ++ fragmentPart f)).drop
      ((sp ++ (queryPart q ++ fragmentPart f)).takeWhile
        (fun c => !":/?#".toList.contains c)).length).head? ≠ some ':' := by
    apply head_after_run _ ':' sp _ hcolon
    rcases rest_cases q f with h | ⟨b, r, h, hb⟩
    · exact Or.inl h
    · refine Or.inr ⟨b, r, h, ?_, ?_⟩
      · rcases hb with rfl | rfl <;> decide
      · rcases hb with rfl | rfl <;> decide
  have hauth : strings.HasPrefix (sp ++ (queryPart q ++ fragmentPart f)) "//".toList = false := by
    rcases sp with _ | ⟨a, _ | ⟨b, sp2⟩⟩
    · exact absurd rfl hne
    · rcases rest_cases q f with h | ⟨b, r, h, hb⟩
      · rw [h]; simp [strings.HasPrefix, List.isPrefixOf]
      · rw [h]
        have hb2 : ¬ ('/' = b) := by rcases hb with rfl | rfl <;> decide
        simp [strings.HasPrefix, List.isPrefixOf, hb2]
    · by_cases ha : '/' = a
      · by_cases hb : '/' = b
        · subst ha; subst hb
          simp [strings.HasPrefix, List.isPrefixOf] at hpre
        · simp [strings.HasPrefix, List.isPrefixOf, hb]
      · simp [strings.HasPrefix, List.isPrefixOf, ha]
  have hqv : ∀ y, q = some y →
      (y ++ fragmentPart f).takeWhile (fun c => decide (c ≠ '#')) = y := by
    intro y hy
    subst hy
    have hy2 : ∀ x ∈ y, decide (x ≠ '#') = true := by
      intro x hx
      have : '#' ∉ y := by
        simpa [plainQuery] using hq
      have hne2 : x ≠ '#' := fun h => this (h ▸ hx)
      simpa using hne2
    cases f with
    | none => rw [fragmentPart, List.append_nil]; exact takeWhile_all _ y hy2
    | some x => exact takeWhile_append_stop _ y '#' x hy2 (by decide)
  unfold RFC3986.components
  lift_lets
  extract_lets run hasScheme s1 hasAuthority auth s2 p s3 hasQuery qv s4
  have h1 : hasScheme = false := by
    simp only [hasScheme]
    rw [decide_eq_false_iff_not]
    exact fun h => hhead h.2
  have h2 : s1 = sp ++ (queryPart q ++ fragmentPart f) := by simp only [s1, h1]; simp
  have h3 : hasAuthority = false := by simp only [hasAuthority, h2]; exact hauth
  have h4 : s2 = sp ++ (queryPart q ++ fragmentPart f) := by simp only [s2, h3, h2]; simp
  have h5 : p = sp := by simp only [p, h4]; exact hp
  have h6 : s3 = queryPart q ++ fragmentPart f := by simp only [s3, h4, h5]; simp
  cases q with
  | none =>
    have h7 : hasQuery = false := by
      simp only [hasQuery, h6]
      cases f <;> simp [queryPart, fragmentPart]
    have h8 : s4 = fragmentPart f := by simp only [s4, h7, h6]; simp [queryPart]
    simp only [h1, h3, h5, h7, h8]
    cases f <;> simp [fragmentPart]
  | some y =>
    have h7 : hasQuery = true := by
      simp only [hasQuery, h6]
      simp [queryPart]
    have h7b : qv = y := by
      simp only [qv, h6]
      simpa [queryPart] using hqv y rfl
    have h8 : s4 = fragmentPart f := by
      simp only [s4, h7, h6, h7b, if_true, queryPart]
      rw [show 1 + y.length = y.length + 1 by omega, List.cons_append, List.drop_succ_cons,
        List.drop_left]
    simp only [h1, h3, h5, h7, h7b, h8]
    cases f <;> simp [fragmentPart]

theorem components_hier (sch h t : GoString) (hsch : lowerScheme sch = true)
    (hh : plainHost h = true) (hp : ('/' :: t).all plainByte = true) :
    RFC3986.components (sch ++ ':' :: '/' :: '/' :: (h ++ '/' :: t)) =
      { scheme := some sch, authority := some h, path := '/' :: t } := by
  obtain ⟨hne, hsl⟩ := lowerScheme_all sch hsch
  have hhb := plainHost_all h hh
  have hrun : (sch ++ ':' :: '/' :: '/' :: (h ++ '/' :: t)).takeWhile
      (fun c => !":/?#".toList.contains c) = sch := by
    apply takeWhile_append_stop
    · intro x hx
      have : ∀ y ∈ lowerLetters, (!":/?#".toList.contains y) = true := by decide
      exact this x (hsl x hx)
    · decide
  have hauth : (h ++ '/' :: t).takeWhile (fun c => !"/?#".toList.contains c) = h := by
    apply takeWhile_append_stop
    · intro x hx
      have : ∀ y ∈ authorityBytes, (!"/?#".toList.contains y) = true := by decide
      exact this x (hhb x hx)
    · decide
  have hpath : ('/' :: t).takeWhile (fun c => !"?#".toList.contains c) = '/' :: t := by
    apply takeWhile_all
    intro x hx
    have h1 : x ≠ '?' := fun h => plain_not_mem _ hp '?' (by decide) (h ▸ hx)
    have h2 : x ≠ '#' := fun h => plain_not_mem _ hp '#' (by decide) (h ▸ hx)
    simp [h1, h2]
  unfold RFC3986.components
  lift_lets
  extract_lets run hasScheme s1 hasAuthority auth s2 p s3 hasQuery q s4
  have h0 : run = sch := hrun
  have h1 : hasScheme = true := by
    simp only [hasScheme, h0]
    simp [hne]
  have h2 : s1 = '/' :: '/' :: (h ++ '/' :: t) := by
    simp only [s1, h1, h0]
    simp
  have h3 : hasAuthority = true := by
    simp only [hasAuthority, h2]
    simp [strings.HasPrefix, List.isPrefixOf]
  have h3a : auth = h := by
    simp only [auth, h2]
    simpa using hauth
  have h4 : s2 = '/' :: t := by
    simp only [s2, h3, h2, h3a, if_true]
    rw [show 2 + h.length = h.length + 1 + 1 by omega, List.drop_succ_cons, List.drop_succ_cons,
      List.drop_left]
  have h5 : p = '/' :: t := by simp only [p, h4]; exact hpath
  have h6 : s3 = [] := by simp only [s3, h4, h5]; simp
  have h7 : hasQuery = false := by simp only [hasQuery, h6]; simp
  have h8 : s4 = [] := by simp only [s4, h7, h6]; simp
  simp only [h0, h1, h3, h3a, h5, h7, h8]
  simp

theorem lastIndexFrom_nonneg (x : GoString) (i : Nat) (best : Int) (hb : 0 ≤ best) :
    0 ≤ strings.lastIndexFrom ['/'] x i best := by
  induction x generalizing i best with
  | nil => simpa [strings.lastIndexFrom] using hb
  | cons a x ih =>
    unfold strings.lastIndexFrom
    apply ih
    split
    · omega
    · exact hb

/-- The merge of section 5.2.3 on a rooted base path is rooted and has no empty
element, when the two paths have none and the reference is not rooted. -/
theorem merge_rooted (t s : GoString) (hp : doubleSlash ('/' :: t) = false)
    (hs : doubleSlash s = false) (hrel : s.head? ≠ some '/') :
    ∃ t2, sliceTo ('/' :: t) (strings.LastIndex ('/' :: t) "/".toList + 1) ++ s = '/' :: t2 ∧
      doubleSlash ('/' :: t2) = false := by
  have hnn : 0 ≤ strings.LastIndex ('/' :: t) "/".toList := by
    unfold strings.LastIndex strings.lastIndexFrom
    apply lastIndexFrom_nonneg
    simp [List.isPrefixOf]
  obtain ⟨k, hk⟩ : ∃ k : Nat, (strings.LastIndex ('/' :: t) "/".toList + 1).toNat = k + 1 :=
    ⟨(strings.LastIndex ('/' :: t) "/".toList).toNat, by omega⟩
  have htake : sliceTo ('/' :: t) (strings.LastIndex ('/' :: t) "/".toList + 1)
      = '/' :: t.take k := by
    have hk2 : (strings.LastIndex ('/' :: t) ['/'] + 1).toNat = k + 1 := hk
    simp [sliceTo, hk2]
  refine ⟨t.take k ++ s, by rw [htake]; rfl, ?_⟩
  have h1 : doubleSlash (('/' :: t).take (k + 1)) = false := doubleSlash_take _ _ hp
  have h2 := doubleSlash_append _ _ h1 hs hrel
  simpa using h2

/-- The transformation of section 5.2.2 on a plain reference against a base with a
scheme, a host and a rooted path: the path of the target is the path that
`resolvePath` returns. -/
theorem transform_hier (sch h t s : GoString) (q f : Option GoString) (hne : s ≠ [])
    (hs : doubleSlash s = false) (hp : doubleSlash ('/' :: t) = false) :
    RFC3986.transform { scheme := some sch, authority := some h, path := '/' :: t }
        { path := s, query := q, fragment := f }
      = { scheme := some sch, authority := some h, path := url.resolvePath ('/' :: t) s,
          query := q, fragment := f } := by
  unfold RFC3986.transform
  simp only [ne_eq, not_true_eq_false, if_false, hne]
  by_cases hrel : s.head? = some '/'
  · obtain ⟨s2, rfl⟩ : ∃ s2, s = '/' :: s2 := by
      cases s with
      | nil => simp at hrel
      | cons a s2 => simp at hrel; exact ⟨s2, by rw [hrel]⟩
    rw [resolvePath_abs, resolvePath_eq_removeDotSegments s2 hs]
    simp
  · obtain ⟨t2, hm, hds⟩ := merge_rooted t s hp hs hrel
    rw [resolvePath_merged ('/' :: t) s t2 hne hrel hm, resolvePath_eq_removeDotSegments t2 hds]
    simp only [hrel, if_false, RFC3986.merge, reduceCtorEq, and_false, hm]

/-! ## C2 -/

/-- C2 as stated fails.  Against the absolute containing file `file:///a/../b.ts`
the relative specifier `?v=2` gets the moduleName `file:///b.ts?v=2`, where RFC
3986 keeps the base path as it is: `file:///a/../b.ts?v=2`.  Against
`file:///proj/a.ts` the specifier `./b.ts#`, with its empty fragment, gets the
moduleName `file:///proj/b.ts`, where RFC 3986 keeps the fragment:
`file:///proj/b.ts#`.  Against `file:///a.ts` the specifier `..//x.ts`, with its
empty element, gets `file:///x.ts`, where RFC 3986 keeps the empty element:
`file:////x.ts`.  Against `FILE:///proj/a.ts` the specifier `./b.ts` gets the
scheme in lower case, `file:///proj/b.ts`, where RFC 3986 copies the scheme of the
base.  Against `file:proj/a.ts`, which has a scheme and no `//`, the specifier
`b.ts` gets `file:///b.ts`, where RFC 3986 gives `file:proj/b.ts`.  And against
`file:///proj/a.ts` the specifier `./b%41.ts` gets the filename `/proj/bA.ts`, the
path with its escape decoded, where the path of the RFC 3986 resolution is
`/proj/b%41.ts`. -/
theorem C2_resolution_departs_from_RFC3986 :
    isAbsolute "?v=2".toList = false ∧ isAbsolute "file:///a/../b.ts".toList = true ∧
    ResolveModule Example.srcDir "?v=2".toList "file:///a/../b.ts".toList
      = { moduleName := "file:///b.ts?v=2".toList, filename := "/b.ts".toList } ∧
    RFC3986.resolve "?v=2".toList "file:///a/../b.ts".toList = "file:///a/../b.ts?v=2".toList ∧
    isAbsolute "./b.ts#".toList = false ∧ isAbsolute "file:///proj/a.ts".toList = true ∧
    ResolveModule Example.srcDir "./b.ts#".toList "file:///proj/a.ts".toList
      = { moduleName := "file:///proj/b.ts".toList, filename := "/proj/b.ts".toList } ∧
    RFC3986.resolve "./b.ts#".toList "file:///proj/a.ts".toList = "file:///proj/b.ts#".toList ∧
    isAbsolute "..//x.ts".toList = false ∧ isAbsolute "file:///a.ts".toList = true ∧
    ResolveModule Example.srcDir "..//x.ts".toList "file:///a.ts".toList
      = { moduleName := "file:///x.ts".toList, filename := "/x.ts".toList } ∧
    RFC3986.resolve "..//x.ts".toList "file:///a.ts".toList = "file:////x.ts".toList ∧
    isAbsolute "./b.ts".toList = false ∧ isAbsolute "FILE:///proj/a.ts".toList = true ∧
    ResolveModule Example.srcDir "./b.ts".toList "FILE:///proj/a.ts".toList
      = { moduleName := "file:///proj/b.ts".toList, filename := "/proj/b.ts".toList } ∧
    RFC3986.resolve "./b.ts".toList "FILE:///proj/a.ts".toList = "FILE:///proj/b.ts".toList ∧
    isAbsolute "b.ts".toList = false ∧ isAbsolute "file:proj/a.ts".toList = true ∧
    ResolveModule Example.srcDir "b.ts".toList "file:proj/a.ts".toList
      = { moduleName := "file:///b.ts".toList, filename := "/b.ts".toList } ∧
    RFC3986.resolve "b.ts".toList "file:proj/a.ts".toList = "file:proj/b.ts".toList ∧
    isAbsolute "./b%41.ts".toList = false ∧
    ResolveModule Example.srcDir "./b%41.ts".toList "file:///proj/a.ts".toList
      = { moduleName := "file:///proj/b%41.ts".toList, filename := "/proj/bA.ts".toList } ∧
    (RFC3986.transform (RFC3986.components "file:///proj/a.ts".toList)
      (RFC3986.components "./b%41.ts".toList)).path = "/proj/b%41.ts".toList := by
  refine ⟨by decide, by decide, by decide, by decide, ?_⟩
  refine ⟨by decide, by decide, by decide, by decide, ?_⟩
  refine ⟨by decide, by decide, by decide, by decide, ?_⟩
  refine ⟨by decide, by decide, by decide, by decide, ?_⟩
  refine ⟨by decide, by decide, by decide, by decide, ?_⟩
  exact ⟨by decide, by decide, by decide⟩

/-- C2 (amended). Take a relative specifier s that is a plain path, not empty,
followed or not by a query and by a fragment (the query without `#`, the fragment
not empty and of plain bytes), and an absolute containing file c that is a scheme
of lower-case letters, `://`, a plain host (or none) with or without a port, and a
rooted plain path; neither path has two slashes in a row.  Then `ResolveModule(s,
c)` returns without error the RFC 3986 reference resolution of s against c as
moduleName, and the path of that resolution as filename.  In particular
`ResolveModule("./b.ts", "file:///proj/a.ts")` returns the moduleName
`file:///proj/b.ts`, the filename `/proj/b.ts` and no error. -/
theorem C2_resolution_is_RFC3986 (S sp sch h p : GoString) (q f : Option GoString)
    (hs : plainElements sp = true) (hne : sp ≠ [])
    (hq : plainQuery q = true) (hf : plainFragment f = true)
    (hsch : lowerScheme sch = true) (hh : plainHost h = true)
    (hp : plainElements p = true) (hroot : p.head? = some '/') :
    isAbsolute (sp ++ queryPart q ++ fragmentPart f) = false ∧
    isAbsolute (sch ++ "://".toList ++ h ++ p) = true ∧
    ResolveModule S (sp ++ queryPart q ++ fragmentPart f) (sch ++ "://".toList ++ h ++ p) =
      { moduleName :=
          RFC3986.resolve (sp ++ queryPart q ++ fragmentPart f) (sch ++ "://".toList ++ h ++ p),
        filename :=
          (RFC3986.transform (RFC3986.components (sch ++ "://".toList ++ h ++ p))
            (RFC3986.components (sp ++ queryPart q ++ fragmentPart f))).path,
        err := none } ∧
    ResolveModule S "./b.ts".toList "file:///proj/a.ts".toList =
      { moduleName := "file:///proj/b.ts".toList, filename := "/proj/b.ts".toList,
        err := none } := by
  obtain ⟨t, rfl⟩ : ∃ t, p = '/' :: t := by
    cases p with
    | nil => simp at hroot
    | cons c t => simp at hroot; exact ⟨t, by rw [hroot]⟩
  obtain ⟨hs1, hs2⟩ := plainElements_iff sp hs
  obtain ⟨hp1, hp2⟩ := plainElements_iff _ hp
  have hsp := plainPath_of_plainElements sp hs
  have hspre : strings.HasPrefix sp "//".toList = false := by
    unfold plainPath at hsp
    simpa [hs1] using hsp
  have hc : sch ++ "://".toList ++ h ++ '/' :: t = sch ++ ':' :: '/' :: '/' :: (h ++ '/' :: t) := by
    simp
  have hschne := (lowerScheme_all sch hsch).1
  rw [hc]
  refine ⟨?_, ?_, ?_, ?_⟩
  · unfold isAbsolute
    rw [Parse_reference sp q f hsp hne hq hf]
    rfl
  · simp [isAbsolute, Parse_hier sch h t hsch hh hp1, url.URL.IsAbs, hschne]
  · rw [ResolveModule_hier S sp sch h t q f hsp hne hq hf hsch hh hp1]
    unfold RFC3986.resolve
    rw [components_hier sch h t hsch hh hp1, components_reference sp q f hs1 hspre hne hq,
      transform_hier sch h t sp q f hne hs2 hp2]
    cases q <;> cases f <;> simp [RFC3986.recompose, queryPart, fragmentPart]
  · have h := ResolveModule_hier S "./b.ts".toList "file".toList [] "proj/a.ts".toList none none
      (by decide) (by decide) (by decide) (by decide) (by decide) (by decide) (by decide)
    have hr : url.resolvePath ('/' :: "proj/a.ts".toList) "./b.ts".toList = "/proj/b.ts".toList := by
      decide
    rw [hr] at h
    exact h

theorem C2_resolution_is_RFC3986_witness :
    plainElements "../lib/util.ts".toList = true ∧ plainQuery (some "v=2".toList) = true ∧
    plainFragment none = true ∧ lowerScheme "http".toList = true ∧
    plainHost "localhost:4545".toList = true ∧ plainElements "/x/app/main.ts".toList = true ∧
    RFC3986.resolve "../lib/util.ts?v=2".toList "http://localhost:4545/x/app/main.ts".toList
      = "http://localhost:4545/x/lib/util.ts?v=2".toList ∧
    ResolveModule Example.srcDir "../lib/util.ts?v=2".toList
        "http://localhost:4545/x/app/main.ts".toList =
      { moduleName := "http://localhost:4545/x/lib/util.ts?v=2".toList,
        filename := "/x/lib/util.ts".toList, err := none } :=
  ⟨by decide, by decide, by decide, by decide, by decide, by decide, by decide,
    ((C2_resolution_is_RFC3986 Example.srcDir "../lib/util.ts".toList "http".toList
      "localhost:4545".toList "/x/app/main.ts".toList (some "v=2".toList) none
      (by decide) (by decide) (by decide) (by decide) (by decide) (by decide) (by decide)
      (by decide)).2.2.1).trans (by decide)⟩

end Deno
